import Mathlib

/-!
# aiyaml: the line parser `YAMLParser.LinesToMap` and the fragment accumulator

A shallow embedding of `src/yaml_parser.go`, `src/utils.go`, `src/yaml.go`, of the
method `ProcessAIResponseEvents` of `src/event_processor.go` and of
`ValidateConfig` of `src/sdk.go`.

* Go strings are modelled as lists of Unicode code points (`Str`); every
  pattern the code looks for is ASCII, so a byte-level and a code-point-level
  reading agree on valid UTF-8 text.
* `map[string]interface{}` is a reference type: the parser keeps references to
  maps on its frame stack and mutates them through those references.  The
  embedding therefore has an explicit heap of maps addressed by index; address
  `0` is the `result` map.
* `[]interface{}` values are only ever rebuilt by `append` and stored back under
  their key, so they are modelled as immutable lists.
* A run-time panic of the Go code is the outcome `panicked`.
* `json.Unmarshal` belongs to the library: the method that calls it takes the
  decoder as a parameter, and `jsonUnmarshal` fixes it on texts that begin no
  JSON value.
* A `float64` is only ever compared: it is modelled as not-a-number, an infinity
  or a rational number, with the comparisons of IEEE 754.
-/

namespace Aiyaml

/-- Go `string`, as the list of its code points. -/
abbrev Str := List Char

/-! ## The `strings` and `regexp` functions used by the code -/

/-- Go `unicode.IsSpace`: the code points `strings.TrimSpace` removes. -/
def isSpace (c : Char) : Bool :=
  let n := c.toNat
  n == 9 || n == 10 || n == 11 || n == 12 || n == 13 || n == 32 ||
  n == 0x85 || n == 0xA0 || n == 0x1680 || (decide (0x2000 ≤ n) && decide (n ≤ 0x200A)) ||
  n == 0x2028 || n == 0x2029 || n == 0x202F || n == 0x205F || n == 0x3000

/-- Go `strings.TrimSpace`. -/
def TrimSpace (s : Str) : Str :=
  ((s.dropWhile isSpace).reverse.dropWhile isSpace).reverse

/-- Go `strings.HasPrefix`. -/
def HasPrefix (s p : Str) : Bool := p.isPrefixOf s

/-- Go `strings.HasSuffix`. -/
def HasSuffix (s p : Str) : Bool := p.reverse.isPrefixOf s.reverse

/-- Go `strings.TrimPrefix`. -/
def TrimPrefix (s p : Str) : Str := if HasPrefix s p then s.drop p.length else s

/-- Go `strings.TrimSuffix`. -/
def TrimSuffix (s p : Str) : Str :=
  if HasSuffix s p then s.take (s.length - p.length) else s

/-- Go `strings.TrimRight(s, cutset)`: drops every trailing code point that is
in `cutset`. -/
def TrimRight (s cutset : Str) : Str :=
  ((s.reverse).dropWhile (fun c => cutset.contains c)).reverse

/-- Go `strings.Count(s, "\t")`. -/
def CountTab : Str → Nat
  | [] => 0
  | c :: rest => if c = Char.ofNat 9 then CountTab rest + 1 else CountTab rest

/-- Go `strings.Count(s, "  ")`: non-overlapping occurrences of two spaces,
scanning from the left. -/
def CountDoubleSpace : Str → Nat
  | [] => 0
  | [_] => 0
  | c :: d :: rest =>
    if c = ' ' ∧ d = ' ' then CountDoubleSpace rest + 1 else CountDoubleSpace (d :: rest)

/-- Go `strings.SplitN(s, ":", 2)`: `none` stands for the one-element result
`[s]` (no colon), `some (a, b)` for the two parts around the first colon. -/
def SplitN2 : Str → Option (Str × Str)
  | [] => none
  | c :: rest =>
    if c = ':' then some ([], rest)
    else match SplitN2 rest with
      | none => none
      | some (a, b) => some (c :: a, b)

/-- The character class `[a-zA-Z]`. -/
def isLetter (c : Char) : Bool :=
  (decide (97 ≤ c.toNat) && decide (c.toNat ≤ 122)) ||
  (decide (65 ≤ c.toNat) && decide (c.toNat ≤ 90))

/-- The decimal digits `0` to `9`. -/
def isDigit (c : Char) : Bool := decide (48 ≤ c.toNat) && decide (c.toNat ≤ 57)

/-- The character class `.` of Go `regexp` (no `s` flag): anything but a newline. -/
def isDot (c : Char) : Bool := c != Char.ofNat 10

/-- The regexp `^.*[a-zA-Z]+: .*` of `LinesToMap`, as `MatchString`: some letter is
directly followed by a colon and a space, and no newline precedes that letter. -/
def reItem : Str → Bool
  | [] => false
  | c :: rest =>
    if isLetter c && HasPrefix rest [':', ' '] then true
    else if isDot c then reItem rest else false

/-- `KeyValuePattern`, the regexp `^.*[a-zA-Z]+:.*`, as `MatchString`. -/
def KeyValuePattern : Str → Bool
  | [] => false
  | c :: rest =>
    if isLetter c && HasPrefix rest [':'] then true
    else if isDot c then KeyValuePattern rest else false

/-- `KeyValueWithContent`, the regexp `^.*[a-zA-Z]+: .+`, as `MatchString`. -/
def KeyValueWithContent : Str → Bool
  | [] => false
  | c :: rest =>
    if isLetter c && HasPrefix rest [':', ' '] && (match rest.drop 2 with
        | [] => false
        | d :: _ => isDot d) then true
    else if isDot c then KeyValueWithContent rest else false

/-- `StringUtils.CalculateIndent`; `LinesToMap` inlines the same two statements
for the current line and for the lookahead line. -/
def CalculateIndent (line : Str) : Nat :=
  let indent := CountTab line
  if indent = 0 then CountDoubleSpace line else indent

/-! ## Values, the heap of maps, and the frame stack -/

/-- A Go `interface{}` as the parser produces it: a string, a (reference to a)
`map[string]interface{}`, or a `[]interface{}`. -/
inductive Value where
  | str (s : Str)
  | mapRef (addr : Nat)
  | arr (xs : List Value)

/-- The contents of one `map[string]interface{}`: keys are unique, the list order
is the order of first insertion and carries no meaning. -/
abbrev GoMap := List (Str × Value)

/-- Looking a key up in a list of key/value pairs with unique keys. -/
def assocGet {β : Type} : List (Str × β) → Str → Option β
  | [], _ => none
  | (k, v) :: rest, key => if k = key then some v else assocGet rest key

/-- Binding a key in a list of key/value pairs: an existing binding is replaced,
a new one is added at the end. -/
def assocSet {β : Type} : List (Str × β) → Str → β → List (Str × β)
  | [], key, v => [(key, v)]
  | (k, w) :: rest, key, v =>
    if k = key then (k, v) :: rest else (k, w) :: assocSet rest key v

/-- Go `m[k]` with the comma-ok result. -/
def GoMap.get (m : GoMap) (key : Str) : Option Value := assocGet m key

/-- Go `m[k] = v`. -/
def GoMap.set (m : GoMap) (key : Str) (v : Value) : GoMap := assocSet m key v

/-- The maps allocated so far; a map reference is an index into this list. -/
abbrev Heap := List GoMap

/-- The map a reference points to. -/
def Heap.deref (h : Heap) (a : Nat) : GoMap := h.getD a []

/-- Go `p[key] = v` through the reference `a`. -/
def Heap.store : Heap → Nat → Str → Value → Heap
  | [], _, _, _ => []
  | m :: rest, 0, key, v => m.set key v :: rest
  | m :: rest, a + 1, key, v => m :: Heap.store rest a key v

/-- The local type `node` of `LinesToMap`. -/
structure node where
  value : Value
  key : Str
  indent : Int

/-- The variables of `LinesToMap` that live across loop iterations: the maps and
the frame stack.  The top of the stack (`stack[len(stack)-1]`) is the head of
the list. -/
structure State where
  heap : Heap
  stack : List node

/-- The `for len(stack) > 0 && indent <= stack[len(stack)-1].indent` loop. -/
def popFrames (indent : Nat) : List node → List node
  | [] => []
  | f :: rest => if (indent : Int) ≤ f.indent then popFrames indent rest else f :: rest

/-- The lookahead of a list item: `i+1 < len(lines)` and `nextIndent > indent`. -/
def nextDeeper (indent : Nat) : Option Str → Bool
  | none => false
  | some nextLine => decide (CalculateIndent nextLine > indent)

/-- The lookahead of a key without a value, the variable `isArray`. -/
def isArrayNext (indent : Nat) : Option Str → Bool
  | none => false
  | some nextLine =>
    let nextTrimmed := TrimSpace nextLine
    (nextTrimmed != []) && HasPrefix nextTrimmed ['-', ' '] &&
      decide (CalculateIndent nextLine > indent)

/-- The body of the loop of `LinesToMap` below the blank/comment test, with
`indent` and `trimmedLine` already computed.  `none` is a run-time panic. -/
def processTrimmed (indent : Nat) (trimmedLine : Str) (next : Option Str) (st : State) :
    Option State :=
  match popFrames indent st.stack with
  | [] => none
  | parent :: below =>
    if HasPrefix trimmedLine ['-', ' '] = true ∧ 1 < (parent :: below).length then
      match below with
      | [] => none
      | grand :: rest =>
        match grand.value with
        | Value.mapRef a =>
          let arr : List Value :=
            match (st.heap.deref a).get parent.key with
            | some (Value.arr xs) => xs
            | _ => []
          let itemStr := TrimPrefix trimmedLine ['-', ' ']
          if reItem itemStr = true then
            match SplitN2 itemStr with
            | none => none
            | some (p0, p1) =>
              let k := TrimSpace p0
              let v := TrimSpace p1
              let item := st.heap.length
              let heap1 := st.heap ++ [[(k, Value.str v)]]
              let stack1 :=
                if nextDeeper indent next = true then
                  { value := Value.mapRef item, key := [], indent := indent }
                    :: parent :: grand :: rest
                else parent :: grand :: rest
              some { heap := heap1.store a parent.key (Value.arr (arr ++ [Value.mapRef item])),
                     stack := stack1 }
          else
            some { heap := st.heap.store a parent.key (Value.arr (arr ++ [Value.str itemStr])),
                   stack := parent :: grand :: rest }
        | _ => some { heap := st.heap, stack := parent :: grand :: rest }
    else
      match SplitN2 trimmedLine with
      | none => some { heap := st.heap, stack := parent :: below }
      | some (p0, p1) =>
        let key := TrimSpace p0
        let value := TrimSpace p1
        match parent.value with
        | Value.mapRef a =>
          if value = [] then
            if isArrayNext indent next = true then
              some { heap := st.heap.store a key (Value.arr []),
                     stack := { value := Value.arr [], key := key, indent := indent }
                                :: parent :: below }
            else
              let newMap := st.heap.length
              some { heap := (st.heap ++ [[]]).store a key (Value.mapRef newMap),
                     stack := { value := Value.mapRef newMap, key := key, indent := indent }
                                :: parent :: below }
          else
            some { heap := st.heap.store a key (Value.str value), stack := parent :: below }
        | _ => none

/-- One iteration of the loop of `LinesToMap` on `lines[i] = line`, with
`next = lines[i+1]` when it exists.  `none` is a run-time panic: the unchecked
type assertion `parent.value.(map[string]interface{})` on a frame that holds a
slice. -/
def processLine (line : Str) (next : Option Str) (st : State) : Option State :=
  if TrimSpace line = [] ∨ HasPrefix (TrimSpace line) ['#'] = true then some st
  else processTrimmed (CalculateIndent line) (TrimSpace line) next st

/-- The `for i := 0; i < len(lines); i++` loop. -/
def runLines : List Str → State → Option State
  | [], st => some st
  | line :: rest, st =>
    match processLine line rest.head? st with
    | none => none
    | some st1 => runLines rest st1

/-- The state before the loop: `result` is the empty map at address `0` and the
stack holds the root frame `{value: result, key: "", indent: -1}`. -/
def initState : State :=
  { heap := [[]], stack := [{ value := Value.mapRef 0, key := [], indent := -1 }] }

/-! ## What a caller sees -/

/-- A Go value with every map reference followed: the value a caller reads. -/
inductive Tree where
  | scalar (s : Str)
  | mapping (kvs : List (Str × Tree))
  | sequence (xs : List Tree)

/-- All of a list of optional results, when none is missing. -/
def allSome {α : Type} : List (Option α) → Option (List α)
  | [] => some []
  | none :: _ => none
  | some x :: rest =>
    match allSome rest with
    | none => none
    | some xs => some (x :: xs)

/-- Reading a value out of the heap, following at most `fuel` nested containers;
`none` when the nesting is deeper than `fuel`. -/
def reify (h : Heap) : Nat → Value → Option Tree
  | _, Value.str s => some (Tree.scalar s)
  | 0, _ => none
  | fuel + 1, Value.mapRef a =>
    match allSome ((h.deref a).map fun kv =>
        match reify h fuel kv.2 with
        | none => none
        | some t => some (kv.1, t)) with
    | none => none
    | some kvs => some (Tree.mapping kvs)
  | fuel + 1, Value.arr xs =>
    match allSome (xs.map fun v => reify h fuel v) with
    | none => none
    | some ts => some (Tree.sequence ts)

/-- How a call ends: it returns a pair `(value, err)` or it panics. -/
inductive Outcome (α : Type) where
  | returned (value : α) (err : Option Str)
  | panicked

/-- The returned `result` map as the caller reads it.  References always point
to maps allocated later than the map holding them, and a map holds a slice or a
reference, so `2 * h.length` levels reach every value (`toTree_isSome`). -/
def Heap.toTree (h : Heap) : Option Tree := reify h (2 * h.length) (Value.mapRef 0)

/-- `YAMLParser.LinesToMap`: the pair `(result, nil)` it returns, or a panic.  The
value `none` would be Go's `nil` map. -/
def LinesToMap (lines : List Str) : Outcome (Option Tree) :=
  match runLines lines initState with
  | none => Outcome.panicked
  | some st => Outcome.returned st.heap.toTree none

/-- `YamlLinesToMap` (`src/yaml.go`), through `Processor.ProcessYAMLLines`: the
logger apart, a call of `LinesToMap`. -/
def YamlLinesToMap (lines : List Str) : Outcome (Option Tree) := LinesToMap lines

/-! ## Well-formed heaps -/

/-- An element of a slice stored in the map at address `a`, in a heap of `n`
maps: a string, or a reference to a map allocated after `a`. -/
def elemOk (n a : Nat) : Value → Prop
  | Value.str _ => True
  | Value.mapRef b => a < b ∧ b < n
  | Value.arr _ => False

/-- A value stored in the map at address `a`, in a heap of `n` maps: a string, a
reference to a map allocated after `a`, or a slice of such. -/
def valueOk (n a : Nat) : Value → Prop
  | Value.str _ => True
  | Value.mapRef b => a < b ∧ b < n
  | Value.arr xs => ∀ x ∈ xs, elemOk n a x

/-- Every map of the heap holds only strings, slices, and references to maps
allocated after it. -/
def Heap.WF (h : Heap) : Prop := ∀ a, ∀ p ∈ h.deref a, valueOk h.length a p.2

/-- The invariant of the loop of `LinesToMap` that makes the result readable:
the heap is well formed, not empty, and every frame refers to an allocated map. -/
def State.Inv (st : State) : Prop :=
  st.heap.WF ∧ 0 < st.heap.length ∧
    ∀ f ∈ st.stack, ∀ a, f.value = Value.mapRef a → a < st.heap.length

/-! ## The input classes the properties speak of -/

/-- A non-empty string of letters. -/
def isLetters (s : Str) : Bool := !s.isEmpty && s.all isLetter

/-- A non-empty string of letters and digits. -/
def isLettersDigits (s : Str) : Bool := !s.isEmpty && s.all fun c => isLetter c || isDigit c

/-- A non-empty string of letters, digits and dots. -/
def isLettersDigitsDots (s : Str) : Bool :=
  !s.isEmpty && s.all fun c => isLetter c || isDigit c || c == '.'

/-- A key as the tests write them: a non-empty string of letters, digits and
underscores. -/
def isKey (s : Str) : Bool := !s.isEmpty && s.all fun c => isLetter c || isDigit c || c == '_'

/-- The value of the last pair with key `key`, when there is one. -/
def lastValue : List (Str × Str) → Str → Option Str
  | [], _ => none
  | (k, v) :: rest, key =>
    match lastValue rest key with
    | some w => some w
    | none => if k = key then some v else none

/-- The value a mapping holds under `key`. -/
def Tree.lookup (kvs : List (Str × Tree)) (key : Str) : Option Tree := assocGet kvs key

/-! ## The fragment accumulator of `src/yaml.go` -/

/-- The type `SSEvent`: a fragment of text and an optional error. -/
structure SSEvent where
  Data : Str
  Err : Option Str

/-- The opening fence, three backticks and `yaml`. -/
def fenceOpen : Str := "```yaml".toList

/-- The closing fence, three backticks. -/
def fenceClose : Str := "```".toList

/-- The line feed character. -/
def newline : Char := Char.ofNat 10

/-- The backslash character. -/
def backslash : Char := Char.ofNat 92

/-- `StringUtils.CleanYAMLMarkers`. -/
def CleanYAMLMarkers (line : Str) : Str :=
  let line := TrimPrefix line fenceOpen
  let line := TrimPrefix line (fenceOpen ++ [newline])
  let line := TrimSuffix line fenceClose
  let line := TrimSuffix line (newline :: fenceClose)
  line

/-- The variables `result` and `line` of `ProcessAIResponseEvents` (`allContent` is
only logged). -/
structure Acc where
  result : List Str
  line : Str

/-- The body of the `for event := range eventChan` loop of the package-level
`ProcessAIResponseEvents`, after the two error checks: append the fragment to
`line` and, when `line` ends with a line feed or with a backslash followed by
`n`, merge it into the last committed line or commit it. -/
def feed (acc : Acc) (data : Str) : Acc :=
  let line := acc.line ++ data
  if HasSuffix line [newline] || HasSuffix line [backslash, 'n'] then
    let preLine : Str := acc.result.getLast?.getD []
    if !KeyValuePattern line && decide (0 < acc.result.length) &&
        (!HasPrefix (TrimSpace line) ['-', ' '] || KeyValueWithContent preLine) then
      let line := preLine ++ line
      let line := TrimRight line [newline]
      let line := TrimRight line [backslash, 'n']
      { result := acc.result.dropLast ++ [line], line := [] }
    else
      let line := CleanYAMLMarkers line
      if TrimSpace line = [] then { result := acc.result, line := line }
      else
        let line := TrimRight line [newline]
        let line := TrimRight line [backslash, 'n']
        { result := acc.result ++ [line], line := [] }
  else { result := acc.result, line := line }

/-- The `for event := range eventChan` loop: `ctx i` is what `ctx.Err()` returns
at its `i`-th poll, the list holds the events received until the channel is
closed.  An error ends the call with `return nil, err`; a context keeps
returning the error it has once returned, so the `ctx.Err()` of the `return`
statement is the polled one. -/
def accumulate (ctx : Nat → Option Str) : Nat → List SSEvent → Acc → Except Str Acc
  | _, [], acc => Except.ok acc
  | i, event :: rest, acc =>
    match ctx i with
    | some e => Except.error e
    | none =>
      match event.Err with
      | some e => Except.error e
      | none => accumulate ctx (i + 1) rest (feed acc event.Data)

/-- The package-level `ProcessAIResponseEvents` of `src/yaml.go`. -/
def ProcessAIResponseEvents (ctx : Nat → Option Str) (eventChan : List SSEvent) :
    Outcome (Option Tree) :=
  match accumulate ctx 0 eventChan { result := [], line := [] } with
  | Except.error e => Outcome.returned none (some e)
  | Except.ok acc =>
    let line := CleanYAMLMarkers acc.line
    let result := if TrimSpace line = [] then acc.result else acc.result ++ [line]
    YamlLinesToMap result

/-- A context that is never cancelled. -/
def background : Nat → Option Str := fun _ => none

/-- The text of `lines`, each followed by a line feed, one fragment per line. -/
def perLine (lines : List Str) : List SSEvent :=
  lines.map fun l => { Data := l ++ [newline], Err := none }

/-- The text of `lines`, each followed by a line feed. -/
def joinLines : List Str → Str
  | [] => []
  | l :: rest => l ++ newline :: joinLines rest

/-- The same text, one fragment per character. -/
def perChar (lines : List Str) : List SSEvent :=
  (joinLines lines).map fun c => { Data := [c], Err := none }

/-- Whether a backslash directly followed by `n` occurs in the string. -/
def hasEscape : Str → Bool
  | [] => false
  | [_] => false
  | c :: d :: rest => (c == backslash && d == 'n') || hasEscape (d :: rest)

/-! ## Inputs and notions the properties are stated with -/

/-- A character that is neither white space nor one of the marks the parser
looks for. -/
def plain (c : Char) : Prop :=
  isSpace c = false ∧ c ≠ ' ' ∧ c ≠ Char.ofNat 9 ∧ c ≠ Char.ofNat 10 ∧ c ≠ ':' ∧ c ≠ '-' ∧
    c ≠ '#'

/-- A trimmed line body the first statements of the loop read as it stands: no
white space at either end, no tab, no two spaces in a row, not empty and not a
comment. -/
def Tidy (body : Str) : Prop :=
  (∀ c, body.head? = some c → isSpace c = false) ∧
  (∀ c, body.getLast? = some c → isSpace c = false) ∧
  (∀ c ∈ body, c ≠ Char.ofNat 9) ∧ CountDoubleSpace body = 0 ∧ body ≠ [] ∧
  HasPrefix body ['#'] = false

/-- A line the loop of `LinesToMap` skips: blank or a comment once trimmed. -/
def isSkipped (line : Str) : Bool :=
  decide (TrimSpace line = []) || HasPrefix (TrimSpace line) ['#']

/-- The answer an iteration of the loop takes from its lookahead line, when it
reads it: a list item `- key: value` asks whether the next line is indented
deeper (`nextIndent > indent`), a key with an empty value asks whether the next
line is a deeper list item (`isArray`).  `none` when the iteration takes no
answer: it does not read the next line, or it panics whatever that line is
(a key with an empty value below a frame that holds a slice). -/
def lookaheadAnswer (line : Str) (next : Option Str) (st : State) : Option Bool :=
  if TrimSpace line = [] ∨ HasPrefix (TrimSpace line) ['#'] = true then none
  else
    match popFrames (CalculateIndent line) st.stack with
    | [] => none
    | parent :: below =>
      if HasPrefix (TrimSpace line) ['-', ' '] = true ∧ 1 < (parent :: below).length then
        match below with
        | [] => none
        | grand :: _ =>
          match grand.value with
          | Value.mapRef _ =>
            if reItem (TrimPrefix (TrimSpace line) ['-', ' ']) = true then
              some (nextDeeper (CalculateIndent line) next)
            else none
          | _ => none
      else
        match SplitN2 (TrimSpace line) with
        | none => none
        | some (_, p1) =>
          match parent.value with
          | Value.mapRef _ =>
            if TrimSpace p1 = [] then some (isArrayNext (CalculateIndent line) next) else none
          | _ => none

/-- Along the loop from the state `st`, every iteration takes from its lookahead
line `lines[i+1]` the answer it would take from the next line that is not blank
or a comment (from the end of the input when there is none).  The two differ
only when `lines[i+1]` is blank or a comment and the iteration reads it. -/
def lookaheadSafe : List Str → State → Bool
  | [], _ => true
  | line :: rest, st =>
    decide (lookaheadAnswer line rest.head? st =
      lookaheadAnswer line (rest.filter fun l => !isSkipped l).head? st) &&
    match processLine line (rest.filter fun l => !isSkipped l).head? st with
    | none => true
    | some st1 => lookaheadSafe rest st1

/-- The lines `"  - a: x"`, `"    b: y"` of each item `(x, y)`, in order. -/
def itemLines (a b : Str) : List (Str × Str) → List Str
  | [] => []
  | (x, y) :: rest =>
    ([' ', ' ', '-', ' '] ++ a ++ [':', ' '] ++ x) ::
      ([' ', ' ', ' ', ' '] ++ b ++ [':', ' '] ++ y) :: itemLines a b rest

/-- The maps after the items `done` of a list under the root key `k`: the root map
holds the slice of references, each item has its own map. -/
def itemHeap (k a b : Str) (done : List (Str × Str)) : Heap :=
  [(k, Value.arr ((List.range' 1 done.length).map Value.mapRef))] ::
    done.map fun p => [(a, Value.str p.1), (b, Value.str p.2)]

/-- The lines `k_i:` for the keys in order, the first indented by `2 * i` spaces and
each next one by two more. -/
def chainLines : Nat → List Str → List Str
  | _, [] => []
  | i, k :: ks => (List.replicate (2 * i) ' ' ++ k ++ [':']) :: chainLines (i + 1) ks

/-- The maps of a chain of nested keys, the first at address `base`, each holding
a reference to the next, the last one empty. -/
def chainHeap : Nat → List Str → Heap
  | _, [] => [[]]
  | base, k :: ks => [(k, Value.mapRef (base + 1))] :: chainHeap (base + 1) ks

/-- The chain of mappings `{k_0: {k_1: ... {}}}`. -/
def chainTree : List Str → Tree
  | [] => Tree.mapping []
  | k :: ks => Tree.mapping [(k, chainTree ks)]

/-! ## Notions for the stream and the frame stack -/

/-- A text delivered one character per fragment, none with an error. -/
def charFragments (text : Str) : List SSEvent :=
  text.map fun c => { Data := [c], Err := none }

/-- The root frame `{value: result, key: "", indent: -1}` the stack starts with. -/
def rootFrame : node := { value := Value.mapRef 0, key := [], indent := -1 }

/-- The shape of the frame stack: the indents grow strictly from the bottom to the
top, and the bottom frame is the root frame. -/
def StackInv (stack : List node) : Prop :=
  stack.Pairwise (fun f g => g.indent < f.indent) ∧ stack.getLast? = some rootFrame

/-! ## The utilities of `src/utils.go` and the configuration check of `src/sdk.go` -/

/-- `StringUtils.ParseKeyValue`: the triple `(key, value, ok)`. -/
def ParseKeyValue (line : Str) : Str × Str × Bool :=
  match SplitN2 line with
  | none => ([], [], false)
  | some (p0, p1) => (TrimSpace p0, TrimSpace p1, true)

/-- The result of `ParseKeyValue` in the words of its description: it succeeds
exactly when the line holds a colon, the key is the trimmed text before the first
colon and the value the trimmed text after it; a failure gives two empty strings. -/
def ParseKeyValueSpec (line : Str) : Str × Str × Bool :=
  if ':' ∈ line then
    (TrimSpace (line.takeWhile fun c => c != ':'),
      TrimSpace ((line.dropWhile fun c => c != ':').drop 1), true)
  else ([], [], false)

/-- The number of two-space pieces that fit side by side in a text, read off its
runs of spaces: a run of `r` spaces holds `r / 2` of them. `run` is the length of
the run of spaces that ends where the text starts. -/
def spacePairs (run : Nat) : Str → Nat
  | [] => run / 2
  | c :: rest => if c = ' ' then spacePairs (run + 1) rest else run / 2 + spacePairs 0 rest

/-- The indentation level in the words of its description: the number of tabs when
the line holds a tab, and otherwise the number of non-overlapping occurrences of
two spaces anywhere in the line. -/
def indentLevelSpec (line : Str) : Nat :=
  if Char.ofNat 9 ∈ line then line.count (Char.ofNat 9) else spacePairs 0 line

/-- A Go `float64` as far as comparisons see it: not a number, one of the two
infinities, or a number. -/
inductive Float64 where
  | nan
  | negInf
  | posInf
  | num (q : Rat)

/-- Go `a < b` on `float64`: false whenever an operand is not a number. -/
def Float64.lt : Float64 → Float64 → Bool
  | Float64.nan, _ => false
  | _, Float64.nan => false
  | _, Float64.negInf => false
  | Float64.negInf, _ => true
  | Float64.posInf, _ => false
  | Float64.num _, Float64.posInf => true
  | Float64.num a, Float64.num b => decide (a < b)

/-- Go `a <= b` on `float64`: false whenever an operand is not a number. -/
def Float64.le : Float64 → Float64 → Bool
  | Float64.nan, _ => false
  | _, Float64.nan => false
  | Float64.negInf, _ => true
  | _, Float64.negInf => false
  | _, Float64.posInf => true
  | Float64.posInf, Float64.num _ => false
  | Float64.num a, Float64.num b => decide (a ≤ b)

/-- The struct `AIConfig` of `src/sdk.go`. -/
structure AIConfig where
  Model : Str
  Temperature : Float64
  MaxTokens : Int
  APIKey : Str

/-- The struct `SettingsConfig` of `src/sdk.go`. -/
structure SettingsConfig where
  Debug : Bool
  Timeout : Int

/-- The struct `Config` of `src/sdk.go`. -/
structure Config where
  AI : AIConfig
  Settings : SettingsConfig

/-- The struct `SDK` of `src/sdk.go`; its `config` pointer may be nil. -/
structure SDK where
  config : Option Config

/-- What a call of `ValidateConfig` leaves behind: the returned error (`none` for
nil), the receiver and the configuration the argument points to. -/
structure Validated where
  err : Option Str
  sdk : SDK
  config : Config

/-- `SDK.ValidateConfig` of `src/sdk.go`, for a non-nil argument. -/
def ValidateConfig (s : SDK) (config : Config) : Validated :=
  if config.AI.Model = [] then
    { err := some "AI模型名称不能为空".toList, sdk := s, config := config }
  else if Float64.lt config.AI.Temperature (Float64.num 0) ||
      Float64.lt (Float64.num 2) config.AI.Temperature then
    { err := some "温度值必须在0-2之间".toList, sdk := s, config := config }
  else if config.AI.MaxTokens ≤ 0 then
    { err := some "最大令牌数必须大于0".toList, sdk := s, config := config }
  else if config.Settings.Timeout ≤ 0 then
    { err := some "超时时间必须大于0".toList, sdk := s, config := config }
  else { err := none, sdk := s, config := config }

/-- The four constraints on a configuration in the words of their description:
a model name, a temperature with `0 <= t <= 2`, and positive `max_tokens` and
`timeout`. -/
def configOk (config : Config) : Bool :=
  decide (config.AI.Model ≠ []) &&
    (Float64.le (Float64.num 0) config.AI.Temperature &&
      Float64.le config.AI.Temperature (Float64.num 2)) &&
    decide (0 < config.AI.MaxTokens) && decide (0 < config.Settings.Timeout)

/-- A line holds a letter directly followed by a colon, and somewhere after the
colon a character that is not white space. -/
def keyThenContent (s : Str) : Prop :=
  ∃ (pre : Str) (c : Char) (mid : Str) (d : Char) (post : Str),
    s = pre ++ c :: ':' :: (mid ++ d :: post) ∧ isLetter c = true ∧ isSpace d = false

/-- A line holds a letter directly followed by a colon, a space and one more
character. -/
def keySpaceContent (s : Str) : Prop :=
  ∃ (pre : Str) (c d : Char) (post : Str),
    s = pre ++ c :: ':' :: ' ' :: d :: post ∧ isLetter c = true

/-- A decoded JSON value as `encoding/json` stores it in an `interface{}`. -/
inductive Json where
  | null
  | bool (b : Bool)
  | number (x : Float64)
  | string (s : Str)
  | array (xs : List Json)
  | object (kvs : List (Str × Json))

/-- What the statements after the decoding find in a payload. -/
inductive Picked where
  | content (s : Str)
  | absent
  | panics

/-- The text under `Choices[0].Delta.Content` of a decoded payload.  The type
assertions on `choices[0]` and on the content have no `ok` result: they panic on
a value of another type. -/
def pickContent (rawData : List (Str × Json)) : Picked :=
  match assocGet rawData "Choices".toList with
  | some (Json.array (first :: _)) =>
    match first with
    | Json.object m =>
      match assocGet m "Delta".toList with
      | some (Json.object delta) =>
        match assocGet delta "Content".toList with
        | some (Json.string s) => Picked.content s
        | some _ => Picked.panics
        | none => Picked.absent
      | _ => Picked.absent
    | _ => Picked.panics
  | _ => Picked.absent

/-- The body of the loop of `EventProcessor.ProcessAIResponseEvents` for a payload
with content: the merge keeps the terminator, and only the two fence markers
without a line feed are trimmed. -/
def EventProcessor.feed (acc : Acc) (content : Str) : Acc :=
  let line := acc.line ++ content
  if HasSuffix line [newline] || HasSuffix line [backslash, 'n'] then
    let preLine : Str := acc.result.getLast?.getD []
    if !KeyValuePattern line && decide (0 < acc.result.length) &&
        (!HasPrefix (TrimSpace line) ['-', ' '] || KeyValueWithContent preLine) then
      { result := acc.result.dropLast ++ [preLine ++ line], line := [] }
    else
      let line := TrimPrefix line fenceOpen
      let line := TrimSuffix line fenceClose
      if TrimSpace line = [] then { result := acc.result, line := line }
      else { result := acc.result ++ [line], line := [] }
  else { result := acc.result, line := line }

/-- The `for event := range eventChan` loop of the method.  `unmarshal` stands for
`json.Unmarshal` into a `map[string]interface{}`, a function of the library: the
decoded map, or the text of its error.  `none` is a panic, an error ends the call
with `return nil, err`. -/
def EventProcessor.accumulate (unmarshal : Str → Except Str (List (Str × Json)))
    (ctx : Nat → Option Str) : Nat → List SSEvent → Acc → Option (Except Str Acc)
  | _, [], acc => some (Except.ok acc)
  | i, event :: rest, acc =>
    match ctx i with
    | some e => some (Except.error e)
    | none =>
      match event.Err with
      | some e => some (Except.error ("event error: ".toList ++ e))
      | none =>
        match unmarshal event.Data with
        | Except.error m => some (Except.error ("unmarshal error: ".toList ++ m))
        | Except.ok rawData =>
          match pickContent rawData with
          | Picked.panics => none
          | Picked.absent => EventProcessor.accumulate unmarshal ctx (i + 1) rest acc
          | Picked.content s =>
            EventProcessor.accumulate unmarshal ctx (i + 1) rest (EventProcessor.feed acc s)

/-- The method `EventProcessor.ProcessAIResponseEvents`.  `LinesToMap` returns a
nil error and `json.Marshal` does not fail on maps of strings, maps and slices,
so the two error returns after the loop are never taken. -/
def EventProcessor.ProcessAIResponseEvents (unmarshal : Str → Except Str (List (Str × Json)))
    (ctx : Nat → Option Str) (eventChan : List SSEvent) : Outcome (Option Tree) :=
  match EventProcessor.accumulate unmarshal ctx 0 eventChan { result := [], line := [] } with
  | none => Outcome.panicked
  | some (Except.error e) => Outcome.returned none (some e)
  | some (Except.ok acc) =>
    let line := TrimPrefix acc.line (fenceOpen ++ [newline])
    let line := TrimSuffix line (newline :: fenceClose)
    let line := TrimSuffix line fenceClose
    let result := if TrimSpace line = [] then acc.result else acc.result ++ [line]
    LinesToMap result

/-- The part of `json.Unmarshal` this development relies on: a text whose first
character is a letter other than `t`, `f` and `n` begins no JSON value and is
rejected with the message of the decoder for it.  Every other text is decoded by
`rest`. -/
def jsonUnmarshal (rest : Str → Except Str (List (Str × Json))) (data : Str) :
    Except Str (List (Str × Json)) :=
  match data with
  | [] => rest data
  | c :: _ =>
    if isLetter c && c != 't' && c != 'f' && c != 'n' then
      Except.error ("invalid character ".toList ++ [Char.ofNat 39, c, Char.ofNat 39] ++
        " looking for beginning of value".toList)
    else rest data

/-- The states of the loop of `LinesToMap` after each processed line, in order, up
to the end of the input or to the line on which the loop panics. -/
def statesAfter : List Str → State → List State
  | [], _ => []
  | line :: rest, st =>
    match processLine line rest.head? st with
    | none => []
    | some st1 => st1 :: statesAfter rest st1

/-! ## Facts about the string functions -/

theorem plain_of_toNat (c : Char)
    (h : (97 ≤ c.toNat ∧ c.toNat ≤ 122) ∨ (65 ≤ c.toNat ∧ c.toNat ≤ 90) ∨
      (48 ≤ c.toNat ∧ c.toNat ≤ 57) ∨ c.toNat = 46 ∨ c.toNat = 95) : plain c := by
  have ne : ∀ d : Char, c.toNat ≠ d.toNat → c ≠ d := fun d hd hcd => hd (by rw [hcd])
  refine ⟨?_, ne _ ?_, ne _ ?_, ne _ ?_, ne _ ?_, ne _ ?_, ne _ ?_⟩
  · simp only [isSpace, Bool.or_eq_false_iff, Bool.and_eq_false_iff, beq_eq_false_iff_ne,
      decide_eq_false_iff_not, ne_eq]
    omega
  all_goals
    first
    | (show c.toNat ≠ 32; omega)
    | (show c.toNat ≠ 9; omega)
    | (show c.toNat ≠ 10; omega)
    | (show c.toNat ≠ 58; omega)
    | (show c.toNat ≠ 45; omega)
    | (show c.toNat ≠ 35; omega)

theorem isLetter_iff (c : Char) :
    isLetter c = true ↔ (97 ≤ c.toNat ∧ c.toNat ≤ 122) ∨ (65 ≤ c.toNat ∧ c.toNat ≤ 90) := by
  simp [isLetter]

theorem isDigit_iff (c : Char) : isDigit c = true ↔ (48 ≤ c.toNat ∧ c.toNat ≤ 57) := by
  simp [isDigit]

theorem plain_of_letter {c : Char} (h : isLetter c = true) : plain c :=
  plain_of_toNat c (by rw [isLetter_iff] at h; omega)

theorem plain_of_word {c : Char} (h : (isLetter c || isDigit c || c == '.') = true) : plain c := by
  apply plain_of_toNat
  simp only [Bool.or_eq_true, isLetter_iff, isDigit_iff, beq_iff_eq] at h
  rcases h with (h | h) | h
  · omega
  · omega
  · right; right; right; left; rw [h]; rfl

theorem plain_of_keyChar {c : Char} (h : (isLetter c || isDigit c || c == '_') = true) :
    plain c := by
  apply plain_of_toNat
  simp only [Bool.or_eq_true, isLetter_iff, isDigit_iff, beq_iff_eq] at h
  rcases h with (h | h) | h
  · omega
  · omega
  · right; right; right; right; rw [h]; rfl



theorem dropWhile_head_false {α : Type} (p : α → Bool) (s : List α)
    (h : ∀ c, s.head? = some c → p c = false) : s.dropWhile p = s := by
  cases s with
  | nil => rfl
  | cons a t => simp [List.dropWhile, h a rfl]

theorem dropWhile_all_append {α : Type} (p : α → Bool) (ws s : List α)
    (hws : ∀ c ∈ ws, p c = true) : (ws ++ s).dropWhile p = s.dropWhile p := by
  induction ws with
  | nil => rfl
  | cons a t ih =>
    have ha : p a = true := hws a (List.mem_cons_self a t)
    simp only [List.cons_append, List.dropWhile, ha]
    exact ih fun c hc => hws c (List.mem_cons_of_mem a hc)

theorem TrimSpace_pad (ws s : Str) (hws : ∀ c ∈ ws, isSpace c = true)
    (hh : ∀ c, s.head? = some c → isSpace c = false)
    (hl : ∀ c, s.getLast? = some c → isSpace c = false) : TrimSpace (ws ++ s) = s := by
  unfold TrimSpace
  rw [dropWhile_all_append _ _ _ hws, dropWhile_head_false _ _ hh, dropWhile_head_false,
    List.reverse_reverse]
  intro c hc
  rw [List.head?_reverse] at hc
  exact hl c hc

theorem TrimSpace_tight (s : Str) (hh : ∀ c, s.head? = some c → isSpace c = false)
    (hl : ∀ c, s.getLast? = some c → isSpace c = false) : TrimSpace s = s :=
  TrimSpace_pad [] s (by simp) hh hl

theorem CountTab_eq_zero (s : Str) (h : ∀ c ∈ s, c ≠ Char.ofNat 9) : CountTab s = 0 := by
  induction s with
  | nil => rfl
  | cons a t ih =>
    have ha : a ≠ Char.ofNat 9 := h a (List.mem_cons_self a t)
    simp only [CountTab, ha, if_false]
    exact ih fun c hc => h c (List.mem_cons_of_mem a hc)

theorem CountDoubleSpace_cons_ne (c : Char) (t : Str) (h : c ≠ ' ') :
    CountDoubleSpace (c :: t) = CountDoubleSpace t := by
  cases t with
  | nil => rfl
  | cons d r => simp [CountDoubleSpace, h]

theorem CountDoubleSpace_append_ne (w t : Str) (h : ∀ c ∈ w, c ≠ ' ') :
    CountDoubleSpace (w ++ t) = CountDoubleSpace t := by
  induction w with
  | nil => rfl
  | cons a r ih =>
    rw [List.cons_append, CountDoubleSpace_cons_ne _ _ (h a (List.mem_cons_self a r))]
    exact ih fun c hc => h c (List.mem_cons_of_mem a hc)

theorem CountDoubleSpace_space_ne (c : Char) (t : Str) (h : c ≠ ' ') :
    CountDoubleSpace (' ' :: c :: t) = CountDoubleSpace (c :: t) := by
  simp [CountDoubleSpace, h]

theorem CountDoubleSpace_pad (d : Nat) (t : Str) :
    CountDoubleSpace (List.replicate (2 * d) ' ' ++ t) = CountDoubleSpace t + d := by
  induction d with
  | zero => rfl
  | succ n ih =>
    have : List.replicate (2 * (n + 1)) ' ' = ' ' :: ' ' :: List.replicate (2 * n) ' ' := by
      rw [Nat.mul_succ]; rfl
    rw [this]
    simp only [List.cons_append, CountDoubleSpace, and_self, if_true, List.append_eq]
    rw [ih]
    rfl

theorem SplitN2_append_colon (k rest : Str) (h : ∀ c ∈ k, c ≠ ':') :
    SplitN2 (k ++ ':' :: rest) = some (k, rest) := by
  induction k with
  | nil => simp [SplitN2]
  | cons a r ih =>
    have ha : a ≠ ':' := h a (List.mem_cons_self a r)
    simp only [List.cons_append, SplitN2, ha, if_false, List.append_eq]
    rw [ih fun c hc => h c (List.mem_cons_of_mem a hc)]

theorem SplitN2_eq_none (s : Str) (h : ∀ c ∈ s, c ≠ ':') : SplitN2 s = none := by
  induction s with
  | nil => rfl
  | cons a r ih =>
    have ha : a ≠ ':' := h a (List.mem_cons_self a r)
    simp only [SplitN2, ha, if_false]
    rw [ih fun c hc => h c (List.mem_cons_of_mem a hc)]

/-- The scan `reItem` accepts exactly the strings the regexp `^.*[a-zA-Z]+: .*`
matches: a letter directly followed by a colon and a space, with no line feed
before it. -/
theorem reItem_iff (s : Str) :
    reItem s = true ↔
      ∃ pre c rest, s = pre ++ c :: ':' :: ' ' :: rest ∧ isLetter c = true ∧
        Char.ofNat 10 ∉ pre := by
  induction s with
  | nil =>
    constructor
    · intro h; cases h
    · rintro ⟨pre, c, rest, h, _⟩
      cases pre <;> cases h
  | cons a r ih =>
    constructor
    · intro h
      by_cases h1 : (isLetter a && HasPrefix r [':', ' ']) = true
      · simp only [Bool.and_eq_true] at h1
        obtain ⟨rest, hr⟩ : ∃ rest, r = ':' :: ' ' :: rest := by
          have := h1.2
          simp only [HasPrefix, List.isPrefixOf_iff_prefix] at this
          obtain ⟨t, ht⟩ := this
          exact ⟨t, ht.symm⟩
        exact ⟨[], a, rest, by rw [hr]; rfl, h1.1, by simp⟩
      · simp only [reItem, h1, Bool.false_eq_true, if_false] at h
        by_cases h2 : isDot a = true
        · simp only [h2, if_true] at h
          obtain ⟨pre, c, rest, hs, hc, hp⟩ := ih.1 h
          refine ⟨a :: pre, c, rest, by rw [hs]; rfl, hc, ?_⟩
          simp only [List.mem_cons, not_or]
          refine ⟨fun hn => ?_, hp⟩
          rw [← hn] at h2
          exact absurd h2 (by decide)
        · simp only [h2, Bool.false_eq_true, if_false] at h
    · rintro ⟨pre, c, rest, hs, hc, hp⟩
      cases pre with
      | nil =>
        simp only [List.nil_append, List.cons.injEq] at hs
        obtain ⟨rfl, rfl⟩ := hs
        simp [reItem, hc, HasPrefix, List.isPrefixOf]
      | cons p pre1 =>
        simp only [List.cons_append, List.cons.injEq] at hs
        obtain ⟨rfl, hr⟩ := hs
        have hrec : reItem r = true :=
          ih.2 ⟨pre1, c, rest, hr, hc, fun hm => hp (List.mem_cons_of_mem _ hm)⟩
        have hdot : isDot a = true := by
          simp only [isDot, bne_iff_ne, ne_eq]
          intro ha
          exact hp (ha ▸ List.mem_cons_self _ _)
        by_cases h1 : (isLetter a && HasPrefix r [':', ' ']) = true
        · simp only [reItem, h1, if_true]
        · simp only [reItem, h1, Bool.false_eq_true, if_false, hdot, if_true, hrec]

theorem reItem_no_colon (s : Str) (h : ∀ c ∈ s, c ≠ ':') : reItem s = false := by
  induction s with
  | nil => rfl
  | cons a r ih =>
    have hr : HasPrefix r [':', ' '] = false := by
      cases r with
      | nil => rfl
      | cons b u =>
        have hb : b ≠ ':' := h b (by simp)
        simp [HasPrefix, List.isPrefixOf, hb.symm]
    simp only [reItem, hr, Bool.and_false, ih fun c hc => h c (List.mem_cons_of_mem a hc)]
    simp

theorem reItem_key (a rest : Str) (ha : a ≠ []) (hl : ∀ c ∈ a, isLetter c = true) :
    reItem (a ++ ':' :: ' ' :: rest) = true := by
  induction a with
  | nil => exact absurd rfl ha
  | cons c r ih =>
    have hc : isLetter c = true := hl c (List.mem_cons_self c r)
    cases r with
    | nil => simp [reItem, hc, HasPrefix, List.isPrefixOf]
    | cons d u =>
      have hd : isDot c = true := by
        have := (isLetter_iff c).1 hc
        simp only [isDot, bne_iff_ne, ne_eq]
        intro hcn
        rw [hcn] at this
        revert this
        decide
      have ih2 := ih (by simp) fun x hx => hl x (List.mem_cons_of_mem c hx)
      simp only [List.cons_append, reItem, hd, if_true] at ih2 ⊢
      rw [ih2]
      simp

theorem isSpace_space : isSpace ' ' = true := by decide

theorem head_not_space (k t : Str) (hk : k ≠ []) (hp : ∀ c ∈ k, isSpace c = false) :
    ∀ c, (k ++ t).head? = some c → isSpace c = false := by
  intro c hc
  cases k with
  | nil => exact absurd rfl hk
  | cons a r =>
    simp only [List.cons_append, List.head?_cons, Option.some.injEq] at hc
    exact hc ▸ hp a (List.mem_cons_self a r)

theorem last_not_space (t v : Str) (hv : v ≠ []) (hp : ∀ c ∈ v, isSpace c = false) :
    ∀ c, (t ++ v).getLast? = some c → isSpace c = false := by
  intro c hc
  rcases List.eq_nil_or_concat v with h | ⟨w, z, h⟩
  · exact absurd h hv
  · subst h
    rw [List.concat_eq_append, ← List.append_assoc, List.getLast?_concat] at hc
    cases hc
    exact hp c (by simp)

theorem padded_line (d : Nat) (body : Str) (h : Tidy body) :
    TrimSpace (List.replicate (2 * d) ' ' ++ body) = body ∧
    CalculateIndent (List.replicate (2 * d) ' ' ++ body) = d := by
  obtain ⟨hh, hl, ht, hc, _, _⟩ := h
  refine ⟨TrimSpace_pad _ _ ?_ hh hl, ?_⟩
  · intro c hc
    rw [List.eq_of_mem_replicate hc]
    exact isSpace_space
  · have htab : CountTab (List.replicate (2 * d) ' ' ++ body) = 0 := by
      apply CountTab_eq_zero
      intro c hc
      rcases List.mem_append.1 hc with h1 | h1
      · rw [List.eq_of_mem_replicate h1]; decide
      · exact ht c h1
    simp only [CalculateIndent, htab, if_true]
    rw [CountDoubleSpace_pad, hc, Nat.zero_add]

theorem processLine_padded (d : Nat) (body : Str) (next : Option Str) (st : State)
    (h : Tidy body) :
    processLine (List.replicate (2 * d) ' ' ++ body) next st = processTrimmed d body next st := by
  obtain ⟨h1, h2⟩ := padded_line d body h
  obtain ⟨_, _, _, _, hne, hhash⟩ := h
  simp only [processLine, h1, h2, hne, hhash, or_self, if_false, Bool.false_eq_true]

theorem plain_of_isLetters {k : Str} (h : isLetters k = true) :
    k ≠ [] ∧ (∀ c ∈ k, isLetter c = true) ∧ ∀ c ∈ k, plain c := by
  simp only [isLetters, Bool.and_eq_true, Bool.not_eq_true', List.isEmpty_eq_false,
    List.all_eq_true] at h
  exact ⟨h.1, h.2, fun c hc => plain_of_letter (h.2 c hc)⟩

theorem plain_of_isKey {k : Str} (h : isKey k = true) : k ≠ [] ∧ ∀ c ∈ k, plain c := by
  simp only [isKey, Bool.and_eq_true, Bool.not_eq_true', List.isEmpty_eq_false,
    List.all_eq_true] at h
  exact ⟨h.1, fun c hc => plain_of_keyChar (h.2 c hc)⟩

theorem plain_of_isLettersDigitsDots {v : Str} (h : isLettersDigitsDots v = true) :
    v ≠ [] ∧ ∀ c ∈ v, plain c := by
  simp only [isLettersDigitsDots, Bool.and_eq_true, Bool.not_eq_true', List.isEmpty_eq_false,
    List.all_eq_true] at h
  exact ⟨h.1, fun c hc => plain_of_word (h.2 c hc)⟩

theorem plain_of_isLettersDigits {v : Str} (h : isLettersDigits v = true) :
    v ≠ [] ∧ ∀ c ∈ v, plain c := by
  simp only [isLettersDigits, Bool.and_eq_true, Bool.not_eq_true', List.isEmpty_eq_false,
    List.all_eq_true] at h
  refine ⟨h.1, fun c hc => plain_of_word ?_⟩
  rw [h.2 c hc]
  rfl

theorem CountDoubleSpace_plain (s : Str) (hs : ∀ c ∈ s, plain c) : CountDoubleSpace s = 0 := by
  have := CountDoubleSpace_append_ne s [] fun c hc => (hs c hc).2.1
  simpa using this

theorem hasPrefix_hash_false (c : Char) (t : Str) (h : c ≠ '#') :
    HasPrefix (c :: t) ['#'] = false := by
  simp [HasPrefix, List.isPrefixOf, Ne.symm h]

theorem hasPrefix_dash_false (c : Char) (t : Str) (h : c ≠ '-') :
    HasPrefix (c :: t) ['-', ' '] = false := by
  simp [HasPrefix, List.isPrefixOf, Ne.symm h]

/-- A body that starts with a plain word `k` and ends with a plain word `v`, with
`mid` in between, is tidy when `mid ++ v` has no tab and no double space. -/
theorem tidy_of_words (k mid v : Str) (hk : k ≠ []) (hkp : ∀ c ∈ k, plain c) (hv : v ≠ [])
    (hvp : ∀ c ∈ v, plain c) (hmt : ∀ c ∈ mid, c ≠ Char.ofNat 9)
    (hmc : CountDoubleSpace (mid ++ v) = 0) : Tidy (k ++ mid ++ v) := by
  refine ⟨?_, ?_, ?_, ?_, ?_, ?_⟩
  · rw [List.append_assoc]
    exact head_not_space k _ hk fun c hc => (hkp c hc).1
  · exact last_not_space _ v hv fun c hc => (hvp c hc).1
  · intro c hc
    simp only [List.mem_append] at hc
    rcases hc with (h | h) | h
    · exact (hkp c h).2.2.1
    · exact hmt c h
    · exact (hvp c h).2.2.1
  · rw [List.append_assoc, CountDoubleSpace_append_ne k _ fun c hc => (hkp c hc).2.1]
    exact hmc
  · cases k with
    | nil => exact absurd rfl hk
    | cons a r => simp
  · cases k with
    | nil => exact absurd rfl hk
    | cons a r => exact hasPrefix_hash_false a _ (hkp a (List.mem_cons_self a r)).2.2.2.2.2.2

theorem CountDoubleSpace_space_plain (v : Str) (hv : v ≠ []) (hvp : ∀ c ∈ v, plain c) :
    CountDoubleSpace (' ' :: v) = 0 := by
  cases v with
  | nil => exact absurd rfl hv
  | cons a r =>
    rw [CountDoubleSpace_space_ne a r (hvp a (List.mem_cons_self a r)).2.1]
    exact CountDoubleSpace_plain _ hvp

theorem tidy_keyValue (k v : Str) (hk : k ≠ []) (hkp : ∀ c ∈ k, plain c) (hv : v ≠ [])
    (hvp : ∀ c ∈ v, plain c) : Tidy (k ++ [':', ' '] ++ v) := by
  apply tidy_of_words k [':', ' '] v hk hkp hv hvp
  · intro c hc
    simp only [List.mem_cons, List.mem_singleton, List.not_mem_nil, or_false] at hc
    rcases hc with h | h <;> subst h <;> decide
  · show CountDoubleSpace (':' :: ' ' :: v) = 0
    rw [CountDoubleSpace_cons_ne _ _ (by decide)]
    exact CountDoubleSpace_space_plain v hv hvp

theorem tidy_key (k : Str) (hk : k ≠ []) (hkp : ∀ c ∈ k, plain c) : Tidy (k ++ [':']) := by
  refine ⟨head_not_space k _ hk fun c hc => (hkp c hc).1,
    last_not_space k [':'] (by simp) ?_, ?_, ?_, ?_, ?_⟩
  · intro c hc
    rw [List.mem_singleton.1 hc]
    decide
  · intro c hc
    rcases List.mem_append.1 hc with h | h
    · exact (hkp c h).2.2.1
    · rw [List.mem_singleton.1 h]; decide
  · rw [CountDoubleSpace_append_ne k _ fun c hc => (hkp c hc).2.1]
    rfl
  · cases k with
    | nil => exact absurd rfl hk
    | cons a r => simp
  · cases k with
    | nil => exact absurd rfl hk
    | cons a r => exact hasPrefix_hash_false a _ (hkp a (List.mem_cons_self a r)).2.2.2.2.2.2

theorem tidy_plain (s : Str) (hs : s ≠ []) (hsp : ∀ c ∈ s, plain c) : Tidy s := by
  refine ⟨?_, ?_, fun c hc => (hsp c hc).2.2.1, CountDoubleSpace_plain s hsp, hs, ?_⟩
  · simpa using head_not_space s [] hs fun c hc => (hsp c hc).1
  · simpa using last_not_space [] s hs fun c hc => (hsp c hc).1
  · cases s with
    | nil => exact absurd rfl hs
    | cons a r => exact hasPrefix_hash_false a _ (hsp a (List.mem_cons_self a r)).2.2.2.2.2.2

/-- A list item whose text is tidy is a tidy line body. -/
theorem tidy_item (s : Str) (h : Tidy s) : Tidy ('-' :: ' ' :: s) := by
  obtain ⟨hh, hl, ht, hc, hne, _⟩ := h
  cases s with
  | nil => exact absurd rfl hne
  | cons a r =>
    have ha : isSpace a = false := hh a rfl
    have ha2 : a ≠ ' ' := fun h => by rw [h] at ha; exact absurd ha (by decide)
    refine ⟨?_, ?_, ?_, ?_, by simp, by simp [HasPrefix, List.isPrefixOf]⟩
    · intro c hc
      simp only [List.head?_cons, Option.some.injEq] at hc
      rw [← hc]; decide
    · intro c hc
      rw [List.getLast?_cons_cons, List.getLast?_cons_cons] at hc
      exact hl c hc
    · intro c hc
      simp only [List.mem_cons] at hc
      rcases hc with h | h | h
      · rw [h]; decide
      · rw [h]; decide
      · exact ht c (List.mem_cons.2 h)
    · rw [CountDoubleSpace_cons_ne _ _ (by decide), CountDoubleSpace_space_ne a r ha2]
      exact hc

/-! ## One loop iteration on each shape of line -/

theorem popFrames_of_lt (d : Nat) (top : node) (below : List node) (h : top.indent < (d : Int)) :
    popFrames d (top :: below) = top :: below := by
  simp [popFrames, Int.not_le.2 h]

theorem popFrames_of_le (d : Nat) (top : node) (below : List node) (h : (d : Int) ≤ top.indent) :
    popFrames d (top :: below) = popFrames d below := by
  simp [popFrames, h]

theorem TrimSpace_plain (k : Str) (hkp : ∀ c ∈ k, plain c) : TrimSpace k = k := by
  apply TrimSpace_tight
  · intro c hc
    exact (hkp c (List.mem_of_mem_head? hc)).1
  · intro c hc
    exact (hkp c (List.mem_of_getLast?_eq_some hc)).1

theorem TrimSpace_space_plain (v : Str) (hvp : ∀ c ∈ v, plain c) : TrimSpace (' ' :: v) = v := by
  apply TrimSpace_pad [' '] v
  · intro c hc
    rw [List.mem_singleton.1 hc]
    exact isSpace_space
  · intro c hc
    exact (hvp c (List.mem_of_mem_head? hc)).1
  · intro c hc
    exact (hvp c (List.mem_of_getLast?_eq_some hc)).1

theorem hasPrefix_dash_plain (k t : Str) (hk : k ≠ []) (hkp : ∀ c ∈ k, plain c) :
    HasPrefix (k ++ t) ['-', ' '] = false := by
  cases k with
  | nil => exact absurd rfl hk
  | cons a r => exact hasPrefix_dash_false a _ (hkp a (List.mem_cons_self a r)).2.2.2.2.2.1

/-- A line `key: value` stores the string under the key in the parent map. -/
theorem processTrimmed_keyValue (d : Nat) (k v : Str) (next : Option Str) (st : State)
    (parent : node) (below : List node) (a : Nat)
    (hk : k ≠ []) (hkp : ∀ c ∈ k, plain c) (hv : v ≠ []) (hvp : ∀ c ∈ v, plain c)
    (hpop : popFrames d st.stack = parent :: below) (hpar : parent.value = Value.mapRef a) :
    processTrimmed d (k ++ [':', ' '] ++ v) next st =
      some { heap := st.heap.store a k (Value.str v), stack := parent :: below } := by
  have h1 : HasPrefix (k ++ [':', ' '] ++ v) ['-', ' '] = false := by
    rw [List.append_assoc]
    exact hasPrefix_dash_plain k _ hk hkp
  have h2 : SplitN2 (k ++ [':', ' '] ++ v) = some (k, ' ' :: v) := by
    rw [List.append_assoc]
    exact SplitN2_append_colon k _ fun c hc => (hkp c hc).2.2.2.2.1
  simp only [processTrimmed, hpop, h1, h2, hpar, TrimSpace_plain k hkp,
    TrimSpace_space_plain v hvp, hv, Bool.false_eq_true, false_and, if_false]

theorem TrimSpace_nil : TrimSpace [] = [] := rfl

/-- A line `key:` stores a new container under the key in the parent map and
pushes a frame for it; the lookahead chooses between slice and map. -/
theorem processTrimmed_key (d : Nat) (k : Str) (next : Option Str) (st : State)
    (parent : node) (below : List node) (a : Nat)
    (hk : k ≠ []) (hkp : ∀ c ∈ k, plain c)
    (hpop : popFrames d st.stack = parent :: below) (hpar : parent.value = Value.mapRef a) :
    processTrimmed d (k ++ [':']) next st =
      if isArrayNext d next = true then
        some { heap := st.heap.store a k (Value.arr []),
               stack := { value := Value.arr [], key := k, indent := d } :: parent :: below }
      else
        some { heap := (st.heap ++ [[]]).store a k (Value.mapRef st.heap.length),
               stack := { value := Value.mapRef st.heap.length, key := k, indent := d }
                          :: parent :: below } := by
  have h1 : HasPrefix (k ++ [':']) ['-', ' '] = false := hasPrefix_dash_plain k _ hk hkp
  have h2 : SplitN2 (k ++ [':']) = some (k, []) :=
    SplitN2_append_colon k _ fun c hc => (hkp c hc).2.2.2.2.1
  simp only [processTrimmed, hpop, h1, h2, hpar, TrimSpace_plain k hkp, TrimSpace_nil,
    Bool.false_eq_true, false_and, if_false, if_true]

theorem hasPrefix_dash (s : Str) : HasPrefix ('-' :: ' ' :: s) ['-', ' '] = true := by
  simp [HasPrefix, List.isPrefixOf]

theorem trimPrefix_dash (s : Str) : TrimPrefix ('-' :: ' ' :: s) ['-', ' '] = s := by
  simp [TrimPrefix, hasPrefix_dash]

/-- A list item without a key is appended as a string to the slice under the
parent key. -/
theorem processTrimmed_scalarItem (d : Nat) (s : Str) (next : Option Str) (st : State)
    (parent grand : node) (rest : List node) (a : Nat) (hsp : ∀ c ∈ s, plain c)
    (hpop : popFrames d st.stack = parent :: grand :: rest)
    (hgr : grand.value = Value.mapRef a) :
    processTrimmed d ('-' :: ' ' :: s) next st =
      some { heap := st.heap.store a parent.key (Value.arr
               ((match (st.heap.deref a).get parent.key with
                 | some (Value.arr xs) => xs
                 | _ => []) ++ [Value.str s])),
             stack := parent :: grand :: rest } := by
  have h3 : reItem s = false := reItem_no_colon s fun c hc => (hsp c hc).2.2.2.2.1
  simp only [processTrimmed, hpop, hasPrefix_dash, trimPrefix_dash, hgr, h3, List.length_cons,
    true_and, Bool.false_eq_true, if_false]
  simp

/-- A list item `- key: value` appends a new one-entry map to the slice under the
parent key, and pushes a frame for that map when the next line is deeper. -/
theorem processTrimmed_mapItem (d : Nat) (k v : Str) (next : Option Str) (st : State)
    (parent grand : node) (rest : List node) (a : Nat)
    (hk : k ≠ []) (hkl : ∀ c ∈ k, isLetter c = true) (hvp : ∀ c ∈ v, plain c)
    (hpop : popFrames d st.stack = parent :: grand :: rest)
    (hgr : grand.value = Value.mapRef a) :
    processTrimmed d ('-' :: ' ' :: (k ++ [':', ' '] ++ v)) next st =
      some { heap := (st.heap ++ [[(k, Value.str v)]]).store a parent.key (Value.arr
               ((match (st.heap.deref a).get parent.key with
                 | some (Value.arr xs) => xs
                 | _ => []) ++ [Value.mapRef st.heap.length])),
             stack := if nextDeeper d next = true then
                 { value := Value.mapRef st.heap.length, key := [], indent := d }
                   :: parent :: grand :: rest
               else parent :: grand :: rest } := by
  have hkp : ∀ c ∈ k, plain c := fun c hc => plain_of_letter (hkl c hc)
  have h3 : reItem (k ++ [':', ' '] ++ v) = true := by
    rw [List.append_assoc]
    exact reItem_key k v hk hkl
  have h2 : SplitN2 (k ++ [':', ' '] ++ v) = some (k, ' ' :: v) := by
    rw [List.append_assoc]
    exact SplitN2_append_colon k _ fun c hc => (hkp c hc).2.2.2.2.1
  simp only [processTrimmed, hpop, hasPrefix_dash, trimPrefix_dash, hgr, h3, h2,
    List.length_cons, true_and, if_true, TrimSpace_plain k hkp, TrimSpace_space_plain v hvp]
  simp

theorem isArrayNext_padded (d e : Nat) (body : Str) (h : Tidy body) :
    isArrayNext d (some (List.replicate (2 * e) ' ' ++ body)) =
      (HasPrefix body ['-', ' '] && decide (e > d)) := by
  obtain ⟨h1, h2⟩ := padded_line e body h
  obtain ⟨_, _, _, _, hne, _⟩ := h
  have hb : (body != []) = true := by
    cases body with
    | nil => exact absurd rfl hne
    | cons a r => rfl
  simp [isArrayNext, h1, h2, hb]

theorem nextDeeper_padded (d e : Nat) (body : Str) (h : Tidy body) :
    nextDeeper d (some (List.replicate (2 * e) ' ' ++ body)) = decide (e > d) := by
  obtain ⟨_, h2⟩ := padded_line e body h
  simp [nextDeeper, h2]

/-! ## Maps as association lists, and reading values out of the heap -/

theorem assocGet_set {β : Type} (l : List (Str × β)) (k : Str) (v : β) (key : Str) :
    assocGet (assocSet l k v) key = if k = key then some v else assocGet l key := by
  induction l with
  | nil => simp [assocSet, assocGet]
  | cons p r ih =>
    obtain ⟨k1, w⟩ := p
    by_cases h1 : k1 = k
    · subst h1
      by_cases h2 : k1 = key <;> simp [assocSet, assocGet, h2]
    · by_cases h2 : k1 = key
      · subst h2
        simp [assocSet, assocGet, h1, Ne.symm h1]
      · simp only [assocSet, h1, if_false, assocGet, h2, ih]

theorem assocSet_mem_keys {β : Type} (l : List (Str × β)) (k : Str) (v : β) (key : Str) :
    key ∈ (assocSet l k v).map Prod.fst ↔ key = k ∨ key ∈ l.map Prod.fst := by
  induction l with
  | nil => simp [assocSet]
  | cons p r ih =>
    obtain ⟨k1, w⟩ := p
    by_cases h1 : k1 = k
    · subst h1
      simp only [assocSet, if_true, List.map_cons, List.mem_cons, or_self_left]
    · simp only [assocSet, h1, if_false, List.map_cons, List.mem_cons, ih]
      constructor
      · rintro (h | h | h)
        · exact Or.inr (Or.inl h)
        · exact Or.inl h
        · exact Or.inr (Or.inr h)
      · rintro (h | h | h)
        · exact Or.inr (Or.inl h)
        · exact Or.inl h
        · exact Or.inr (Or.inr h)

theorem assocSet_nodup {β : Type} (l : List (Str × β)) (k : Str) (v : β)
    (h : (l.map Prod.fst).Nodup) : ((assocSet l k v).map Prod.fst).Nodup := by
  induction l with
  | nil => simp [assocSet]
  | cons p r ih =>
    obtain ⟨k1, w⟩ := p
    simp only [List.map_cons, List.nodup_cons] at h
    by_cases h1 : k1 = k
    · subst h1
      simp only [assocSet, if_true, List.map_cons, List.nodup_cons]
      exact h
    · simp only [assocSet, h1, if_false, List.map_cons, List.nodup_cons]
      refine ⟨?_, ih h.2⟩
      rw [assocSet_mem_keys]
      rintro (h2 | h2)
      · exact h1 h2
      · exact h.1 h2

theorem assocSet_map {β γ : Type} (f : β → γ) (l : List (Str × β)) (k : Str) (v : β) :
    (assocSet l k v).map (fun p => (p.1, f p.2)) =
      assocSet (l.map fun p => (p.1, f p.2)) k (f v) := by
  induction l with
  | nil => rfl
  | cons p r ih =>
    obtain ⟨k1, w⟩ := p
    by_cases h1 : k1 = k
    · simp [assocSet, h1]
    · simp only [assocSet, h1, if_false, List.map_cons, ih]

theorem assocGet_map {β γ : Type} (f : β → γ) (l : List (Str × β)) (key : Str) :
    assocGet (l.map fun p => (p.1, f p.2)) key = (assocGet l key).map f := by
  induction l with
  | nil => rfl
  | cons p r ih =>
    obtain ⟨k1, w⟩ := p
    by_cases h1 : k1 = key
    · simp [assocGet, h1]
    · simp only [List.map_cons, assocGet, h1, if_false, ih]

theorem map_keys {β γ : Type} (f : β → γ) (l : List (Str × β)) :
    (l.map fun p => (p.1, f p.2)).map Prod.fst = l.map Prod.fst := by
  simp [List.map_map, Function.comp_def]

/-- Binding the pairs of `kvs` one after the other, starting from `l`. -/
theorem foldl_assocSet_get {β : Type} (kvs : List (Str × β)) (l : List (Str × β)) (key : Str) :
    assocGet (kvs.foldl (fun (acc : List (Str × β)) (p : Str × β) => assocSet acc p.1 p.2) l) key =
      (match assocGet kvs.reverse key with
       | some w => some w
       | none => assocGet l key) := by
  induction kvs using List.reverseRecOn with
  | nil => rfl
  | append_singleton r p ih =>
    obtain ⟨k1, w⟩ := p
    simp only [List.foldl_append, List.foldl_cons, List.foldl_nil, List.reverse_append,
      List.reverse_cons, List.reverse_nil, List.nil_append, List.singleton_append, assocGet,
      assocGet_set]
    by_cases h1 : k1 = key
    · simp [h1]
    · simp only [h1, if_false, ih]

theorem lastValue_eq (kvs : List (Str × Str)) (key : Str) :
    lastValue kvs key = assocGet kvs.reverse key := by
  induction kvs with
  | nil => rfl
  | cons p r ih =>
    obtain ⟨k1, w⟩ := p
    have happ : ∀ (l : List (Str × Str)) (q : Str × Str),
        assocGet (l ++ [q]) key =
          (match assocGet l key with
           | some x => some x
           | none => if q.1 = key then some q.2 else none) := by
      intro l q
      induction l with
      | nil => simp [assocGet]
      | cons a t iht =>
        obtain ⟨k2, x⟩ := a
        by_cases h2 : k2 = key
        · simp [assocGet, h2]
        · simp only [List.cons_append, assocGet, h2, if_false, iht, List.append_eq]
    simp only [lastValue, List.reverse_cons, happ, ih]

theorem foldl_assocSet_nodup {β : Type} (kvs : List (Str × β)) (l : List (Str × β))
    (h : (l.map Prod.fst).Nodup) :
    ((kvs.foldl (fun (acc : List (Str × β)) (p : Str × β) => assocSet acc p.1 p.2) l).map Prod.fst).Nodup := by
  induction kvs generalizing l with
  | nil => exact h
  | cons p r ih => exact ih _ (assocSet_nodup l p.1 p.2 h)

theorem foldl_assocSet_mem_keys {β : Type} (kvs : List (Str × β)) (l : List (Str × β))
    (key : Str) :
    key ∈ (kvs.foldl (fun (acc : List (Str × β)) (p : Str × β) => assocSet acc p.1 p.2) l).map Prod.fst ↔
      key ∈ l.map Prod.fst ∨ key ∈ kvs.map Prod.fst := by
  induction kvs generalizing l with
  | nil => simp only [List.foldl_nil, List.map_nil, List.not_mem_nil, or_false]
  | cons p r ih =>
    simp only [List.foldl_cons, ih, assocSet_mem_keys, List.map_cons, List.mem_cons]
    constructor
    · rintro ((h | h) | h)
      · exact Or.inr (Or.inl h)
      · exact Or.inl h
      · exact Or.inr (Or.inr h)
    · rintro (h | h | h)
      · exact Or.inl (Or.inr h)
      · exact Or.inl (Or.inl h)
      · exact Or.inr h

theorem allSome_map_some {α β : Type} (f : α → β) (l : List α) :
    allSome (l.map fun x => some (f x)) = some (l.map f) := by
  induction l with
  | nil => rfl
  | cons a r ih => simp only [List.map_cons, allSome, ih]

theorem reify_str (h : Heap) (fuel : Nat) (s : Str) :
    reify h fuel (Value.str s) = some (Tree.scalar s) := by
  cases fuel <;> rfl

/-- A map whose values are all strings reads as the mapping of the same pairs. -/
theorem reify_strMap (h : Heap) (fuel a : Nat) (ss : List (Str × Str))
    (hd : h.deref a = ss.map fun p => (p.1, Value.str p.2)) :
    reify h (fuel + 1) (Value.mapRef a) =
      some (Tree.mapping (ss.map fun p => (p.1, Tree.scalar p.2))) := by
  simp only [reify, hd, List.map_map, Function.comp_def, reify_str]
  rw [allSome_map_some]

/-- A map with one entry reads as the mapping of that entry. -/
theorem reify_singleton_map (h : Heap) (fuel a : Nat) (k : Str) (v : Value) (t : Tree)
    (hd : h.deref a = [(k, v)]) (hv : reify h fuel v = some t) :
    reify h (fuel + 1) (Value.mapRef a) = some (Tree.mapping [(k, t)]) := by
  simp only [reify, hd, List.map_cons, List.map_nil, hv, allSome]

theorem store_at (pre : Heap) (m : GoMap) (post : Heap) (k : Str) (v : Value) :
    Heap.store (pre ++ m :: post) pre.length k v = pre ++ m.set k v :: post := by
  induction pre with
  | nil => rfl
  | cons x r ih => simp only [List.cons_append, List.length_cons, Heap.store, ih, List.append_eq]

theorem deref_at (pre : Heap) (m : GoMap) (post : Heap) :
    Heap.deref (pre ++ m :: post) pre.length = m := by
  induction pre with
  | nil => rfl
  | cons x r ih => exact ih

/-- Storing strings under the keys of `kvs`, in order, in the map at one address. -/
theorem foldl_store_strings (kvs : List (Str × Str)) (pre : Heap) (l : List (Str × Str))
    (post : Heap) :
    kvs.foldl (fun h p => Heap.store h pre.length p.1 (Value.str p.2))
        (pre ++ (l.map fun p => (p.1, Value.str p.2)) :: post) =
      pre ++ ((kvs.foldl (fun (acc : List (Str × Str)) (p : Str × Str) =>
        assocSet acc p.1 p.2) l).map fun p => (p.1, Value.str p.2)) :: post := by
  induction kvs generalizing l with
  | nil => rfl
  | cons p r ih =>
    simp only [List.foldl_cons, store_at, GoMap.set]
    rw [← assocSet_map Value.str l p.1 p.2]
    exact ih _

/-! ## Runs over whole groups of lines -/

/-- A run of `key: value` lines at one depth, below a frame that holds a map,
stores each value in that map and leaves the stack as it is. -/
theorem runLines_keyValues (d : Nat) (kvs : List (Str × Str))
    (hall : ∀ p ∈ kvs, (p.1 ≠ [] ∧ ∀ c ∈ p.1, plain c) ∧ (p.2 ≠ [] ∧ ∀ c ∈ p.2, plain c))
    (heap : Heap) (top : node) (below : List node) (a : Nat)
    (htop : top.indent < (d : Int)) (hval : top.value = Value.mapRef a) :
    runLines (kvs.map fun p => List.replicate (2 * d) ' ' ++ (p.1 ++ [':', ' '] ++ p.2))
        { heap := heap, stack := top :: below } =
      some { heap := kvs.foldl (fun h p => Heap.store h a p.1 (Value.str p.2)) heap,
             stack := top :: below } := by
  induction kvs generalizing heap with
  | nil => rfl
  | cons p r ih =>
    obtain ⟨⟨hk, hkp⟩, hv, hvp⟩ := hall p (List.mem_cons_self p r)
    simp only [List.map_cons, runLines, List.foldl_cons]
    rw [processLine_padded d _ _ _ (tidy_keyValue p.1 p.2 hk hkp hv hvp),
      processTrimmed_keyValue d p.1 p.2 _ _ top below a hk hkp hv hvp
        (popFrames_of_lt d top below htop) hval]
    exact ih (fun q hq => hall q (List.mem_cons_of_mem p hq)) _

/-- C1, the failing input: a `key: value` line that follows a list item at the
same depth reaches the unchecked type assertion on the frame of the slice, and
the call panics instead of skipping the line. -/
theorem LinesToMap_panics_after_list_item :
    LinesToMap ["items:".toList, "  - a".toList, "  b: c".toList] = Outcome.panicked := by
  rfl

/-- C2: unindented lines `k: v` (keys non-empty letter strings, values non-empty
strings of letters, digits and dots) give, with a nil error, the mapping whose
keys are exactly the `k`, each bound to the string of the last line with that
key; the values stay strings. -/
theorem LinesToMap_flat (kvs : List (Str × Str))
    (h : kvs.all (fun p => isLetters p.1 && isLettersDigitsDots p.2) = true) :
    ∃ m, LinesToMap (kvs.map fun p => p.1 ++ [':', ' '] ++ p.2) =
        Outcome.returned (some (Tree.mapping m)) none ∧
      (m.map Prod.fst).Nodup ∧
      (∀ key, key ∈ m.map Prod.fst ↔ key ∈ kvs.map Prod.fst) ∧
      ∀ key, Tree.lookup m key = (lastValue kvs key).map Tree.scalar := by
  have hall : ∀ p ∈ kvs, (p.1 ≠ [] ∧ ∀ c ∈ p.1, plain c) ∧ (p.2 ≠ [] ∧ ∀ c ∈ p.2, plain c) := by
    intro p hp
    have := List.all_eq_true.1 h p hp
    simp only [Bool.and_eq_true] at this
    obtain ⟨h1, _, h3⟩ := plain_of_isLetters this.1
    exact ⟨⟨h1, h3⟩, plain_of_isLettersDigitsDots this.2⟩
  have hrun := runLines_keyValues 0 kvs hall [[]]
    { value := Value.mapRef 0, key := [], indent := -1 } [] 0 (by decide) rfl
  have hfold := foldl_store_strings kvs [] [] []
  simp only [List.nil_append, List.length_nil, List.map_nil] at hfold
  rw [hfold] at hrun
  refine ⟨(kvs.foldl (fun (acc : List (Str × Str)) (p : Str × Str) =>
      assocSet acc p.1 p.2) []).map fun p => (p.1, Tree.scalar p.2), ?_, ?_, ?_, ?_⟩
  · have hlines : (kvs.map fun p => p.1 ++ [':', ' '] ++ p.2) =
        kvs.map fun p => List.replicate (2 * 0) ' ' ++ (p.1 ++ [':', ' '] ++ p.2) := by
      apply List.map_congr_left
      intro p _
      rfl
    rw [hlines]
    simp only [LinesToMap, initState, hrun, Heap.toTree, List.length_singleton]
    rw [reify_strMap [_] 1 0 (kvs.foldl (fun (acc : List (Str × Str)) (p : Str × Str) =>
      assocSet acc p.1 p.2) []) rfl]
  · rw [map_keys]
    exact foldl_assocSet_nodup kvs [] (by simp)
  · intro key
    rw [map_keys, foldl_assocSet_mem_keys]
    simp
  · intro key
    rw [Tree.lookup, assocGet_map, foldl_assocSet_get, lastValue_eq]
    cases assocGet kvs.reverse key <;> rfl

/-- C2 at the input of the specification: `name: test`, `version: 1.0` give
`{name: "test", version: "1.0"}`. -/
theorem LinesToMap_flat_witness :
    LinesToMap ["name: test".toList, "version: 1.0".toList] =
        Outcome.returned (some (Tree.mapping [("name".toList, Tree.scalar "test".toList),
          ("version".toList, Tree.scalar "1.0".toList)])) none ∧
    ∃ m, LinesToMap ["name: test".toList, "version: 1.0".toList] =
        Outcome.returned (some (Tree.mapping m)) none ∧
      (m.map Prod.fst).Nodup ∧
      (∀ key, key ∈ m.map Prod.fst ↔ key ∈ ["name".toList, "version".toList]) ∧
      ∀ key, Tree.lookup m key =
        (lastValue [("name".toList, "test".toList), ("version".toList, "1.0".toList)] key).map
          Tree.scalar :=
  ⟨rfl, LinesToMap_flat [("name".toList, "test".toList), ("version".toList, "1.0".toList)] rfl⟩

theorem rootFrame_lt (d : Nat) : (-1 : Int) < (d : Int) := by omega

/-- The key line `k:` at depth `d` below a frame that holds the map at address
`a`, when the next line does not start a list: a new empty map is allocated,
stored under `k`, and its frame pushed. -/
theorem processLine_key_map (d : Nat) (k : Str) (next : Option Str) (heap : Heap)
    (top : node) (below : List node) (a : Nat) (h1 : k ≠ []) (h3 : ∀ c ∈ k, plain c)
    (htop : top.indent < (d : Int)) (hval : top.value = Value.mapRef a)
    (hnext : isArrayNext d next = false) :
    processLine (List.replicate (2 * d) ' ' ++ (k ++ [':'])) next
        { heap := heap, stack := top :: below } =
      some { heap := (heap ++ [[]]).store a k (Value.mapRef heap.length),
             stack := { value := Value.mapRef heap.length, key := k, indent := d }
                        :: top :: below } := by
  rw [processLine_padded d _ _ _ (tidy_key k h1 h3),
    processTrimmed_key d k _ _ top below a h1 h3 (popFrames_of_lt d top below htop) hval]
  simp [hnext]

/-- C3: a key `k:` followed by indented lines `k_i: v_i` gives `{k: M}` where `M`
binds each `k_i` to the string of the last line with that key, and the root has
no other key. -/
theorem LinesToMap_nested (k : Str) (kvs : List (Str × Str)) (hk : isLetters k = true)
    (h : kvs.all (fun p => isLetters p.1 && isLettersDigits p.2) = true) :
    ∃ m, LinesToMap ((k ++ [':']) :: kvs.map fun p => [' ', ' '] ++ p.1 ++ [':', ' '] ++ p.2) =
        Outcome.returned (some (Tree.mapping [(k, Tree.mapping m)])) none ∧
      (m.map Prod.fst).Nodup ∧
      (∀ key, key ∈ m.map Prod.fst ↔ key ∈ kvs.map Prod.fst) ∧
      ∀ key, Tree.lookup m key = (lastValue kvs key).map Tree.scalar := by
  have hall : ∀ p ∈ kvs, (p.1 ≠ [] ∧ ∀ c ∈ p.1, plain c) ∧ (p.2 ≠ [] ∧ ∀ c ∈ p.2, plain c) := by
    intro p hp
    have := List.all_eq_true.1 h p hp
    simp only [Bool.and_eq_true] at this
    obtain ⟨h1, _, h3⟩ := plain_of_isLetters this.1
    exact ⟨⟨h1, h3⟩, plain_of_isLettersDigits this.2⟩
  have hlines : (kvs.map fun p => [' ', ' '] ++ p.1 ++ [':', ' '] ++ p.2) =
      kvs.map fun p => List.replicate (2 * 1) ' ' ++ (p.1 ++ [':', ' '] ++ p.2) := by
    apply List.map_congr_left
    intro p _
    simp [List.replicate]
  have hfirst : ∀ next, isArrayNext 0 next = false → processLine (k ++ [':']) next initState =
      some { heap := [[(k, Value.mapRef 1)], []],
             stack := [{ value := Value.mapRef 1, key := k, indent := 0 },
                       { value := Value.mapRef 0, key := [], indent := -1 }] } := by
    intro next hnext
    exact processLine_key_map 0 k next [[]] _ [] 0 (plain_of_isLetters hk).1
      (plain_of_isLetters hk).2.2 (by decide) rfl hnext
  have hnext : isArrayNext 0
      (kvs.map fun p => List.replicate (2 * 1) ' ' ++ (p.1 ++ [':', ' '] ++ p.2)).head? =
        false := by
    cases kvs with
    | nil => rfl
    | cons p r =>
      obtain ⟨⟨h1, h2⟩, h3, h4⟩ := hall p (List.mem_cons_self p r)
      simp only [List.map_cons, List.head?_cons]
      rw [isArrayNext_padded 0 1 _ (tidy_keyValue p.1 p.2 h1 h2 h3 h4), List.append_assoc,
        hasPrefix_dash_plain p.1 _ h1 h2]
      rfl
  have hrun := runLines_keyValues 1 kvs hall [[(k, Value.mapRef 1)], []]
    { value := Value.mapRef 1, key := k, indent := 0 }
    [{ value := Value.mapRef 0, key := [], indent := -1 }] 1
    (show (0 : Int) < ((1 : Nat) : Int) by decide) rfl
  have hfold := foldl_store_strings kvs [[(k, Value.mapRef 1)]] [] []
  simp only [List.length_singleton, List.map_nil, List.singleton_append] at hfold
  rw [hfold] at hrun
  refine ⟨(kvs.foldl (fun (acc : List (Str × Str)) (p : Str × Str) =>
      assocSet acc p.1 p.2) []).map fun p => (p.1, Tree.scalar p.2), ?_, ?_, ?_, ?_⟩
  · rw [hlines]
    simp only [LinesToMap, runLines, hfirst _ hnext, hrun, Heap.toTree]
    have hin := reify_strMap [[(k, Value.mapRef 1)], (kvs.foldl (fun (acc : List (Str × Str))
      (p : Str × Str) => assocSet acc p.1 p.2) []).map fun (p : Str × Str) =>
        (p.1, Value.str p.2)] 2 1
      (kvs.foldl (fun (acc : List (Str × Str)) (p : Str × Str) => assocSet acc p.1 p.2) []) rfl
    rw [show (2 * [[(k, Value.mapRef 1)], (kvs.foldl (fun (acc : List (Str × Str))
      (p : Str × Str) => assocSet acc p.1 p.2) []).map fun (p : Str × Str) =>
        (p.1, Value.str p.2)].length) = 3 + 1 from rfl,
      reify_singleton_map _ 3 0 k (Value.mapRef 1) _ (by rfl) hin]
  · rw [map_keys]
    exact foldl_assocSet_nodup kvs [] (by simp)
  · intro key
    rw [map_keys, foldl_assocSet_mem_keys]
    simp
  · intro key
    rw [Tree.lookup, assocGet_map, foldl_assocSet_get, lastValue_eq]
    cases assocGet kvs.reverse key <;> rfl

/-- C3 at the input of the specification: `settings:` with `debug` and `timeout`
gives `{settings: {debug: "true", timeout: "30"}}`. -/
theorem LinesToMap_nested_witness :
    LinesToMap ["settings:".toList, "  debug: true".toList, "  timeout: 30".toList] =
        Outcome.returned (some (Tree.mapping [("settings".toList,
          Tree.mapping [("debug".toList, Tree.scalar "true".toList),
            ("timeout".toList, Tree.scalar "30".toList)])])) none ∧
    ∃ m, LinesToMap ["settings:".toList, "  debug: true".toList, "  timeout: 30".toList] =
        Outcome.returned (some (Tree.mapping [("settings".toList, Tree.mapping m)])) none ∧
      (m.map Prod.fst).Nodup ∧
      (∀ key, key ∈ m.map Prod.fst ↔ key ∈ ["debug".toList, "timeout".toList]) ∧
      ∀ key, Tree.lookup m key =
        (lastValue [("debug".toList, "true".toList), ("timeout".toList, "30".toList)] key).map
          Tree.scalar :=
  ⟨rfl, LinesToMap_nested "settings".toList
    [("debug".toList, "true".toList), ("timeout".toList, "30".toList)] rfl rfl⟩

theorem assocGet_singleton {β : Type} (k : Str) (v : β) : assocGet [(k, v)] k = some v := by
  simp [assocGet]

/-- A run of list items without keys at one depth, below the frame of the key `k`
of the root map, appends each text to the slice under `k`. -/
theorem runLines_scalarItems (d : Nat) (ss : List Str)
    (hall : ∀ s ∈ ss, s ≠ [] ∧ ∀ c ∈ s, plain c) (k : Str) (xs : List Value)
    (parent : node) (hkey : parent.key = k) (hind : parent.indent < (d : Int)) :
    runLines (ss.map fun s => List.replicate (2 * d) ' ' ++ ('-' :: ' ' :: s))
        { heap := [[(k, Value.arr xs)]],
          stack := [parent, { value := Value.mapRef 0, key := [], indent := -1 }] } =
      some { heap := [[(k, Value.arr (xs ++ ss.map Value.str))]],
             stack := [parent, { value := Value.mapRef 0, key := [], indent := -1 }] } := by
  induction ss generalizing xs with
  | nil => simp [runLines]
  | cons s r ih =>
    obtain ⟨hs, hsp⟩ := hall s (List.mem_cons_self s r)
    simp only [List.map_cons, runLines]
    rw [processLine_padded d _ _ _ (tidy_item s (tidy_plain s hs hsp)),
      processTrimmed_scalarItem d s _ _ parent _ [] 0 hsp (popFrames_of_lt d parent _ hind) rfl]
    simp only [hkey, Heap.deref, List.getD_cons_zero, GoMap.get, assocGet_singleton, Heap.store,
      GoMap.set, assocSet, if_true]
    rw [ih (fun q hq => hall q (List.mem_cons_of_mem s hq))]
    simp

/-- C5: a key `k:` (letters, digits, underscores) followed by at least one list
item without a key (letters and digits) gives `{k: S}` where `S` is the sequence
of the item texts, as strings, in the input order and with as many elements. -/
theorem LinesToMap_scalar_list (k : Str) (ss : List Str) (hk : isKey k = true)
    (hn : ss ≠ []) (h : ss.all isLettersDigits = true) :
    LinesToMap ((k ++ [':']) :: ss.map fun s => [' ', ' ', '-', ' '] ++ s) =
      Outcome.returned (some (Tree.mapping [(k, Tree.sequence (ss.map Tree.scalar))])) none := by
  have hall : ∀ s ∈ ss, s ≠ [] ∧ ∀ c ∈ s, plain c := fun s hs =>
    plain_of_isLettersDigits (List.all_eq_true.1 h s hs)
  obtain ⟨hk1, hk3⟩ := plain_of_isKey hk
  have hlines : (ss.map fun s => [' ', ' ', '-', ' '] ++ s) =
      ss.map fun s => List.replicate (2 * 1) ' ' ++ ('-' :: ' ' :: s) := by
    apply List.map_congr_left
    intro s _
    simp [List.replicate]
  have hnext : isArrayNext 0
      (ss.map fun s => List.replicate (2 * 1) ' ' ++ ('-' :: ' ' :: s)).head? = true := by
    cases ss with
    | nil => exact absurd rfl hn
    | cons s r =>
      obtain ⟨hs, hsp⟩ := hall s (List.mem_cons_self s r)
      simp only [List.map_cons, List.head?_cons]
      rw [isArrayNext_padded 0 1 _ (tidy_item s (tidy_plain s hs hsp)), hasPrefix_dash]
      rfl
  have hfirst : processLine (k ++ [':'])
      (ss.map fun s => List.replicate (2 * 1) ' ' ++ ('-' :: ' ' :: s)).head? initState =
      some { heap := [[(k, Value.arr [])]],
             stack := [{ value := Value.arr [], key := k, indent := 0 },
                       { value := Value.mapRef 0, key := [], indent := -1 }] } := by
    have := processLine_padded 0 (k ++ [':'])
      (ss.map fun s => List.replicate (2 * 1) ' ' ++ ('-' :: ' ' :: s)).head? initState
      (tidy_key k hk1 hk3)
    rw [show List.replicate (2 * 0) ' ' ++ (k ++ [':']) = k ++ [':'] from rfl] at this
    rw [this, processTrimmed_key 0 k _ _ { value := Value.mapRef 0, key := [], indent := -1 } [] 0
      hk1 hk3 (by rfl) (by rfl), hnext]
    rfl
  have hrun := runLines_scalarItems 1 ss hall k [] { value := Value.arr [], key := k, indent := 0 }
    rfl (show (0 : Int) < ((1 : Nat) : Int) by decide)
  rw [hlines]
  simp only [LinesToMap, runLines, hfirst, hrun, Heap.toTree, List.nil_append]
  rw [show (2 * [[(k, Value.arr (ss.map Value.str))]].length) = 1 + 1 from rfl]
  simp only [reify, Heap.deref, List.getD_cons_zero, List.map_cons, List.map_nil, List.map_map,
    Function.comp_def]
  rw [allSome_map_some]
  rfl

/-- C5 at the input of the test: `array_value:` with `item1` and `item2`. -/
theorem LinesToMap_scalar_list_witness :
    LinesToMap ["array_value:".toList, "  - item1".toList, "  - item2".toList] =
      Outcome.returned (some (Tree.mapping [("array_value".toList,
        Tree.sequence [Tree.scalar "item1".toList, Tree.scalar "item2".toList])])) none := by
  exact LinesToMap_scalar_list "array_value".toList ["item1".toList, "item2".toList] rfl
    (by simp) rfl

/-- A chain of key lines, each two spaces deeper than the one before, below a
frame that holds the newest (and empty) map: every line allocates the next map
and stores a reference to it in the one before. -/
theorem runLines_chain (ks : List Str) (hall : ∀ k ∈ ks, k ≠ [] ∧ ∀ c ∈ k, plain c) (d : Nat)
    (pre : Heap) (top : node) (below : List node) (htop : top.indent < (d : Int))
    (hval : top.value = Value.mapRef pre.length) :
    ∃ stack, runLines (chainLines d ks) { heap := pre ++ [[]], stack := top :: below } =
      some { heap := pre ++ chainHeap pre.length ks, stack := stack } := by
  induction ks generalizing d pre top below with
  | nil => exact ⟨_, rfl⟩
  | cons k r ih =>
    obtain ⟨hk, hkp⟩ := hall k (List.mem_cons_self k r)
    have hnext : isArrayNext d (chainLines (d + 1) r).head? = false := by
      cases r with
      | nil => rfl
      | cons k2 r2 =>
        obtain ⟨hk2, hkp2⟩ := hall k2 (by simp)
        simp only [chainLines, List.head?_cons]
        rw [List.append_assoc, isArrayNext_padded d (d + 1) _ (tidy_key k2 hk2 hkp2),
          hasPrefix_dash_plain k2 _ hk2 hkp2]
        rfl
    have hstep := processLine_key_map d k (chainLines (d + 1) r).head? (pre ++ [[]]) top below
      pre.length hk hkp htop hval hnext
    have hstore : Heap.store (pre ++ [[]] ++ [[]]) pre.length k
        (Value.mapRef (pre ++ [[]]).length) =
        (pre ++ [[(k, Value.mapRef (pre.length + 1))]]) ++ [[]] := by
      have := store_at pre [] [[]] k (Value.mapRef (pre.length + 1))
      simpa [GoMap.set, assocSet] using this
    rw [hstore] at hstep
    obtain ⟨stack, hrest⟩ := ih (fun q hq => hall q (List.mem_cons_of_mem k hq)) (d + 1)
      (pre ++ [[(k, Value.mapRef (pre.length + 1))]])
      { value := Value.mapRef (pre ++ [[]]).length, key := k, indent := d } (top :: below)
      (by show (d : Int) < ((d + 1 : Nat) : Int); omega) (by simp)
    refine ⟨stack, ?_⟩
    simp only [chainLines, runLines]
    rw [List.append_assoc, hstep]
    simp only [hrest]
    simp [chainHeap]

/-- The maps of a chain read as the chain of mappings. -/
theorem reify_chain (ks : List Str) (pre : Heap) (fuel : Nat) (hf : ks.length < fuel) :
    reify (pre ++ chainHeap pre.length ks) fuel (Value.mapRef pre.length) =
      some (chainTree ks) := by
  induction ks generalizing pre fuel with
  | nil =>
    obtain ⟨f, rfl⟩ : ∃ f, fuel = f + 1 := ⟨fuel - 1, by omega⟩
    have hd : Heap.deref (pre ++ chainHeap pre.length []) pre.length = [] := deref_at pre [] []
    simp only [reify, hd, List.map_nil, allSome, chainTree]
  | cons k r ih =>
    obtain ⟨f, rfl⟩ : ∃ f, fuel = f + 1 := ⟨fuel - 1, by omega⟩
    have hd : Heap.deref (pre ++ chainHeap pre.length (k :: r)) pre.length =
        [(k, Value.mapRef (pre.length + 1))] := deref_at pre _ _
    have hin := ih (pre ++ [[(k, Value.mapRef (pre.length + 1))]]) f
      (by simp only [List.length_cons] at hf; omega)
    simp only [List.length_append, List.length_singleton, List.append_assoc,
      List.singleton_append] at hin
    exact reify_singleton_map _ f pre.length k _ _ hd hin

theorem chainHeap_length (base : Nat) (ks : List Str) :
    (chainHeap base ks).length = ks.length + 1 := by
  induction ks generalizing base with
  | nil => rfl
  | cons k r ih => simp [chainHeap, ih]

/-- C6: key lines without a value (keys of letters, digits, underscores), each two
spaces deeper than the one before, give the chain of nested mappings
`{k_0: {k_1: ... {k_n: {}}}}`: every such key becomes a mapping and the innermost
one is the empty mapping. -/
theorem LinesToMap_chain (ks : List Str) (h : ks.all isKey = true) :
    LinesToMap (chainLines 0 ks) = Outcome.returned (some (chainTree ks)) none := by
  have hall : ∀ k ∈ ks, k ≠ [] ∧ ∀ c ∈ k, plain c := fun k hk =>
    plain_of_isKey (List.all_eq_true.1 h k hk)
  obtain ⟨stack, hrun⟩ := runLines_chain ks hall 0 []
    { value := Value.mapRef 0, key := [], indent := -1 } [] (by decide) rfl
  simp only [List.nil_append, List.length_nil] at hrun
  simp only [LinesToMap, initState, hrun, Heap.toTree]
  have := reify_chain ks [] (2 * (chainHeap 0 ks).length) (by rw [chainHeap_length]; omega)
  simp only [List.nil_append, List.length_nil] at this
  rw [this]

/-- C6 at the input of the specification: `empty_value:`, `nested:`, `deep:`. -/
theorem LinesToMap_chain_witness :
    LinesToMap ["empty_value:".toList, "  nested:".toList, "    deep:".toList] =
      Outcome.returned (some (Tree.mapping [("empty_value".toList,
        Tree.mapping [("nested".toList, Tree.mapping [("deep".toList, Tree.mapping [])])])]))
        none :=
  LinesToMap_chain ["empty_value".toList, "nested".toList, "deep".toList] rfl

theorem itemHeap_length (k a b : Str) (done : List (Str × Str)) :
    (itemHeap k a b done).length = done.length + 1 := by
  simp [itemHeap]

/-- One item, its line `- a: x` and the deeper line `b: y`, extends the heap of
the items by one map and the slice by one reference. -/
theorem runLines_items (k a b : Str) (items : List (Str × Str))
    (ha : isLetters a = true) (hb : isLetters b = true) (hab : a ≠ b)
    (hall : ∀ p ∈ items, (p.1 ≠ [] ∧ ∀ c ∈ p.1, plain c) ∧ (p.2 ≠ [] ∧ ∀ c ∈ p.2, plain c))
    (done : List (Str × Str)) (stack : List node) (kframe : node) (hkey : kframe.key = k)
    (hpop : popFrames 1 stack =
      [kframe, { value := Value.mapRef 0, key := [], indent := -1 }])
    (hind : kframe.indent < ((1 : Nat) : Int)) :
    ∃ stack1, runLines (itemLines a b items) { heap := itemHeap k a b done, stack := stack } =
      some { heap := itemHeap k a b (done ++ items), stack := stack1 } := by
  obtain ⟨ha1, ha2, ha3⟩ := plain_of_isLetters ha
  obtain ⟨hb1, _, hb3⟩ := plain_of_isLetters hb
  induction items generalizing done stack with
  | nil => exact ⟨stack, by simp [itemLines, runLines]⟩
  | cons p r ih =>
    obtain ⟨x, y⟩ := p
    obtain ⟨⟨hx, hxp⟩, hy, hyp⟩ := hall (x, y) (List.mem_cons_self _ r)
    have hl1 : [' ', ' ', '-', ' '] ++ a ++ [':', ' '] ++ x =
        List.replicate (2 * 1) ' ' ++ ('-' :: ' ' :: (a ++ [':', ' '] ++ x)) := by
      simp [List.replicate]
    have hl2 : [' ', ' ', ' ', ' '] ++ b ++ [':', ' '] ++ y =
        List.replicate (2 * 2) ' ' ++ (b ++ [':', ' '] ++ y) := by
      simp [List.replicate]
    have ht1 := tidy_item _ (tidy_keyValue a x ha1 ha3 hx hxp)
    have ht2 := tidy_keyValue b y hb1 hb3 hy hyp
    have hcur : (match (Heap.deref (itemHeap k a b done) 0).get kframe.key with
        | some (Value.arr xs) => xs
        | _ => []) = (List.range' 1 done.length).map Value.mapRef := by
      simp [itemHeap, Heap.deref, GoMap.get, hkey, assocGet]
    have hstep1 := processTrimmed_mapItem 1 a x
      (some (List.replicate (2 * 2) ' ' ++ (b ++ [':', ' '] ++ y)))
      { heap := itemHeap k a b done, stack := stack } kframe
      { value := Value.mapRef 0, key := [], indent := -1 } [] 0 ha1 ha2 hxp hpop rfl
    rw [hcur, nextDeeper_padded 1 2 _ ht2] at hstep1
    simp only [gt_iff_lt, Nat.one_lt_ofNat, decide_True, if_true, Nat.cast_one] at hstep1
    have hheap1 : Heap.store (itemHeap k a b done ++ [[(a, Value.str x)]]) 0 kframe.key
        (Value.arr ((List.range' 1 done.length).map Value.mapRef ++
          [Value.mapRef (itemHeap k a b done).length])) =
        ([(k, Value.arr ((List.range' 1 (done ++ [(x, y)]).length).map Value.mapRef))] ::
          done.map fun p => [(a, Value.str p.1), (b, Value.str p.2)]) ++
            [(a, Value.str x)] :: [] := by
      rw [itemHeap_length]
      simp [itemHeap, Heap.store, GoMap.set, assocSet, hkey, List.range'_concat, Nat.add_comm]
    rw [hheap1] at hstep1
    have hstep2 := processTrimmed_keyValue 2 b y (itemLines a b r).head?
      { heap := ([(k, Value.arr ((List.range' 1 (done ++ [(x, y)]).length).map Value.mapRef))] ::
          done.map fun p => [(a, Value.str p.1), (b, Value.str p.2)]) ++
            [(a, Value.str x)] :: [],
        stack := { value := Value.mapRef (itemHeap k a b done).length, key := [], indent := 1 }
          :: kframe :: [{ value := Value.mapRef 0, key := [], indent := -1 }] }
      { value := Value.mapRef (itemHeap k a b done).length, key := [], indent := 1 }
      [kframe, { value := Value.mapRef 0, key := [], indent := -1 }]
      ((([(k, Value.arr ((List.range' 1 (done ++ [(x, y)]).length).map Value.mapRef))] :
          GoMap) :: done.map fun p => [(a, Value.str p.1), (b, Value.str p.2)]).length)
      hb1 hb3 hy hyp (popFrames_of_lt 2 _ _ (show (1 : Int) < ((2 : Nat) : Int) by decide))
      (by simp [itemHeap_length])
    rw [store_at] at hstep2
    have hset : GoMap.set [(a, Value.str x)] b (Value.str y) =
        [(a, Value.str x), (b, Value.str y)] := by
      simp [GoMap.set, assocSet, hab]
    rw [hset] at hstep2
    have hfin : ([(k, Value.arr ((List.range' 1 (done ++ [(x, y)]).length).map Value.mapRef))] ::
          done.map fun p => [(a, Value.str p.1), (b, Value.str p.2)]) ++
            [(a, Value.str x), (b, Value.str y)] :: [] = itemHeap k a b (done ++ [(x, y)]) := by
      simp [itemHeap]
    rw [hfin] at hstep2
    obtain ⟨stack1, hrest⟩ := ih (fun q hq => hall q (List.mem_cons_of_mem _ hq))
      (done ++ [(x, y)])
      ({ value := Value.mapRef (itemHeap k a b done).length, key := [], indent := 1 }
          :: kframe :: [{ value := Value.mapRef 0, key := [], indent := -1 }])
      (by
        rw [popFrames_of_le 1 _ _ (show ((1 : Nat) : Int) ≤ (1 : Int) by decide),
          popFrames_of_lt 1 _ _ hind])
    refine ⟨stack1, ?_⟩
    simp only [itemLines, runLines, List.head?_cons]
    rw [hl1, hl2, processLine_padded 1 _ _ _ ht1, hstep1]
    simp only []
    rw [processLine_padded 2 _ _ _ ht2, hstep2]
    simp only [hrest, List.append_assoc, List.singleton_append]

/-- The maps of the items read as the sequence of their mappings. -/
theorem allSome_items (a b : Str) (h : Heap) (fuel : Nat) (items : List (Str × Str))
    (pre post : Heap)
    (hh : h = pre ++ (items.map fun p => [(a, Value.str p.1), (b, Value.str p.2)]) ++ post) :
    allSome (((List.range' pre.length items.length).map Value.mapRef).map
        fun v => reify h (fuel + 1) v) =
      some (items.map fun p => Tree.mapping [(a, Tree.scalar p.1), (b, Tree.scalar p.2)]) := by
  induction items generalizing pre with
  | nil => rfl
  | cons p r ih =>
    have hd : h.deref pre.length =
        [(a, p.1), (b, p.2)].map fun q => (q.1, Value.str q.2) := by
      rw [hh]
      simp only [List.map_cons, List.cons_append, List.append_assoc]
      exact deref_at pre _ _
    have hrest := ih (pre ++ [[(a, Value.str p.1), (b, Value.str p.2)]]) (by
      rw [hh]; simp)
    simp only [List.length_append, List.length_singleton] at hrest
    simp only [List.length_cons, List.range'_succ, List.map_cons, allSome,
      reify_strMap h fuel pre.length _ hd, hrest, List.map_nil]

/-- C4: a key `k:` followed, for each item, by `  - a: x` and the deeper line
`    b: y` gives `{k: S}` where `S` is the sequence of the mappings
`{a: x, b: y}` in the input order: the deeper line adds a key to the item before
it, and each `- ` line starts a new item. -/
theorem LinesToMap_items (k a b : Str) (items : List (Str × Str)) (hk : isKey k = true)
    (ha : isLetters a = true) (hb : isLetters b = true) (hab : a ≠ b) (hn : items ≠ [])
    (h : items.all (fun p => isLettersDigits p.1 && isLettersDigits p.2) = true) :
    LinesToMap ((k ++ [':']) :: itemLines a b items) =
      Outcome.returned (some (Tree.mapping [(k, Tree.sequence (items.map fun p =>
        Tree.mapping [(a, Tree.scalar p.1), (b, Tree.scalar p.2)]))])) none := by
  have hall : ∀ p ∈ items,
      (p.1 ≠ [] ∧ ∀ c ∈ p.1, plain c) ∧ (p.2 ≠ [] ∧ ∀ c ∈ p.2, plain c) := by
    intro p hp
    have := List.all_eq_true.1 h p hp
    simp only [Bool.and_eq_true] at this
    exact ⟨plain_of_isLettersDigits this.1, plain_of_isLettersDigits this.2⟩
  obtain ⟨hk1, hk3⟩ := plain_of_isKey hk
  obtain ⟨ha1, _, ha3⟩ := plain_of_isLetters ha
  have hnext : isArrayNext 0 (itemLines a b items).head? = true := by
    cases items with
    | nil => exact absurd rfl hn
    | cons p r =>
      obtain ⟨x, y⟩ := p
      obtain ⟨⟨hx, hxp⟩, _⟩ := hall (x, y) (List.mem_cons_self _ r)
      have hl1 : [' ', ' ', '-', ' '] ++ a ++ [':', ' '] ++ x =
          List.replicate (2 * 1) ' ' ++ ('-' :: ' ' :: (a ++ [':', ' '] ++ x)) := by
        simp [List.replicate]
      simp only [itemLines, List.head?_cons]
      rw [hl1, isArrayNext_padded 0 1 _ (tidy_item _ (tidy_keyValue a x ha1 ha3 hx hxp)),
        hasPrefix_dash]
      rfl
  have hfirst : processLine (k ++ [':']) (itemLines a b items).head? initState =
      some { heap := itemHeap k a b [],
             stack := [{ value := Value.arr [], key := k, indent := 0 },
                       { value := Value.mapRef 0, key := [], indent := -1 }] } := by
    have := processLine_padded 0 (k ++ [':']) (itemLines a b items).head? initState
      (tidy_key k hk1 hk3)
    rw [show List.replicate (2 * 0) ' ' ++ (k ++ [':']) = k ++ [':'] from rfl] at this
    rw [this, processTrimmed_key 0 k _ _ { value := Value.mapRef 0, key := [], indent := -1 } [] 0
      hk1 hk3 (by rfl) (by rfl), hnext]
    rfl
  obtain ⟨stack1, hrun⟩ := runLines_items k a b items ha hb hab hall []
    [{ value := Value.arr [], key := k, indent := 0 },
     { value := Value.mapRef 0, key := [], indent := -1 }]
    { value := Value.arr [], key := k, indent := 0 } rfl
    (popFrames_of_lt 1 _ _ (show (0 : Int) < ((1 : Nat) : Int) by decide))
    (show (0 : Int) < ((1 : Nat) : Int) by decide)
  simp only [LinesToMap, runLines, hfirst, hrun, Heap.toTree, List.nil_append]
  obtain ⟨f, hf⟩ : ∃ f, 2 * (itemHeap k a b items).length = f + 2 :=
    ⟨2 * (itemHeap k a b items).length - 2, by rw [itemHeap_length]; omega⟩
  rw [hf]
  have hseq : reify (itemHeap k a b items) (f + 1)
      (Value.arr ((List.range' 1 items.length).map Value.mapRef)) =
      some (Tree.sequence (items.map fun p =>
        Tree.mapping [(a, Tree.scalar p.1), (b, Tree.scalar p.2)])) := by
    obtain ⟨g, rfl⟩ : ∃ g, f = g + 1 := by
      refine ⟨f - 1, ?_⟩
      rw [itemHeap_length] at hf
      have : 0 < items.length := List.length_pos.2 hn
      omega
    have := allSome_items a b (itemHeap k a b items) g items
      [[(k, Value.arr ((List.range' 1 items.length).map Value.mapRef))]] [] (by simp [itemHeap])
    simp only [List.length_singleton] at this
    simp only [reify, this]
  exact congrArg (fun t => Outcome.returned t none)
    (reify_singleton_map (itemHeap k a b items) (f + 1) 0 k _ _ rfl hseq)

/-- C4 at the input of the specification: two items with `id` and `name`. -/
theorem LinesToMap_items_witness :
    LinesToMap ["items:".toList, "  - id: 1".toList, "    name: item1".toList,
        "  - id: 2".toList, "    name: item2".toList] =
      Outcome.returned (some (Tree.mapping [("items".toList, Tree.sequence [
        Tree.mapping [("id".toList, Tree.scalar "1".toList),
          ("name".toList, Tree.scalar "item1".toList)],
        Tree.mapping [("id".toList, Tree.scalar "2".toList),
          ("name".toList, Tree.scalar "item2".toList)]])])) none :=
  LinesToMap_items "items".toList "id".toList "name".toList
    [("1".toList, "item1".toList), ("2".toList, "item2".toList)] rfl rfl rfl (by decide)
    (by simp) rfl

/-! ## Lines the parser ignores -/

theorem mem_of_mem_TrimSpace (c : Char) (s : Str) (h : c ∈ TrimSpace s) : c ∈ s := by
  unfold TrimSpace at h
  rw [List.mem_reverse] at h
  have h1 := (List.dropWhile_suffix isSpace).subset h
  rw [List.mem_reverse] at h1
  exact (List.dropWhile_suffix isSpace).subset h1

theorem processLine_skipped (line : Str) (next : Option Str) (st : State)
    (h : isSkipped line = true) : processLine line next st = some st := by
  simp only [isSkipped, Bool.or_eq_true, decide_eq_true_eq] at h
  simp only [processLine, h, if_true]

/-- A line without a colon changes nothing while only the root frame is on the
stack. -/
theorem processLine_no_colon (line : Str) (next : Option Str) (h : ':' ∉ line) :
    processLine line next initState = some initState := by
  by_cases hs : isSkipped line = true
  · exact processLine_skipped line next initState hs
  · have hsplit : SplitN2 (TrimSpace line) = none :=
      SplitN2_eq_none _ fun c hc hcc => h (hcc ▸ mem_of_mem_TrimSpace c line hc)
    simp only [isSkipped, Bool.or_eq_true, decide_eq_true_eq] at hs
    have hpop : popFrames (CalculateIndent line) initState.stack = initState.stack :=
      popFrames_of_lt _ _ _ (rootFrame_lt _)
    simp only [processLine, hs, if_false, processTrimmed, hpop]
    simp [initState, hsplit]

/-- C7: when every line is blank, a comment, or without a colon, the result is
the empty mapping and a nil error. -/
theorem LinesToMap_ignored (lines : List Str)
    (h : lines.all (fun l => isSkipped l || !l.contains ':') = true) :
    LinesToMap lines = Outcome.returned (some (Tree.mapping [])) none := by
  have hrun : runLines lines initState = some initState := by
    induction lines with
    | nil => rfl
    | cons l r ih =>
      simp only [List.all_cons, Bool.and_eq_true] at h
      obtain ⟨hl, hrest⟩ := h
      have hstep : processLine l r.head? initState = some initState := by
        rcases Bool.or_eq_true _ _ ▸ hl with h1 | h1
        · exact processLine_skipped l _ _ h1
        · refine processLine_no_colon l _ fun hc => ?_
          simp only [Bool.not_eq_true', List.contains_eq_any_beq, List.any_eq_false,
            beq_iff_eq] at h1
          exact h1 ':' hc rfl
      simp only [runLines, hstep]
      exact ih hrest
  simp only [LinesToMap, hrun]
  rfl

/-- C7 at the inputs of the test: blank lines, comments, lines without a colon. -/
theorem LinesToMap_ignored_witness :
    LinesToMap ["".toList, "# comment".toList, "invalid yaml format".toList,
        "no colons".toList] = Outcome.returned (some (Tree.mapping [])) none :=
  LinesToMap_ignored ["".toList, "# comment".toList, "invalid yaml format".toList,
    "no colons".toList] rfl

/-- An iteration depends on its lookahead line only through the answer it takes
from it. -/
theorem processLine_of_answer (line : Str) (next next1 : Option Str) (st : State)
    (h : lookaheadAnswer line next st = lookaheadAnswer line next1 st) :
    processLine line next st = processLine line next1 st := by
  unfold lookaheadAnswer at h
  unfold processLine
  by_cases hs : TrimSpace line = [] ∨ HasPrefix (TrimSpace line) ['#'] = true
  · simp only [hs, if_true]
  · simp only [hs, if_false] at h ⊢
    unfold processTrimmed
    cases hpop : popFrames (CalculateIndent line) st.stack with
    | nil => rfl
    | cons parent below =>
      simp only [hpop] at h ⊢
      by_cases hitem : HasPrefix (TrimSpace line) ['-', ' '] = true ∧
          1 < (parent :: below).length
      · simp only [hitem, and_self, if_true] at h ⊢
        cases below with
        | nil => rfl
        | cons grand rest =>
          simp only at h ⊢
          cases hg : grand.value with
          | str x => rfl
          | arr xs => rfl
          | mapRef a =>
            simp only [hg] at h ⊢
            by_cases hre : reItem (TrimPrefix (TrimSpace line) ['-', ' ']) = true
            · simp only [hre, if_true, Option.some.injEq] at h ⊢
              rw [h]
            · simp only [hre, Bool.false_eq_true, if_false]
      · simp only [hitem, if_false] at h ⊢
        cases hsp : SplitN2 (TrimSpace line) with
        | none => rfl
        | some p =>
          obtain ⟨p0, p1⟩ := p
          simp only [hsp] at h ⊢
          cases hv : parent.value with
          | str x => rfl
          | arr xs => rfl
          | mapRef a =>
            simp only [hv] at h ⊢
            by_cases he : TrimSpace p1 = []
            · simp only [he, if_true, Option.some.injEq] at h ⊢
              rw [h]
            · simp only [he, if_false]

theorem runLines_filter (lines : List Str) (st : State) (h : lookaheadSafe lines st = true) :
    runLines lines st = runLines (lines.filter fun l => !isSkipped l) st := by
  induction lines generalizing st with
  | nil => rfl
  | cons x r ih =>
    simp only [lookaheadSafe, Bool.and_eq_true, decide_eq_true_eq] at h
    obtain ⟨hans, hrest⟩ := h
    have hstep := processLine_of_answer x _ _ st hans
    by_cases hx : isSkipped x = true
    · have hsk := processLine_skipped x (r.filter fun l => !isSkipped l).head? st hx
      rw [hsk] at hrest hstep
      simp only [runLines, hstep, List.filter_cons, hx, Bool.not_true, Bool.false_eq_true,
        if_false]
      exact ih st hrest
    · simp only [Bool.not_eq_true] at hx
      simp only [runLines, List.filter_cons, hx, Bool.not_false, if_true, hstep]
      cases hp : processLine x (r.filter fun l => !isSkipped l).head? st with
      | none => rfl
      | some st1 =>
        rw [hp] at hrest
        exact ih st1 hrest

/-- C8 as stated fails: the blank line after `- id: 1` is what the lookahead of
that item sees, so no frame is pushed for the item and the deeper `- z` is
appended to the list, while without the blank line it is dropped. -/
theorem LinesToMap_blank_line_seen :
    LinesToMap ["items:".toList, "  - id: 1".toList, "".toList, "    - z".toList] ≠
      LinesToMap (["items:".toList, "  - id: 1".toList, "".toList, "    - z".toList].filter
        fun l => !isSkipped l) := by
  rw [show LinesToMap ["items:".toList, "  - id: 1".toList, "".toList, "    - z".toList] =
      Outcome.returned (some (Tree.mapping [("items".toList, Tree.sequence
        [Tree.mapping [("id".toList, Tree.scalar "1".toList)], Tree.scalar "z".toList])])) none
      from rfl,
    show LinesToMap (["items:".toList, "  - id: 1".toList, "".toList, "    - z".toList].filter
        fun l => !isSkipped l) =
      Outcome.returned (some (Tree.mapping [("items".toList, Tree.sequence
        [Tree.mapping [("id".toList, Tree.scalar "1".toList)]])])) none from rfl]
  simp

/-- C8, amended: removing the blank and comment lines does not change the outcome
when every iteration of the loop that reads a blank or comment line as its
lookahead line takes from it the answer the next processed line gives. -/
theorem LinesToMap_skip (lines : List Str) (h : lookaheadSafe lines initState = true) :
    LinesToMap lines = LinesToMap (lines.filter fun l => !isSkipped l) := by
  simp only [LinesToMap, runLines_filter lines initState h]

/-- C8 at the input of the specification, and at an input where blank and comment
lines follow a key with an empty value, a scalar list item and a list item
`- key: value`. -/
theorem LinesToMap_skip_witness :
    LinesToMap ["".toList, "# comment".toList, "name: test".toList,
        "  # inline comment".toList] = LinesToMap ["name: test".toList] ∧
    LinesToMap ["api:".toList, "".toList, "  version: v1".toList, "items:".toList,
        "  - a".toList, "# note".toList, "  - id: 1".toList, "".toList, "name: x".toList] =
      LinesToMap ["api:".toList, "  version: v1".toList, "items:".toList, "  - a".toList,
        "  - id: 1".toList, "name: x".toList] :=
  ⟨LinesToMap_skip ["".toList, "# comment".toList, "name: test".toList,
      "  # inline comment".toList] rfl,
   LinesToMap_skip ["api:".toList, "".toList, "  version: v1".toList, "items:".toList,
      "  - a".toList, "# note".toList, "  - id: 1".toList, "".toList, "name: x".toList] rfl⟩

/-! ## The fragment accumulator -/

theorem dropWhile_concat_not {α : Type} (p : α → Bool) (ys : List α) (b : α) (hb : p b = false) :
    ∃ zs, (ys ++ [b]).dropWhile p = zs ++ [b] := by
  induction ys with
  | nil => exact ⟨[], by simp [List.dropWhile, hb]⟩
  | cons a r ih =>
    by_cases ha : p a = true
    · simpa [List.dropWhile, ha] using ih
    · exact ⟨a :: r, by simp [List.dropWhile, ha]⟩

theorem TrimSpace_ne_nil_of_last (ys : Str) (b : Char) (hb : isSpace b = false) :
    TrimSpace (ys ++ [b]) ≠ [] := by
  obtain ⟨zs, hz⟩ := dropWhile_concat_not isSpace ys b hb
  simp [TrimSpace, hz, List.dropWhile, hb]

theorem getLast_ne_backslash_of_blank (s : Str) (h : TrimSpace s = []) :
    s.getLast? ≠ some backslash := by
  intro hl
  obtain ⟨ys, rfl⟩ := List.getLast?_eq_some_iff.1 hl
  exact TrimSpace_ne_nil_of_last ys backslash (by decide) h

theorem hasSuffix_newline_concat (x : Str) (c : Char) :
    HasSuffix (x ++ [c]) [newline] = (newline == c) := by
  simp [HasSuffix, List.isPrefixOf]

theorem hasSuffix_escape_concat (x : Str) (c : Char)
    (h : x.getLast? ≠ some backslash ∨ c ≠ 'n') :
    HasSuffix (x ++ [c]) [backslash, 'n'] = false := by
  rcases List.eq_nil_or_concat x with hx | ⟨ys, z, hx⟩
  · subst hx
    simp [HasSuffix, List.isPrefixOf]
  · subst hx
    rw [List.concat_eq_append] at h ⊢
    rw [List.getLast?_concat] at h
    have h2 : ¬ (c = 'n' ∧ z = backslash) := by
      rintro ⟨h3, h4⟩
      rcases h with h | h
      · exact h (by rw [h4])
      · exact h h3
    simp only [HasSuffix, List.reverse_append, List.reverse_cons, List.reverse_nil,
      List.nil_append, List.singleton_append, List.cons_append, List.isPrefixOf,
      Bool.and_true, Bool.and_eq_false_iff, beq_eq_false_iff_ne, ne_eq]
    by_cases h3 : c = 'n'
    · right
      intro h4
      exact h2 ⟨h3, h4.symm⟩
    · left
      exact fun h4 => h3 h4.symm

/-- A fragment that does not complete a line is only appended to the buffer. -/
theorem feed_char (acc : Acc) (c : Char) (hc : c ≠ newline)
    (h : acc.line.getLast? ≠ some backslash ∨ c ≠ 'n') :
    feed acc [c] = { result := acc.result, line := acc.line ++ [c] } := by
  have h1 : HasSuffix (acc.line ++ [c]) [newline] = false := by
    rw [hasSuffix_newline_concat]
    simp [Ne.symm hc]
  simp only [feed, h1, hasSuffix_escape_concat _ c h, Bool.or_self, Bool.false_eq_true, if_false]

theorem hasEscape_cons (c d : Char) (rest : Str) (h : hasEscape (c :: d :: rest) = false) :
    ¬ (c = backslash ∧ d = 'n') ∧ hasEscape (d :: rest) = false := by
  simp only [hasEscape, Bool.or_eq_false_iff, Bool.and_eq_false_iff, beq_eq_false_iff_ne,
    ne_eq] at h
  refine ⟨?_, h.2⟩
  rintro ⟨h1, h2⟩
  rcases h.1 with h3 | h3
  · exact h3 h1
  · exact h3 h2

/-- The characters of a line without line feed and without escape, fed one at a
time, only fill the buffer. -/
theorem feed_chars (l : Str) (acc : Acc) (hn : newline ∉ l) (he : hasEscape l = false)
    (h : acc.line.getLast? ≠ some backslash ∨ l.head? ≠ some 'n') :
    (l.map fun c => ({ Data := [c], Err := none } : SSEvent)).foldl
        (fun a e => feed a e.Data) acc =
      { result := acc.result, line := acc.line ++ l } := by
  induction l generalizing acc with
  | nil => simp
  | cons c r ih =>
    have hc : c ≠ newline := fun hcn => hn (hcn ▸ List.mem_cons_self c r)
    have h1 : acc.line.getLast? ≠ some backslash ∨ c ≠ 'n' := by
      rcases h with h | h
      · exact Or.inl h
      · exact Or.inr fun hcn => h (by rw [hcn]; rfl)
    simp only [List.map_cons, List.foldl_cons, feed_char acc c hc h1]
    rw [ih _ (fun hm => hn (List.mem_cons_of_mem c hm))]
    · simp
    · cases r with
      | nil => rfl
      | cons d t => exact (hasEscape_cons c d t he).2
    · cases r with
      | nil => exact Or.inr (by simp)
      | cons d t =>
        have := (hasEscape_cons c d t he).1
        simp only [List.getLast?_concat, List.head?_cons, ne_eq, Option.some.injEq]
        by_cases hcb : c = backslash
        · exact Or.inr fun hd => this ⟨hcb, hd⟩
        · exact Or.inl hcb

theorem feed_append (r : List Str) (x y d : Str) :
    feed { result := r, line := x ++ y } d = feed { result := r, line := x } (y ++ d) := by
  simp only [feed, List.append_assoc]

/-- After a fragment that ends with a line feed the buffer does not end with a
backslash: it is empty, or blank. -/
theorem feed_line_buffer (acc : Acc) (l : Str) :
    (feed acc (l ++ [newline])).line.getLast? ≠ some backslash := by
  have h1 : HasSuffix (acc.line ++ (l ++ [newline])) [newline] = true := by
    rw [← List.append_assoc, hasSuffix_newline_concat]
    rfl
  simp only [feed, h1, Bool.true_or, if_true]
  split
  · simp
  · split
    · rename_i hb
      exact getLast_ne_backslash_of_blank _ hb
    · simp

theorem accumulate_ok (events : List SSEvent) (i : Nat) (acc : Acc)
    (h : ∀ e ∈ events, e.Err = none) :
    accumulate background i events acc =
      Except.ok (events.foldl (fun a e => feed a e.Data) acc) := by
  induction events generalizing i acc with
  | nil => rfl
  | cons e r ih =>
    simp only [accumulate, background, h e (List.mem_cons_self e r), List.foldl_cons]
    exact ih _ _ fun q hq => h q (List.mem_cons_of_mem e hq)

theorem foldl_feed_chunks (lines : List Str) (acc : Acc)
    (h : ∀ l ∈ lines, newline ∉ l ∧ hasEscape l = false)
    (hacc : acc.line.getLast? ≠ some backslash) :
    (perLine lines).foldl (fun a e => feed a e.Data) acc =
      (perChar lines).foldl (fun a e => feed a e.Data) acc := by
  induction lines generalizing acc with
  | nil => rfl
  | cons l r ih =>
    obtain ⟨hn, he⟩ := h l (List.mem_cons_self l r)
    have hchars := feed_chars l acc hn he (Or.inl hacc)
    simp only [perLine, perChar, joinLines, List.map_cons, List.foldl_cons, List.map_append,
      List.foldl_append, hchars] at ih ⊢
    have hfeed : feed { result := acc.result, line := acc.line ++ l } [newline] =
        feed acc (l ++ [newline]) := feed_append acc.result acc.line l [newline]
    rw [hfeed]
    exact ih _ (fun q hq => h q (List.mem_cons_of_mem l hq)) (feed_line_buffer acc l)

/-- C9 as stated fails: a line that holds a backslash followed by `n` is cut at
that place when it arrives character by character, and is kept whole when it
arrives as one fragment. -/
theorem ProcessAIResponseEvents_chunking_seen :
    ProcessAIResponseEvents background (perLine ["k: a\\nb".toList]) ≠
      ProcessAIResponseEvents background (perChar ["k: a\\nb".toList]) := by
  rw [show ProcessAIResponseEvents background (perLine ["k: a\\nb".toList]) =
      Outcome.returned (some (Tree.mapping [("k".toList, Tree.scalar "a\\nb".toList)])) none
      from rfl,
    show ProcessAIResponseEvents background (perChar ["k: a\\nb".toList]) =
      Outcome.returned (some (Tree.mapping [("k".toList, Tree.scalar "ab".toList)])) none
      from rfl]
  simp

/-- C9, amended: for lines that hold neither a line feed nor a backslash followed
by `n`, one fragment per line and one fragment per character give the same
outcome. -/
theorem ProcessAIResponseEvents_chunk_invariant (lines : List Str)
    (h : lines.all (fun l => !l.contains newline && !hasEscape l) = true) :
    ProcessAIResponseEvents background (perLine lines) =
      ProcessAIResponseEvents background (perChar lines) := by
  have hall : ∀ l ∈ lines, newline ∉ l ∧ hasEscape l = false := by
    intro l hl
    have := List.all_eq_true.1 h l hl
    simp only [Bool.and_eq_true, Bool.not_eq_true', List.contains_eq_any_beq,
      List.any_eq_false, beq_iff_eq] at this
    exact ⟨fun hm => this.1 newline hm rfl, this.2⟩
  have h1 : ∀ e ∈ perLine lines, e.Err = none := by
    intro e he
    simp only [perLine, List.mem_map] at he
    obtain ⟨_, _, rfl⟩ := he
    rfl
  have h2 : ∀ e ∈ perChar lines, e.Err = none := by
    intro e he
    simp only [perChar, List.mem_map] at he
    obtain ⟨_, _, rfl⟩ := he
    rfl
  have hsame := foldl_feed_chunks lines { result := [], line := [] } hall (by simp)
  simp only [ProcessAIResponseEvents, accumulate_ok _ 0 _ h1, accumulate_ok _ 0 _ h2, hsame]

/-- C9, amended, at the first lines of the test. -/
theorem ProcessAIResponseEvents_chunk_invariant_witness :
    ProcessAIResponseEvents background
        (perLine ["api:".toList, "  version: v1".toList, "  endpoints:".toList,
          "    - name: users".toList]) =
      ProcessAIResponseEvents background
        (perChar ["api:".toList, "  version: v1".toList, "  endpoints:".toList,
          "    - name: users".toList]) :=
  ProcessAIResponseEvents_chunk_invariant ["api:".toList, "  version: v1".toList,
    "  endpoints:".toList, "    - name: users".toList] rfl

/-- C10, the failing input: the value `john` loses its last letter, because the
line feed is stripped with `TrimRight(line, "\\n")`, whose second argument is a
set of characters (backslash and `n`), not a suffix. -/
theorem ProcessAIResponseEvents_trims_value :
    ProcessAIResponseEvents background [{ Data := "name: john\n".toList, Err := none }] =
      Outcome.returned (some (Tree.mapping [("name".toList, Tree.scalar "joh".toList)]))
        none := by
  rfl

/-! ## The result can always be read: references never point backwards -/

theorem elemOk_mono {n m a : Nat} {v : Value} (h : elemOk n a v) (hnm : n ≤ m) :
    elemOk m a v := by
  cases v with
  | str s => trivial
  | mapRef b => exact ⟨h.1, Nat.lt_of_lt_of_le h.2 hnm⟩
  | arr xs => exact h

theorem valueOk_mono {n m a : Nat} {v : Value} (h : valueOk n a v) (hnm : n ≤ m) :
    valueOk m a v := by
  cases v with
  | str s => trivial
  | mapRef b => exact ⟨h.1, Nat.lt_of_lt_of_le h.2 hnm⟩
  | arr xs => exact fun x hx => elemOk_mono (h x hx) hnm

theorem store_length (h : Heap) (a : Nat) (k : Str) (v : Value) :
    (Heap.store h a k v).length = h.length := by
  induction h generalizing a with
  | nil => rfl
  | cons m r ih =>
    cases a with
    | zero => rfl
    | succ b => simp [Heap.store, ih]

theorem mem_assocSet {β : Type} (l : List (Str × β)) (k : Str) (v : β) (p : Str × β)
    (h : p ∈ assocSet l k v) : p = (k, v) ∨ p ∈ l := by
  induction l with
  | nil =>
    simp only [assocSet, List.mem_singleton] at h
    exact Or.inl h
  | cons q r ih =>
    obtain ⟨k1, w⟩ := q
    by_cases h1 : k1 = k
    · simp only [assocSet, h1, if_true, List.mem_cons] at h
      rcases h with h | h
      · exact Or.inl h
      · exact Or.inr (List.mem_cons_of_mem _ h)
    · simp only [assocSet, h1, if_false, List.mem_cons] at h
      rcases h with h | h
      · exact Or.inr (h ▸ List.mem_cons_self _ _)
      · rcases ih h with h2 | h2
        · exact Or.inl h2
        · exact Or.inr (List.mem_cons_of_mem _ h2)

theorem mem_of_assocGet {β : Type} (l : List (Str × β)) (k : Str) (v : β)
    (h : assocGet l k = some v) : (k, v) ∈ l := by
  induction l with
  | nil => cases h
  | cons q r ih =>
    obtain ⟨k1, w⟩ := q
    by_cases h1 : k1 = k
    · simp only [assocGet, h1, if_true, Option.some.injEq] at h
      rw [h1, h]
      exact List.mem_cons_self _ _
    · simp only [assocGet, h1, if_false] at h
      exact List.mem_cons_of_mem _ (ih h)

theorem mem_deref_store (h : Heap) (a : Nat) (k : Str) (v : Value) (b : Nat) (p : Str × Value)
    (hp : p ∈ (Heap.store h a k v).deref b) : (b = a ∧ p = (k, v)) ∨ p ∈ h.deref b := by
  induction h generalizing a b with
  | nil => exact Or.inr hp
  | cons m r ih =>
    cases a with
    | zero =>
      cases b with
      | zero =>
        rcases mem_assocSet m k v p hp with h1 | h1
        · exact Or.inl ⟨rfl, h1⟩
        · exact Or.inr h1
      | succ c => exact Or.inr hp
    | succ a1 =>
      cases b with
      | zero => exact Or.inr hp
      | succ c =>
        rcases ih a1 c hp with ⟨h1, h2⟩ | h1
        · exact Or.inl ⟨by rw [h1], h2⟩
        · exact Or.inr h1

theorem WF_store (h : Heap) (a : Nat) (k : Str) (v : Value) (hwf : h.WF)
    (hv : valueOk h.length a v) : (Heap.store h a k v).WF := by
  intro b p hp
  rw [store_length]
  rcases mem_deref_store h a k v b p hp with ⟨h1, h2⟩ | h1
  · rw [h1, h2]
    exact hv
  · exact hwf b p h1

theorem mem_deref_append (h : Heap) (m : GoMap) (b : Nat) (p : Str × Value)
    (hp : p ∈ (h ++ [m]).deref b) : p ∈ h.deref b ∨ (b = h.length ∧ p ∈ m) := by
  induction h generalizing b with
  | nil =>
    cases b with
    | zero => exact Or.inr ⟨rfl, hp⟩
    | succ c => cases hp
  | cons x r ih =>
    cases b with
    | zero => exact Or.inl hp
    | succ c =>
      rcases ih c hp with h1 | ⟨h1, h2⟩
      · exact Or.inl h1
      · exact Or.inr ⟨by rw [h1]; rfl, h2⟩

theorem WF_append (h : Heap) (m : GoMap) (hwf : h.WF)
    (hm : ∀ p ∈ m, valueOk (h.length + 1) h.length p.2) : (h ++ [m]).WF := by
  intro b p hp
  rw [List.length_append, List.length_singleton]
  rcases mem_deref_append h m b p hp with h1 | ⟨h1, h2⟩
  · exact valueOk_mono (hwf b p h1) (Nat.le_succ _)
  · rw [h1]
    exact hm p h2

theorem mem_popFrames (d : Nat) (stack : List node) (f : node) (h : f ∈ popFrames d stack) :
    f ∈ stack := by
  induction stack with
  | nil => cases h
  | cons g r ih =>
    by_cases hg : (d : Int) ≤ g.indent
    · simp only [popFrames, hg, if_true] at h
      exact List.mem_cons_of_mem _ (ih h)
    · simp only [popFrames, hg, if_false] at h
      exact h

/-- The slice found under a key of a well-formed map holds only strings and
references to later maps. -/
theorem current_slice_ok (h : Heap) (a : Nat) (key : Str) (hwf : h.WF) :
    ∀ x ∈ (match (h.deref a).get key with
      | some (Value.arr xs) => xs
      | _ => []), elemOk h.length a x := by
  cases hg : (h.deref a).get key with
  | none => intro x hx; cases hx
  | some v =>
    cases v with
    | str s => intro x hx; cases hx
    | mapRef b => intro x hx; cases hx
    | arr xs =>
      intro x hx
      exact hwf a (key, Value.arr xs) (mem_of_assocGet _ _ _ hg) x hx

theorem frames_ok_of_pop (st : State) (d : Nat) (top : node) (below : List node)
    (hpop : popFrames d st.stack = top :: below) (n : Nat) (hn : st.heap.length ≤ n)
    (hinv : st.Inv) :
    ∀ f ∈ top :: below, ∀ a, f.value = Value.mapRef a → a < n := by
  intro f hf a ha
  have hmem : f ∈ st.stack := mem_popFrames d _ f (hpop ▸ hf)
  exact Nat.lt_of_lt_of_le (hinv.2.2 f hmem a ha) hn

/-- One loop iteration keeps the invariant. -/
theorem processTrimmed_inv (indent : Nat) (trimmedLine : Str) (next : Option Str)
    (st st1 : State) (h : processTrimmed indent trimmedLine next st = some st1)
    (hinv : st.Inv) : st1.Inv := by
  unfold processTrimmed at h
  cases hpop : popFrames indent st.stack with
  | nil => rw [hpop] at h; cases h
  | cons parent below =>
    rw [hpop] at h
    have hfr := frames_ok_of_pop st indent parent below hpop
    simp only at h
    by_cases hitem : HasPrefix trimmedLine ['-', ' '] = true ∧ 1 < (parent :: below).length
    · rw [if_pos hitem] at h
      cases below with
      | nil => cases h
      | cons grand rest =>
        simp only at h
        cases hg : grand.value with
        | str s =>
          rw [hg] at h
          cases h
          exact ⟨hinv.1, hinv.2.1, hfr _ (Nat.le_refl _) hinv⟩
        | arr xs =>
          rw [hg] at h
          cases h
          exact ⟨hinv.1, hinv.2.1, hfr _ (Nat.le_refl _) hinv⟩
        | mapRef a =>
          rw [hg] at h
          simp only at h
          have ha : a < st.heap.length := hfr _ (Nat.le_refl _) hinv grand (by simp) a hg
          have hcur := current_slice_ok st.heap a parent.key hinv.1
          by_cases hre : reItem (TrimPrefix trimmedLine ['-', ' ']) = true
          · rw [if_pos hre] at h
            cases hs : SplitN2 (TrimPrefix trimmedLine ['-', ' ']) with
            | none => rw [hs] at h; cases h
            | some p =>
              obtain ⟨p0, p1⟩ := p
              rw [hs] at h
              cases h
              refine ⟨?_, ?_, ?_⟩
              · apply WF_store
                · apply WF_append _ _ hinv.1
                  intro q hq
                  rw [List.mem_singleton.1 hq]
                  trivial
                · rw [List.length_append, List.length_singleton]
                  intro x hx
                  rcases List.mem_append.1 hx with hx1 | hx1
                  · exact elemOk_mono (hcur x hx1) (Nat.le_succ _)
                  · rw [List.mem_singleton.1 hx1]
                    exact ⟨ha, Nat.lt_succ_self _⟩
              · rw [store_length, List.length_append, List.length_singleton]
                exact Nat.succ_pos _
              · simp only [store_length, List.length_append, List.length_singleton]
                intro f hf b hb
                by_cases hnd : nextDeeper indent next = true
                · rw [if_pos hnd] at hf
                  rcases List.mem_cons.1 hf with hf1 | hf1
                  · rw [hf1] at hb
                    cases hb
                    exact Nat.lt_succ_self _
                  · exact hfr _ (Nat.le_succ _) hinv f hf1 b hb
                · rw [if_neg hnd] at hf
                  exact hfr _ (Nat.le_succ _) hinv f hf b hb
          · rw [if_neg hre] at h
            cases h
            refine ⟨?_, ?_, ?_⟩
            · apply WF_store _ _ _ _ hinv.1
              intro x hx
              rcases List.mem_append.1 hx with hx1 | hx1
              · exact hcur x hx1
              · rw [List.mem_singleton.1 hx1]
                trivial
            · rw [store_length]
              exact hinv.2.1
            · simp only [store_length]
              exact hfr _ (Nat.le_refl _) hinv
    · rw [if_neg hitem] at h
      cases hs : SplitN2 trimmedLine with
      | none =>
        rw [hs] at h
        cases h
        exact ⟨hinv.1, hinv.2.1, hfr _ (Nat.le_refl _) hinv⟩
      | some p =>
        obtain ⟨p0, p1⟩ := p
        rw [hs] at h
        simp only at h
        cases hp : parent.value with
        | str s => rw [hp] at h; cases h
        | arr xs => rw [hp] at h; cases h
        | mapRef a =>
          rw [hp] at h
          simp only at h
          have ha : a < st.heap.length := hfr _ (Nat.le_refl _) hinv parent (by simp) a hp
          by_cases hv : TrimSpace p1 = []
          · rw [if_pos hv] at h
            by_cases harr : isArrayNext indent next = true
            · rw [if_pos harr] at h
              cases h
              refine ⟨?_, ?_, ?_⟩
              · apply WF_store _ _ _ _ hinv.1
                intro x hx
                cases hx
              · rw [store_length]
                exact hinv.2.1
              · simp only [store_length]
                intro f hf b hb
                rcases List.mem_cons.1 hf with hf1 | hf1
                · rw [hf1] at hb
                  cases hb
                · exact hfr _ (Nat.le_refl _) hinv f hf1 b hb
            · rw [if_neg harr] at h
              cases h
              refine ⟨?_, ?_, ?_⟩
              · apply WF_store
                · apply WF_append _ _ hinv.1
                  intro q hq
                  cases hq
                · rw [List.length_append, List.length_singleton]
                  exact ⟨ha, Nat.lt_succ_self _⟩
              · rw [store_length, List.length_append, List.length_singleton]
                exact Nat.succ_pos _
              · simp only [store_length, List.length_append, List.length_singleton]
                intro f hf b hb
                rcases List.mem_cons.1 hf with hf1 | hf1
                · rw [hf1] at hb
                  cases hb
                  exact Nat.lt_succ_self _
                · exact hfr _ (Nat.le_succ _) hinv f hf1 b hb
          · rw [if_neg hv] at h
            cases h
            refine ⟨?_, ?_, ?_⟩
            · apply WF_store _ _ _ _ hinv.1
              trivial
            · rw [store_length]
              exact hinv.2.1
            · simp only [store_length]
              exact hfr _ (Nat.le_refl _) hinv

theorem processLine_inv (line : Str) (next : Option Str) (st st1 : State)
    (h : processLine line next st = some st1) (hinv : st.Inv) : st1.Inv := by
  unfold processLine at h
  by_cases hs : TrimSpace line = [] ∨ HasPrefix (TrimSpace line) ['#'] = true
  · rw [if_pos hs] at h
    cases h
    exact hinv
  · rw [if_neg hs] at h
    exact processTrimmed_inv _ _ _ _ _ h hinv

theorem runLines_inv (lines : List Str) (st st1 : State) (h : runLines lines st = some st1)
    (hinv : st.Inv) : st1.Inv := by
  induction lines generalizing st with
  | nil =>
    cases h
    exact hinv
  | cons l r ih =>
    simp only [runLines] at h
    cases hp : processLine l r.head? st with
    | none => rw [hp] at h; cases h
    | some st2 =>
      rw [hp] at h
      exact ih st2 h (processLine_inv l _ st st2 hp hinv)

theorem initState_inv : initState.Inv := by
  refine ⟨?_, Nat.succ_pos _, ?_⟩
  · intro a p hp
    cases a with
    | zero => cases hp
    | succ b => cases hp
  · intro f hf a ha
    rw [List.mem_singleton.1 hf] at ha
    cases ha
    exact Nat.succ_pos _

theorem allSome_isSome {α β : Type} (g : α → Option β) (l : List α)
    (h : ∀ x ∈ l, (g x).isSome = true) : (allSome (l.map g)).isSome = true := by
  induction l with
  | nil => rfl
  | cons a r ih =>
    have ha := h a (List.mem_cons_self a r)
    have hr := ih fun x hx => h x (List.mem_cons_of_mem a hx)
    cases hga : g a with
    | none => rw [hga] at ha; cases ha
    | some b =>
      cases hgr : allSome (r.map g) with
      | none => rw [hgr] at hr; cases hr
      | some bs => simp [allSome, hga, hgr]

/-- In a well-formed heap every allocated map can be read with `2` levels of fuel
for each map allocated from it on. -/
theorem reify_isSome (h : Heap) (hwf : h.WF) (k : Nat) :
    ∀ a fuel, h.length - a ≤ k → a < h.length → 2 * (h.length - a) ≤ fuel →
      (reify h fuel (Value.mapRef a)).isSome = true := by
  induction k with
  | zero =>
    intro a fuel hk ha _
    omega
  | succ k ih =>
    intro a fuel hk ha hf
    obtain ⟨f, rfl⟩ : ∃ f, fuel = f + 2 := ⟨fuel - 2, by omega⟩
    have hentries : ∀ kv ∈ h.deref a,
        ((fun kv : Str × Value => match reify h (f + 1) kv.2 with
          | none => none
          | some t => some (kv.1, t)) kv).isSome = true := by
      intro kv hkv
      have hok := hwf a kv hkv
      have hval : (reify h (f + 1) kv.2).isSome = true := by
        cases hv : kv.2 with
        | str s => rw [reify_str]; rfl
        | mapRef b =>
          rw [hv] at hok
          exact ih b (f + 1) (by have := hok.1; omega) hok.2 (by have := hok.1; omega)
        | arr xs =>
          rw [hv] at hok
          have helems : (allSome (xs.map fun v => reify h f v)).isSome = true := by
            apply allSome_isSome
            intro x hx
            have hx1 := hok x hx
            cases x with
            | str s => rw [reify_str]; rfl
            | mapRef b => exact ih b f (by have := hx1.1; omega) hx1.2 (by have := hx1.1; omega)
            | arr ys => exact absurd hx1 (by simp [elemOk])
          cases hall : allSome (xs.map fun v => reify h f v) with
          | none => rw [hall] at helems; cases helems
          | some ts => simp [reify, hall]
      cases hr : reify h (f + 1) kv.2 with
      | none => rw [hr] at hval; cases hval
      | some t => simp only [hr, Option.isSome_some]
    have hmaps := allSome_isSome _ (h.deref a) hentries
    cases hall : allSome ((h.deref a).map fun kv : Str × Value =>
        match reify h (f + 1) kv.2 with
        | none => none
        | some t => some (kv.1, t)) with
    | none => rw [hall] at hmaps; cases hmaps
    | some kvs => simp [reify, hall]

/-- The result map of a run that does not panic can be read: `LinesToMap` never
returns a nil map. -/
theorem toTree_isSome (lines : List Str) (st : State)
    (h : runLines lines initState = some st) : st.heap.toTree.isSome = true := by
  obtain ⟨hwf, hpos, _⟩ := runLines_inv lines initState st h initState_inv
  exact reify_isSome st.heap hwf st.heap.length 0 (2 * st.heap.length) (by omega) hpos
    (by omega)

/-- A call of `LinesToMap` panics or returns a mapping and a nil error. -/
theorem LinesToMap_panics_or_returns (lines : List Str) :
    LinesToMap lines = Outcome.panicked ∨
      ∃ t, LinesToMap lines = Outcome.returned (some t) none := by
  unfold LinesToMap
  cases hrun : runLines lines initState with
  | none => exact Or.inl rfl
  | some st =>
    right
    have := toTree_isSome lines st hrun
    cases ht : st.heap.toTree with
    | none => rw [ht] at this; cases this
    | some t => exact ⟨t, by simp only [ht]⟩

/-! ## Cancellation and fragment errors -/

/-- The loop ends with the cancellation error at the first poll that sees the
signal, when no fragment before it carries an error. -/
theorem accumulate_cancelled (ctx : Nat → Option Str) (pre : List SSEvent) (ev : SSEvent)
    (post : List SSEvent) (e : Str) (i : Nat) (acc : Acc)
    (hpre : ∀ x ∈ pre, x.Err = none)
    (hquiet : ∀ j, j < pre.length → ctx (i + j) = none ∨ ctx (i + j) = some e)
    (hc : ctx (i + pre.length) = some e) :
    accumulate ctx i (pre ++ ev :: post) acc = Except.error e := by
  induction pre generalizing i acc with
  | nil =>
    simp only [List.length_nil, Nat.add_zero] at hc
    simp only [List.nil_append, accumulate, hc]
  | cons x r ih =>
    have hx : x.Err = none := hpre x (List.mem_cons_self x r)
    rcases hquiet 0 (Nat.succ_pos _) with h0 | h0
    · simp only [Nat.add_zero] at h0
      simp only [List.cons_append, accumulate, h0, hx]
      apply ih
      · exact fun y hy => hpre y (List.mem_cons_of_mem x hy)
      · intro j hj
        have := hquiet (j + 1) (Nat.succ_lt_succ hj)
        rwa [show i + (j + 1) = i + 1 + j by omega] at this
      · rwa [show i + (x :: r).length = i + 1 + r.length by simp; omega] at hc
    · simp only [Nat.add_zero] at h0
      simp only [List.cons_append, accumulate, h0]

set_option maxRecDepth 20000 in
/-- C11, the failing input: the stream of the test gives `name = "test-tea"`, not
`"test"`: the line `tea` that ends with the escape is merged onto the committed
line `name: test-`. -/
theorem ProcessAIResponseEvents_test_stream :
    ProcessAIResponseEvents background
        (charFragments "name: test-\ntea".toList ++ [{ Data := "\\n".toList, Err := none }] ++
          charFragments "version: 1.0".toList ++ [{ Data := "\\n".toList, Err := none }]) =
      Outcome.returned (some (Tree.mapping [("name".toList, Tree.scalar "test-tea".toList),
        ("version".toList, Tree.scalar "1.0".toList)])) none := by
  rfl

/-- C12: when the cancellation signal is set at the poll for some fragment, and no
fragment before it carries an error, the call returns the cancellation error and
a nil map, whatever the fragments hold. -/
theorem ProcessAIResponseEvents_cancelled (ctx : Nat → Option Str) (pre : List SSEvent)
    (ev : SSEvent) (post : List SSEvent) (e : Str)
    (hpre : ∀ x ∈ pre, x.Err = none)
    (hquiet : ∀ j, j < pre.length → ctx j = none ∨ ctx j = some e)
    (hc : ctx pre.length = some e) :
    ProcessAIResponseEvents ctx (pre ++ ev :: post) = Outcome.returned none (some e) := by
  have h := accumulate_cancelled ctx pre ev post e 0 { result := [], line := [] } hpre
    (by simpa using hquiet) (by simpa using hc)
  simp only [ProcessAIResponseEvents, h]

/-- C12 at the input of the test: the context is cancelled before the first
fragment `name: test`. -/
theorem ProcessAIResponseEvents_cancelled_witness :
    ProcessAIResponseEvents (fun _ => some "context canceled".toList)
        [{ Data := "name: test\n".toList, Err := none }] =
      Outcome.returned none (some "context canceled".toList) :=
  ProcessAIResponseEvents_cancelled (fun _ => some "context canceled".toList) []
    { Data := "name: test\n".toList, Err := none } [] "context canceled".toList
    (fun _ h => nomatch h) (fun _ h => absurd h (Nat.not_lt_zero _)) rfl

/-- A fragment that starts with the letter `k` is no JSON payload: the method
returns the error of the decoder for it, whatever the later fragments carry. -/
theorem ep_unmarshal_error_first
    (rest : Str → Except Str (List (Str × Json))) (post : List SSEvent) :
    EventProcessor.ProcessAIResponseEvents (jsonUnmarshal rest) background
        ({ Data := "key: value\n".toList, Err := none } :: post) =
      Outcome.returned none (some ("unmarshal error: ".toList ++ ("invalid character ".toList ++
        [Char.ofNat 39, 'k', Char.ofNat 39] ++ " looking for beginning of value".toList))) :=
  rfl

theorem hasPrefix_of_append (s p q : Str) (h : HasPrefix s (p ++ q) = true) :
    HasPrefix s p = true := by
  simp only [HasPrefix, List.isPrefixOf_iff_prefix] at h ⊢
  exact (List.prefix_append p q).trans h

theorem hasSuffix_of_cons (s p : Str) (c : Char) (h : HasSuffix s (c :: p) = true) :
    HasSuffix s p = true := by
  simp only [HasSuffix, List.reverse_cons, List.isPrefixOf_iff_prefix] at h ⊢
  exact (List.prefix_append p.reverse [c]).trans h

theorem TrimPrefix_of_false (s p : Str) (h : HasPrefix s p = false) : TrimPrefix s p = s := by
  simp [TrimPrefix, h]

theorem TrimSuffix_of_false (s p : Str) (h : HasSuffix s p = false) : TrimSuffix s p = s := by
  simp [TrimSuffix, h]

theorem hasPrefix_append_self (p x : Str) : HasPrefix (p ++ x) p = true := by
  simp [HasPrefix]

theorem hasSuffix_append_self (x p : Str) : HasSuffix (x ++ p) p = true := by
  simp [HasSuffix]

theorem TrimPrefix_append_self (p x : Str) : TrimPrefix (p ++ x) p = x := by
  simp [TrimPrefix, hasPrefix_append_self]

theorem TrimSuffix_append_self (x p : Str) : TrimSuffix (x ++ p) p = x := by
  simp [TrimSuffix, hasSuffix_append_self]

theorem not_hasPrefix_open_newline (s : Str) (h : HasPrefix s fenceOpen = false) :
    HasPrefix s (fenceOpen ++ [newline]) = false := by
  cases h1 : HasPrefix s (fenceOpen ++ [newline]) with
  | false => rfl
  | true => rw [hasPrefix_of_append s _ _ h1] at h; cases h

theorem not_hasSuffix_newline_close (s : Str) (h : HasSuffix s fenceClose = false) :
    HasSuffix s (newline :: fenceClose) = false := by
  cases h1 : HasSuffix s (newline :: fenceClose) with
  | false => rfl
  | true => rw [hasSuffix_of_cons s _ _ h1] at h; cases h

/-- A string without a fence at either end is left as it is. -/
theorem CleanYAMLMarkers_fixed (s : Str) (h1 : HasPrefix s fenceOpen = false)
    (h2 : HasSuffix s fenceClose = false) : CleanYAMLMarkers s = s := by
  simp only [CleanYAMLMarkers]
  rw [TrimPrefix_of_false s _ h1, TrimPrefix_of_false s _ (not_hasPrefix_open_newline s h1),
    TrimSuffix_of_false s _ h2, TrimSuffix_of_false s _ (not_hasSuffix_newline_close s h2)]

theorem TrimPrefix_length_le (s p : Str) : (TrimPrefix s p).length ≤ s.length := by
  unfold TrimPrefix
  split
  · simp
  · exact Nat.le_refl _

theorem TrimSuffix_length_le (s p : Str) : (TrimSuffix s p).length ≤ s.length := by
  unfold TrimSuffix
  split
  · simp
  · exact Nat.le_refl _

theorem TrimPrefix_length_lt (s p : Str) (h : HasPrefix s p = true) (hp : p ≠ []) :
    (TrimPrefix s p).length < s.length := by
  have hpos : 0 < p.length := List.length_pos.2 hp
  have hle : p.length ≤ s.length := by
    simp only [HasPrefix, List.isPrefixOf_iff_prefix] at h
    exact h.length_le
  simp only [TrimPrefix, h, if_true, List.length_drop]
  omega

theorem TrimSuffix_length_lt (s p : Str) (h : HasSuffix s p = true) (hp : p ≠ []) :
    (TrimSuffix s p).length < s.length := by
  have hpos : 0 < p.length := List.length_pos.2 hp
  have hle : p.length ≤ s.length := by
    simp only [HasSuffix, List.isPrefixOf_iff_prefix] at h
    have := h.length_le
    simpa using this
  simp only [TrimSuffix, h, if_true, List.length_take]
  omega

/-- A string with a fence at one end gets shorter. -/
theorem CleanYAMLMarkers_length_lt (s : Str)
    (h : HasPrefix s fenceOpen = true ∨ HasSuffix s fenceClose = true) :
    (CleanYAMLMarkers s).length < s.length := by
  simp only [CleanYAMLMarkers]
  by_cases h1 : HasPrefix s fenceOpen = true
  · have a1 := TrimPrefix_length_lt s fenceOpen h1 (by decide)
    have a2 := TrimPrefix_length_le (TrimPrefix s fenceOpen) (fenceOpen ++ [newline])
    have a3 := TrimSuffix_length_le
      (TrimPrefix (TrimPrefix s fenceOpen) (fenceOpen ++ [newline])) fenceClose
    have a4 := TrimSuffix_length_le (TrimSuffix
      (TrimPrefix (TrimPrefix s fenceOpen) (fenceOpen ++ [newline])) fenceClose)
      (newline :: fenceClose)
    omega
  · have h1f : HasPrefix s fenceOpen = false := by simpa using h1
    have h2 : HasSuffix s fenceClose = true := by
      rcases h with h | h
      · exact absurd h h1
      · exact h
    rw [TrimPrefix_of_false s _ h1f, TrimPrefix_of_false s _ (not_hasPrefix_open_newline s h1f)]
    have a3 := TrimSuffix_length_lt s fenceClose h2 (by decide)
    have a4 := TrimSuffix_length_le (TrimSuffix s fenceClose) (newline :: fenceClose)
    omega

/-- C14 as stated fails: with two opening fences one call removes the first and a
second call removes the other. -/
theorem CleanYAMLMarkers_not_idempotent :
    CleanYAMLMarkers (CleanYAMLMarkers "```yaml```yaml".toList) ≠
      CleanYAMLMarkers "```yaml```yaml".toList := by
  rw [show CleanYAMLMarkers "```yaml```yaml".toList = "```yaml".toList from rfl,
    show CleanYAMLMarkers "```yaml".toList = [] from rfl]
  decide

/-- C14, amended: a second call changes nothing exactly when the first call has
left no fence at either end. -/
theorem CleanYAMLMarkers_idempotent_iff (s : Str) :
    CleanYAMLMarkers (CleanYAMLMarkers s) = CleanYAMLMarkers s ↔
      (HasPrefix (CleanYAMLMarkers s) fenceOpen = false ∧
        HasSuffix (CleanYAMLMarkers s) fenceClose = false) := by
  constructor
  · intro h
    have hlen : ¬ (CleanYAMLMarkers (CleanYAMLMarkers s)).length < (CleanYAMLMarkers s).length := by
      rw [h]
      exact Nat.lt_irrefl _
    constructor
    · cases h1 : HasPrefix (CleanYAMLMarkers s) fenceOpen with
      | false => rfl
      | true => exact absurd (CleanYAMLMarkers_length_lt _ (Or.inl h1)) hlen
    · cases h2 : HasSuffix (CleanYAMLMarkers s) fenceClose with
      | false => rfl
      | true => exact absurd (CleanYAMLMarkers_length_lt _ (Or.inr h2)) hlen
  · rintro ⟨h1, h2⟩
    exact CleanYAMLMarkers_fixed _ h1 h2

/-- C14, amended, at the input of the test: one call removes both fences, so a
second call changes nothing. -/
theorem CleanYAMLMarkers_idempotent_iff_witness :
    CleanYAMLMarkers (CleanYAMLMarkers "```yaml\nname: test\n```".toList) =
      CleanYAMLMarkers "```yaml\nname: test\n```".toList :=
  (CleanYAMLMarkers_idempotent_iff "```yaml\nname: test\n```".toList).2 ⟨rfl, rfl⟩

/-- C15, the failing input: the line feeds next to the fences stay, because the
fence without line feed is trimmed first and the longer markers no longer match. -/
theorem CleanYAMLMarkers_keeps_line_feeds :
    CleanYAMLMarkers "```yaml\nname: test\n```".toList = "\nname: test\n".toList ∧
      CleanYAMLMarkers "```yaml\n```".toList = "\n".toList :=
  ⟨rfl, rfl⟩


theorem fenceOpen_eq : fenceOpen =
    [Char.ofNat 96, Char.ofNat 96, Char.ofNat 96, 'y', 'a', 'm', 'l'] := rfl

theorem fenceClose_eq : fenceClose = [Char.ofNat 96, Char.ofNat 96, Char.ofNat 96] := rfl

theorem not_hasPrefix_open_newline_close (c : Str) (h : HasPrefix c fenceOpen = false) :
    HasPrefix (c ++ fenceClose) (fenceOpen ++ [newline]) = false := by
  cases h1 : HasPrefix (c ++ fenceClose) (fenceOpen ++ [newline]) with
  | false => rfl
  | true =>
    exfalso
    have h2 := hasPrefix_of_append _ _ _ h1
    by_cases hlen : fenceOpen.length ≤ c.length
    · have : HasPrefix c fenceOpen = true := by
        simp only [HasPrefix, List.isPrefixOf_iff_prefix] at h2 ⊢
        exact List.prefix_of_prefix_length_le h2 (List.prefix_append c fenceClose) hlen
      rw [this] at h
      cases h
    · rw [fenceOpen_eq] at hlen
      simp only [List.length_cons, List.length_nil] at hlen
      simp only [HasPrefix, List.isPrefixOf_iff_prefix] at h1
      obtain ⟨t, ht⟩ := h1
      have hl := congrArg List.length ht
      rw [fenceOpen_eq, fenceClose_eq] at ht hl
      simp only [List.length_append, List.length_cons, List.length_nil] at hl
      rcases c with _ | ⟨c0, _ | ⟨c1, _ | ⟨c2, _ | ⟨c3, _ | ⟨c4, _ | ⟨c5, _ | ⟨c6, r⟩⟩⟩⟩⟩⟩⟩ <;>
        simp only [List.length_cons, List.length_nil] at hl hlen <;> try omega
      · simp only [List.cons_append, List.nil_append, List.cons.injEq] at ht
        exact absurd ht.2.2.2.2.2.1 (by decide)
      · simp only [List.cons_append, List.nil_append, List.cons.injEq] at ht
        exact absurd ht.2.2.2.2.2.2.1 (by decide)

/-- C16: a string `s` that neither starts with the opening fence nor ends with the
closing fence is returned as it is, white space included; and such a content
between one opening and one closing fence is returned exactly. -/
theorem CleanYAMLMarkers_other_content (s : Str) (h1 : HasPrefix s fenceOpen = false)
    (h2 : HasSuffix s fenceClose = false) :
    CleanYAMLMarkers s = s ∧ CleanYAMLMarkers (fenceOpen ++ s ++ fenceClose) = s := by
  refine ⟨CleanYAMLMarkers_fixed s h1 h2, ?_⟩
  simp only [CleanYAMLMarkers]
  rw [List.append_assoc, TrimPrefix_append_self,
    TrimPrefix_of_false _ _ (not_hasPrefix_open_newline_close s h1), TrimSuffix_append_self,
    TrimSuffix_of_false s _ (not_hasSuffix_newline_close s h2)]

/-- C16 at the inputs of the test: `name: test` without fences and between the
two fences, and a text with leading, inner and trailing white space. -/
theorem CleanYAMLMarkers_other_content_witness :
    (CleanYAMLMarkers "name: test".toList = "name: test".toList ∧
      CleanYAMLMarkers "```yamlname: test```".toList = "name: test".toList) ∧
    (CleanYAMLMarkers "  a:  b \n".toList = "  a:  b \n".toList ∧
      CleanYAMLMarkers "```yaml  a:  b \n```".toList = "  a:  b \n".toList) :=
  ⟨CleanYAMLMarkers_other_content "name: test".toList rfl rfl,
   CleanYAMLMarkers_other_content "  a:  b \n".toList rfl rfl⟩


/-! ## The frame stack keeps its shape -/

theorem initState_stackInv : StackInv initState.stack := by
  refine ⟨?_, rfl⟩
  simp [initState]

/-- Popping for a line of depth `d` leaves a non-empty stack of the same shape
whose frames are all shallower than `d`. -/
theorem popFrames_inv (d : Nat) (stack : List node) (h : StackInv stack) :
    ∃ top below, popFrames d stack = top :: below ∧ StackInv (top :: below) ∧
      ∀ f ∈ top :: below, f.indent < (d : Int) := by
  induction stack with
  | nil => exact absurd h.2 (by simp)
  | cons f r ih =>
    by_cases hf : (d : Int) ≤ f.indent
    · have hr : r ≠ [] := by
        intro hr
        subst hr
        have hroot : f = rootFrame := by simpa using h.2
        rw [hroot] at hf
        simp only [rootFrame] at hf
        omega
      have hinv : StackInv r := by
        refine ⟨(List.pairwise_cons.1 h.1).2, ?_⟩
        have := h.2
        cases r with
        | nil => exact absurd rfl hr
        | cons g t => simpa [List.getLast?_cons_cons] using this
      rw [popFrames_of_le d f r hf]
      exact ih hinv
    · have hlt : f.indent < (d : Int) := Int.not_le.1 hf
      refine ⟨f, r, popFrames_of_lt d f r hlt, h, ?_⟩
      intro g hg
      rcases List.mem_cons.1 hg with hg1 | hg1
      · rw [hg1]; exact hlt
      · exact Int.lt_trans ((List.pairwise_cons.1 h.1).1 g hg1) hlt

theorem stackInv_push (d : Nat) (v : Value) (key : Str) (top : node) (below : List node)
    (h : StackInv (top :: below)) (hlt : ∀ f ∈ top :: below, f.indent < (d : Int)) :
    StackInv ({ value := v, key := key, indent := d } :: top :: below) := by
  refine ⟨List.pairwise_cons.2 ⟨hlt, h.1⟩, ?_⟩
  rw [List.getLast?_cons_cons]
  exact h.2

/-- One loop iteration keeps the shape of the stack. -/
theorem processTrimmed_stackInv (indent : Nat) (trimmedLine : Str) (next : Option Str)
    (st st1 : State) (h : processTrimmed indent trimmedLine next st = some st1)
    (hinv : StackInv st.stack) : StackInv st1.stack := by
  obtain ⟨parent, below, hpop, hs, hlt⟩ := popFrames_inv indent st.stack hinv
  unfold processTrimmed at h
  rw [hpop] at h
  simp only at h
  by_cases hitem : HasPrefix trimmedLine ['-', ' '] = true ∧ 1 < (parent :: below).length
  · rw [if_pos hitem] at h
    cases below with
    | nil => cases h
    | cons grand rest =>
      simp only at h
      cases hg : grand.value with
      | str s => rw [hg] at h; cases h; exact hs
      | arr xs => rw [hg] at h; cases h; exact hs
      | mapRef a =>
        rw [hg] at h
        simp only at h
        by_cases hre : reItem (TrimPrefix trimmedLine ['-', ' ']) = true
        · rw [if_pos hre] at h
          cases hsp : SplitN2 (TrimPrefix trimmedLine ['-', ' ']) with
          | none => rw [hsp] at h; cases h
          | some p =>
            obtain ⟨p0, p1⟩ := p
            rw [hsp] at h
            cases h
            by_cases hnd : nextDeeper indent next = true
            · simp only [hnd, if_true]
              exact stackInv_push indent _ _ parent (grand :: rest) hs hlt
            · simp only [hnd, if_false]
              exact hs
        · rw [if_neg hre] at h
          cases h
          exact hs
  · rw [if_neg hitem] at h
    cases hsp : SplitN2 trimmedLine with
    | none => rw [hsp] at h; cases h; exact hs
    | some p =>
      obtain ⟨p0, p1⟩ := p
      rw [hsp] at h
      simp only at h
      cases hp : parent.value with
      | str s => rw [hp] at h; cases h
      | arr xs => rw [hp] at h; cases h
      | mapRef a =>
        rw [hp] at h
        simp only at h
        by_cases hv : TrimSpace p1 = []
        · rw [if_pos hv] at h
          by_cases harr : isArrayNext indent next = true
          · rw [if_pos harr] at h
            cases h
            exact stackInv_push indent _ _ parent below hs hlt
          · rw [if_neg harr] at h
            cases h
            exact stackInv_push indent _ _ parent below hs hlt
        · rw [if_neg hv] at h
          cases h
          exact hs

theorem processLine_stackInv (line : Str) (next : Option Str) (st st1 : State)
    (h : processLine line next st = some st1) (hinv : StackInv st.stack) :
    StackInv st1.stack := by
  unfold processLine at h
  by_cases hs : TrimSpace line = [] ∨ HasPrefix (TrimSpace line) ['#'] = true
  · rw [if_pos hs] at h
    cases h
    exact hinv
  · rw [if_neg hs] at h
    exact processTrimmed_stackInv _ _ _ _ _ h hinv

theorem runLines_stackInv (lines : List Str) (st st1 : State)
    (h : runLines lines st = some st1) (hinv : StackInv st.stack) : StackInv st1.stack := by
  induction lines generalizing st with
  | nil => cases h; exact hinv
  | cons l r ih =>
    simp only [runLines] at h
    cases hp : processLine l r.head? st with
    | none => rw [hp] at h; cases h
    | some st2 =>
      rw [hp] at h
      exact ih st2 h (processLine_stackInv l _ st st2 hp hinv)

/-- For an unindented line only the root frame is left after popping. -/
theorem popFrames_zero (stack : List node) (h : StackInv stack) :
    popFrames 0 stack = [rootFrame] := by
  obtain ⟨top, below, hpop, hs, hlt⟩ := popFrames_inv 0 stack h
  rw [hpop]
  cases below with
  | nil =>
    have : top = rootFrame := by simpa using hs.2
    rw [this]
  | cons g t =>
    exfalso
    have hlast : rootFrame ∈ g :: t := by
      have := hs.2
      rw [List.getLast?_cons_cons] at this
      exact List.mem_of_getLast?_eq_some this
    have h1 : rootFrame.indent < top.indent := (List.pairwise_cons.1 hs.1).1 _ hlast
    have h2 : top.indent < ((0 : Nat) : Int) := hlt top (List.mem_cons_self _ _)
    simp only [rootFrame] at h1
    omega

/-! ## A last line without indentation -/

theorem isArrayNext_flat (d : Nat) (x : Str) (hx : CalculateIndent x = 0) :
    isArrayNext d (some x) = false := by
  simp [isArrayNext, hx]

theorem nextDeeper_flat (d : Nat) (x : Str) (hx : CalculateIndent x = 0) :
    nextDeeper d (some x) = false := by
  simp [nextDeeper, hx]

/-- An unindented next line is to the lookahead what the end of the input is. -/
theorem processLine_next_flat (line x : Str) (st : State) (hx : CalculateIndent x = 0) :
    processLine line (some x) st = processLine line none st := by
  have h1 : ∀ d, isArrayNext d (some x) = isArrayNext d none := fun d =>
    isArrayNext_flat d x hx
  have h2 : ∀ d, nextDeeper d (some x) = nextDeeper d none := fun d => nextDeeper_flat d x hx
  simp only [processLine, processTrimmed, h1, h2]

/-- Appending an unindented line: the lines before it are processed as without
it, then the line itself. -/
theorem runLines_append_last (lines : List Str) (x : Str) (st : State)
    (hx : CalculateIndent x = 0) :
    runLines (lines ++ [x]) st =
      (match runLines lines st with
       | none => none
       | some s => processLine x none s) := by
  induction lines generalizing st with
  | nil =>
    simp only [List.nil_append, runLines, List.head?_nil]
    cases processLine x none st <;> rfl
  | cons l r ih =>
    have hnext : processLine l (r ++ [x]).head? st = processLine l r.head? st := by
      cases r with
      | nil => exact processLine_next_flat l x st hx
      | cons m t => rfl
    simp only [List.cons_append, runLines, List.append_eq, hnext]
    cases processLine l r.head? st with
    | none => rfl
    | some st1 => exact ih st1

/-- An unindented line without a colon leaves the maps as they are. -/
theorem processLine_flat_no_colon (x : Str) (st : State) (hinv : StackInv st.stack)
    (hx : CalculateIndent x = 0) (hc : ':' ∉ x) :
    ∃ st1, processLine x none st = some st1 ∧ st1.heap = st.heap := by
  by_cases hs : isSkipped x = true
  · exact ⟨st, processLine_skipped x none st hs, rfl⟩
  · have hsplit : SplitN2 (TrimSpace x) = none :=
      SplitN2_eq_none _ fun c hcm hcc => hc (hcc ▸ mem_of_mem_TrimSpace c x hcm)
    simp only [isSkipped, Bool.or_eq_true, decide_eq_true_eq] at hs
    refine ⟨{ heap := st.heap, stack := [rootFrame] }, ?_, rfl⟩
    simp only [processLine, hs, if_false, processTrimmed, hx, popFrames_zero st.stack hinv,
      List.length_singleton, Nat.lt_irrefl, and_false, hsplit]

theorem LinesToMap_append_flat_no_colon (lines : List Str) (x : Str)
    (hx : CalculateIndent x = 0) (hc : ':' ∉ x) :
    LinesToMap (lines ++ [x]) = LinesToMap lines := by
  simp only [LinesToMap, runLines_append_last lines x initState hx]
  cases hrun : runLines lines initState with
  | none => rfl
  | some s =>
    obtain ⟨s1, h1, h2⟩ := processLine_flat_no_colon x s
      (runLines_stackInv lines initState s hrun initState_stackInv) hx hc
    simp only [h1, h2]

/-! ## Fence lines, list items and key lines at the end of the input -/

/-- C17: a line list between the fence lines gives the same outcome as the list
without them; both fence lines are lines without a colon. -/
theorem YamlLinesToMap_fenced (lines : List Str) :
    YamlLinesToMap ([fenceOpen] ++ lines ++ [fenceClose]) = YamlLinesToMap lines := by
  have hopen : LinesToMap (fenceOpen :: (lines ++ [fenceClose])) =
      LinesToMap (lines ++ [fenceClose]) := by
    simp only [LinesToMap, runLines,
      processLine_no_colon fenceOpen (lines ++ [fenceClose]).head? (by decide)]
  rw [show [fenceOpen] ++ lines ++ [fenceClose] = fenceOpen :: (lines ++ [fenceClose]) from rfl]
  simp only [YamlLinesToMap]
  rw [hopen]
  exact LinesToMap_append_flat_no_colon lines fenceClose rfl (by decide)

/-- C17 at the input of the test. -/
theorem YamlLinesToMap_fenced_witness :
    YamlLinesToMap ["```yaml".toList, "name: test".toList, "version: 1.0".toList,
        "settings:".toList, "  debug: true".toList, "  timeout: 30".toList, "```".toList] =
      Outcome.returned (some (Tree.mapping [("name".toList, Tree.scalar "test".toList),
        ("version".toList, Tree.scalar "1.0".toList),
        ("settings".toList, Tree.mapping [("debug".toList, Tree.scalar "true".toList),
          ("timeout".toList, Tree.scalar "30".toList)])])) none :=
  (YamlLinesToMap_fenced ["name: test".toList, "version: 1.0".toList,
    "settings:".toList, "  debug: true".toList, "  timeout: 30".toList]).trans rfl

/-- C18, the failing input: the text of a list item keeps the white space that
follows the marker `- `. -/
theorem LinesToMap_item_not_trimmed :
    LinesToMap ["k:".toList, "  -  x".toList] =
      Outcome.returned (some (Tree.mapping [("k".toList,
        Tree.sequence [Tree.scalar " x".toList])])) none := by
  rfl

/-- C19, the failing inputs: the list item `- y` below the key `m`, whose value is
a mapping, is not skipped: the mapping stored under `m` is replaced by the
sequence of the item, where the lines without the item give the mapping.  The
unindented item `- a: b` is not skipped either: it is stored as a key. -/
theorem LinesToMap_item_replaces_mapping :
    LinesToMap ["m:".toList, "  x: 1".toList, "  - y".toList] =
      Outcome.returned (some (Tree.mapping [("m".toList,
        Tree.sequence [Tree.scalar "y".toList])])) none ∧
    LinesToMap ["m:".toList, "  x: 1".toList] =
      Outcome.returned (some (Tree.mapping [("m".toList,
        Tree.mapping [("x".toList, Tree.scalar "1".toList)])])) none ∧
    LinesToMap ["- a: b".toList] =
      Outcome.returned (some (Tree.mapping [("- a".toList, Tree.scalar "b".toList)])) none :=
  ⟨rfl, rfl, rfl⟩

/-! ## Looking a key up in the result -/

theorem reify_mapRef_eq (h : Heap) (fuel a : Nat) (t : Tree)
    (ht : reify h (fuel + 1) (Value.mapRef a) = some t) :
    ∃ kvs, t = Tree.mapping kvs ∧
      allSome ((h.deref a).map fun kv : Str × Value =>
        match reify h fuel kv.2 with
        | none => none
        | some t => some (kv.1, t)) = some kvs := by
  simp only [reify] at ht
  split at ht
  · cases ht
  · rename_i kvs heq
    cases ht
    exact ⟨kvs, rfl, heq⟩

/-- What the mapping read from a map holds under a key is what is read from the
value the map holds under that key. -/
theorem allSome_lookup (h : Heap) (fuel : Nat) (m : GoMap) (kvs : List (Str × Tree))
    (key : Str) (v : Value)
    (hall : allSome (m.map fun kv : Str × Value =>
        match reify h fuel kv.2 with
        | none => none
        | some t => some (kv.1, t)) = some kvs)
    (hget : assocGet m key = some v) :
    ∃ t, reify h fuel v = some t ∧ assocGet kvs key = some t := by
  induction m generalizing kvs with
  | nil => cases hget
  | cons p r ih =>
    obtain ⟨k1, w⟩ := p
    simp only [List.map_cons] at hall
    cases hw : reify h fuel w with
    | none => simp only [hw, allSome] at hall; cases hall
    | some t1 =>
      cases hr : allSome (r.map fun kv : Str × Value =>
          match reify h fuel kv.2 with
          | none => none
          | some t => some (kv.1, t)) with
      | none => simp only [hw, hr, allSome] at hall; cases hall
      | some kvs1 =>
        simp only [hw, hr, allSome, Option.some.injEq] at hall
        subst hall
        by_cases h1 : k1 = key
        · simp only [assocGet, h1, if_true, Option.some.injEq] at hget ⊢
          subst hget
          exact ⟨t1, hw, rfl⟩
        · simp only [assocGet, h1, if_false] at hget ⊢
          exact ih kvs1 hr hget

theorem CalculateIndent_key (k : Str) (hk : k ≠ []) (hkp : ∀ c ∈ k, plain c) :
    CalculateIndent (k ++ [':']) = 0 :=
  (padded_line 0 (k ++ [':']) (tidy_key k hk hkp)).2

/-- The key line `k:` at the end of the input, in a state reached by the loop:
a new empty map is stored under `k` in the root map. -/
theorem processLine_last_key (k : Str) (st : State) (hk : k ≠ []) (hkp : ∀ c ∈ k, plain c)
    (hinv : StackInv st.stack) :
    processLine (k ++ [':']) none st =
      some { heap := (st.heap ++ [[]]).store 0 k (Value.mapRef st.heap.length),
             stack := [{ value := Value.mapRef st.heap.length, key := k, indent := 0 },
                       rootFrame] } := by
  have h := processLine_padded 0 (k ++ [':']) none st (tidy_key k hk hkp)
  rw [show List.replicate (2 * 0) ' ' ++ (k ++ [':']) = k ++ [':'] from rfl] at h
  rw [h, processTrimmed_key 0 k none st rootFrame [] 0 hk hkp (popFrames_zero st.stack hinv) rfl]
  rfl

/-- C20: a key line `k:` appended to lines on which `LinesToMap` does not panic
gives a mapping whose value under `k` is the empty mapping. -/
theorem LinesToMap_trailing_key (lines : List Str) (k : Str) (hk : isKey k = true)
    (hok : LinesToMap lines ≠ Outcome.panicked) :
    ∃ m, LinesToMap (lines ++ [k ++ [':']]) = Outcome.returned (some (Tree.mapping m)) none ∧
      Tree.lookup m k = some (Tree.mapping []) := by
  obtain ⟨hk1, hkp⟩ := plain_of_isKey hk
  cases hrun : runLines lines initState with
  | none => exact absurd (by simp only [LinesToMap, hrun]) hok
  | some s =>
    have hstack := runLines_stackInv lines initState s hrun initState_stackInv
    obtain ⟨_, hpos, _⟩ := runLines_inv lines initState s hrun initState_inv
    have hlast : runLines (lines ++ [k ++ [':']]) initState =
        some { heap := (s.heap ++ [[]]).store 0 k (Value.mapRef s.heap.length),
               stack := [{ value := Value.mapRef s.heap.length, key := k, indent := 0 },
                         rootFrame] } := by
      rw [runLines_append_last lines _ initState (CalculateIndent_key k hk1 hkp), hrun]
      exact processLine_last_key k s hk1 hkp hstack
    have hsome := toTree_isSome _ _ hlast
    obtain ⟨m0, rest, hheap⟩ : ∃ m0 rest, s.heap = m0 :: rest := by
      cases hs : s.heap with
      | nil => rw [hs] at hpos; cases hpos
      | cons m0 rest => exact ⟨m0, rest, rfl⟩
    have hfinal : Heap.store (s.heap ++ [[]]) 0 k (Value.mapRef s.heap.length) =
        assocSet m0 k (Value.mapRef (rest.length + 1)) :: (rest ++ [[]]) := by
      rw [hheap]
      rfl
    simp only [hfinal] at hlast hsome
    cases ht : Heap.toTree (assocSet m0 k (Value.mapRef (rest.length + 1)) :: (rest ++ [[]])) with
    | none => rw [ht] at hsome; cases hsome
    | some t =>
      have hfuel : 2 * (assocSet m0 k (Value.mapRef (rest.length + 1)) :: (rest ++ [[]])).length =
          (2 * rest.length + 2 + 1) + 1 := by
        simp only [List.length_cons, List.length_append, List.length_nil]
        omega
      have ht1 := ht
      simp only [Heap.toTree] at ht1
      rw [hfuel] at ht1
      obtain ⟨kvs, hkvs, hall⟩ := reify_mapRef_eq _ _ 0 t ht1
      have hget : assocGet (Heap.deref
          (assocSet m0 k (Value.mapRef (rest.length + 1)) :: (rest ++ [[]])) 0) k =
          some (Value.mapRef (rest.length + 1)) := by
        show assocGet (assocSet m0 k (Value.mapRef (rest.length + 1))) k = _
        rw [assocGet_set]
        simp
      obtain ⟨t1, ht1eq, hlook⟩ := allSome_lookup _ _ _ kvs k _ hall hget
      have hempty : reify (assocSet m0 k (Value.mapRef (rest.length + 1)) :: (rest ++ [[]]))
          (2 * rest.length + 2 + 1) (Value.mapRef (rest.length + 1)) =
          some (Tree.mapping []) := by
        have hd : Heap.deref (assocSet m0 k (Value.mapRef (rest.length + 1)) :: (rest ++ [[]]))
            (rest.length + 1) = ([] : List (Str × Str)).map fun p => (p.1, Value.str p.2) :=
          deref_at rest [] []
        exact reify_strMap _ (2 * rest.length + 2) (rest.length + 1) [] hd
      rw [hempty] at ht1eq
      cases ht1eq
      refine ⟨kvs, ?_, hlook⟩
      simp only [LinesToMap, hlast, ht, hkvs]

/-- C20 at lines of the test: `null_value:` after a scalar and a list. -/
theorem LinesToMap_trailing_key_witness :
    ∃ m, LinesToMap ["string_value: hello".toList, "array_value:".toList, "  - item1".toList,
        "null_value:".toList] = Outcome.returned (some (Tree.mapping m)) none ∧
      Tree.lookup m "null_value".toList = some (Tree.mapping []) :=
  LinesToMap_trailing_key ["string_value: hello".toList, "array_value:".toList,
    "  - item1".toList] "null_value".toList rfl (fun h => Outcome.noConfusion h)

/-! ## The two utilities `CalculateIndent` and `ParseKeyValue` -/

theorem CountTab_eq_count (s : Str) : CountTab s = s.count (Char.ofNat 9) := by
  induction s with
  | nil => rfl
  | cons a r ih =>
    by_cases ha : a = Char.ofNat 9
    · subst ha
      simp only [CountTab, if_true, ih, List.count_cons_self]
    · simp only [CountTab, ha, if_false, ih]
      rw [List.count_cons_of_ne (Ne.symm ha)]

theorem CountDoubleSpace_spaces (r : Nat) (t : Str) (h : ∀ c, t.head? = some c → c ≠ ' ') :
    CountDoubleSpace (List.replicate r ' ' ++ t) = r / 2 + CountDoubleSpace t := by
  have hr : r = 2 * (r / 2) + r % 2 := (Nat.div_add_mod r 2).symm
  have hone : CountDoubleSpace (List.replicate (r % 2) ' ' ++ t) = CountDoubleSpace t := by
    rcases Nat.mod_two_eq_zero_or_one r with h0 | h1
    · rw [h0]; rfl
    · rw [h1]
      cases t with
      | nil => rfl
      | cons c u => exact CountDoubleSpace_space_ne c u (h c rfl)
  have hsplit : List.replicate r ' ' ++ t =
      List.replicate (2 * (r / 2)) ' ' ++ (List.replicate (r % 2) ' ' ++ t) := by
    rw [← List.append_assoc, ← List.replicate_add, ← hr]
  rw [hsplit, CountDoubleSpace_pad, hone, Nat.add_comm]

theorem spacePairs_eq (s : Str) (r : Nat) :
    spacePairs r s = CountDoubleSpace (List.replicate r ' ' ++ s) := by
  induction s generalizing r with
  | nil =>
    have := CountDoubleSpace_spaces r [] (by simp)
    simpa [spacePairs, CountDoubleSpace] using this.symm
  | cons c t ih =>
    by_cases hc : c = ' '
    · subst hc
      simp only [spacePairs, if_true]
      rw [ih (r + 1), List.replicate_succ', List.append_assoc]
      rfl
    · simp only [spacePairs, hc, if_false]
      rw [ih 0, CountDoubleSpace_spaces r (c :: t) (by simpa using hc),
        CountDoubleSpace_cons_ne c t hc]
      rfl

theorem CalculateIndent_eq_spec (line : Str) : CalculateIndent line = indentLevelSpec line := by
  unfold CalculateIndent indentLevelSpec
  simp only [CountTab_eq_count]
  by_cases h : Char.ofNat 9 ∈ line
  · have hpos : 0 < line.count (Char.ofNat 9) := List.count_pos_iff.2 h
    rw [if_pos h, if_neg (by omega)]
  · rw [if_neg h, if_pos (List.count_eq_zero.2 h), spacePairs_eq]
    rfl

/-- C21: `CalculateIndent` gives the number of tabs of a line that holds a tab and
otherwise the number of non-overlapping occurrences of two spaces; the loop of
`LinesToMap` computes the indent of the current line and of the lookahead line by
the same function. The four lines of the test give 2, 1, 0 and 2. -/
theorem CalculateIndent_spec :
    (∀ line, CalculateIndent line = indentLevelSpec line) ∧
    (∀ line next st, processLine line next st =
      if TrimSpace line = [] ∨ HasPrefix (TrimSpace line) ['#'] = true then some st
      else processTrimmed (indentLevelSpec line) (TrimSpace line) next st) ∧
    (∀ d x, isArrayNext d (some x) =
      ((TrimSpace x != []) && HasPrefix (TrimSpace x) ['-', ' '] &&
        decide (indentLevelSpec x > d))) ∧
    (∀ d x, nextDeeper d (some x) = decide (indentLevelSpec x > d)) ∧
    CalculateIndent "\t\tname: test".toList = 2 ∧
    CalculateIndent "  name: test".toList = 1 ∧
    CalculateIndent "name: test".toList = 0 ∧
    CalculateIndent "\t  \tname: test".toList = 2 := by
  refine ⟨CalculateIndent_eq_spec, ?_, ?_, ?_, rfl, rfl, rfl, rfl⟩
  · intro line next st
    rw [← CalculateIndent_eq_spec]
    rfl
  · intro d x
    rw [← CalculateIndent_eq_spec]
    rfl
  · intro d x
    rw [← CalculateIndent_eq_spec]
    rfl

theorem SplitN2_eq_spec (s : Str) :
    SplitN2 s = if ':' ∈ s then
      some (s.takeWhile fun c => c != ':', (s.dropWhile fun c => c != ':').drop 1)
    else none := by
  induction s with
  | nil => rfl
  | cons a r ih =>
    by_cases ha : a = ':'
    · subst ha
      simp [SplitN2, List.takeWhile, List.dropWhile]
    · have hmem : (':' ∈ a :: r) ↔ ':' ∈ r := by
        simp [Ne.symm ha]
      simp only [SplitN2, ha, if_false, ih, hmem]
      have hb : (a != ':') = true := by simpa using ha
      by_cases hr : ':' ∈ r
      · simp only [hr, if_true, List.takeWhile, List.dropWhile, hb]
      · simp only [hr, if_false]

theorem ParseKeyValue_eq_spec (line : Str) : ParseKeyValue line = ParseKeyValueSpec line := by
  unfold ParseKeyValue ParseKeyValueSpec
  rw [SplitN2_eq_spec]
  by_cases h : ':' ∈ line
  · simp only [h, if_true]
  · simp only [h, if_false]

/-- C22: `ParseKeyValue` succeeds exactly when the line holds a colon; then the key
is the trimmed text before the first colon and the value the trimmed text after
it, and a failure gives two empty strings; the five lines of the test give the
results the test expects. -/
theorem ParseKeyValue_spec :
    (∀ line, ParseKeyValue line = ParseKeyValueSpec line) ∧
    (∀ line, (ParseKeyValue line).2.2 = true ↔ ':' ∈ line) ∧
    ParseKeyValue "name: test".toList = ("name".toList, "test".toList, true) ∧
    ParseKeyValue "version: 1.0".toList = ("version".toList, "1.0".toList, true) ∧
    ParseKeyValue "empty:".toList = ("empty".toList, [], true) ∧
    ParseKeyValue "invalid".toList = ([], [], false) ∧
    ParseKeyValue [] = ([], [], false) := by
  refine ⟨ParseKeyValue_eq_spec, ?_, rfl, rfl, rfl, rfl, rfl⟩
  intro line
  rw [ParseKeyValue_eq_spec]
  unfold ParseKeyValueSpec
  by_cases h : ':' ∈ line
  · simp only [h, if_true]
  · simp only [h, if_false]
    simp

/-! ## The two patterns of `src/utils.go` -/

theorem hasPrefix_cons_iff (r : Str) (c : Char) :
    HasPrefix r [c] = true ↔ ∃ rest, r = c :: rest := by
  simp only [HasPrefix, List.isPrefixOf_iff_prefix]
  constructor
  · rintro ⟨t, ht⟩
    exact ⟨t, ht.symm⟩
  · rintro ⟨t, rfl⟩
    exact ⟨t, rfl⟩

/-- The scan `KeyValuePattern` accepts exactly the strings the regexp
`^.*[a-zA-Z]+:.*` matches: a letter directly followed by a colon, with no line
feed before it. -/
theorem KeyValuePattern_iff (s : Str) :
    KeyValuePattern s = true ↔
      ∃ pre c rest, s = pre ++ c :: ':' :: rest ∧ isLetter c = true ∧ Char.ofNat 10 ∉ pre := by
  induction s with
  | nil =>
    constructor
    · intro h; cases h
    · rintro ⟨pre, c, rest, h, _⟩
      cases pre <;> cases h
  | cons a r ih =>
    constructor
    · intro h
      by_cases h1 : (isLetter a && HasPrefix r [':']) = true
      · simp only [Bool.and_eq_true] at h1
        obtain ⟨rest, hr⟩ := (hasPrefix_cons_iff r ':').1 h1.2
        exact ⟨[], a, rest, by rw [hr]; rfl, h1.1, by simp⟩
      · simp only [KeyValuePattern, h1, Bool.false_eq_true, if_false] at h
        by_cases h2 : isDot a = true
        · simp only [h2, if_true] at h
          obtain ⟨pre, c, rest, hs, hc, hp⟩ := ih.1 h
          refine ⟨a :: pre, c, rest, by rw [hs]; rfl, hc, ?_⟩
          simp only [List.mem_cons, not_or]
          refine ⟨fun hn => ?_, hp⟩
          rw [← hn] at h2
          exact absurd h2 (by decide)
        · simp only [h2, Bool.false_eq_true, if_false] at h
    · rintro ⟨pre, c, rest, hs, hc, hp⟩
      cases pre with
      | nil =>
        simp only [List.nil_append, List.cons.injEq] at hs
        obtain ⟨rfl, rfl⟩ := hs
        simp [KeyValuePattern, hc, HasPrefix, List.isPrefixOf]
      | cons p pre1 =>
        simp only [List.cons_append, List.cons.injEq] at hs
        obtain ⟨rfl, hr⟩ := hs
        have hrec : KeyValuePattern r = true :=
          ih.2 ⟨pre1, c, rest, hr, hc, fun hm => hp (List.mem_cons_of_mem _ hm)⟩
        have hdot : isDot a = true := by
          simp only [isDot, bne_iff_ne, ne_eq]
          intro ha
          exact hp (ha ▸ List.mem_cons_self _ _)
        by_cases h1 : (isLetter a && HasPrefix r [':']) = true
        · simp only [KeyValuePattern, h1, if_true]
        · simp only [KeyValuePattern, h1, Bool.false_eq_true, if_false, hdot, if_true, hrec]

theorem KeyValuePattern_append (s t : Str) (h : KeyValuePattern s = true) :
    KeyValuePattern (s ++ t) = true := by
  obtain ⟨pre, c, rest, hs, hc, hp⟩ := (KeyValuePattern_iff s).1 h
  exact (KeyValuePattern_iff _).2 ⟨pre, c, rest ++ t, by rw [hs]; simp, hc, hp⟩

theorem KeyValuePattern_no_colon (s : Str) (h : ':' ∉ s) : KeyValuePattern s = false := by
  cases hk : KeyValuePattern s with
  | false => rfl
  | true =>
    obtain ⟨pre, c, rest, hs, _, _⟩ := (KeyValuePattern_iff s).1 hk
    exact absurd (by rw [hs]; simp) h

/-- C23: `KeyValuePattern` accepts the line `name:`, which the test of the patterns
expects it to reject; it accepts `name: test` and rejects `invalid` and the empty
line as the test expects. -/
theorem KeyValuePattern_accepts_bare_key :
    KeyValuePattern "name:".toList = true ∧
    KeyValuePattern "name: test".toList = true ∧
    KeyValuePattern "invalid".toList = false ∧
    KeyValuePattern [] = false :=
  ⟨rfl, rfl, rfl, rfl⟩

/-- The scan `KeyValueWithContent` accepts exactly the strings the regexp
`^.*[a-zA-Z]+: .+` matches: a letter directly followed by a colon, a space and one
more character that is no line feed, with no line feed before the letter. -/
theorem KeyValueWithContent_iff (s : Str) :
    KeyValueWithContent s = true ↔
      ∃ pre c d rest, s = pre ++ c :: ':' :: ' ' :: d :: rest ∧ isLetter c = true ∧
        Char.ofNat 10 ∉ pre ∧ d ≠ Char.ofNat 10 := by
  induction s with
  | nil =>
    constructor
    · intro h; cases h
    · rintro ⟨pre, c, d, rest, h, _⟩
      cases pre <;> cases h
  | cons a r ih =>
    constructor
    · intro h
      simp only [KeyValueWithContent] at h
      split at h
      · rename_i h1
        simp only [Bool.and_eq_true] at h1
        obtain ⟨⟨ha, hpre⟩, hd⟩ := h1
        obtain ⟨t, ht⟩ : ∃ t, r = ':' :: ' ' :: t := by
          simp only [HasPrefix, List.isPrefixOf_iff_prefix] at hpre
          obtain ⟨t, ht⟩ := hpre
          exact ⟨t, ht.symm⟩
        subst ht
        cases t with
        | nil => simp at hd
        | cons d rest =>
          refine ⟨[], a, d, rest, rfl, ha, by simp, ?_⟩
          simp only [List.drop_succ_cons, List.drop_zero, isDot, bne_iff_ne, ne_eq] at hd
          exact hd
      · by_cases h2 : isDot a = true
        · simp only [h2, if_true] at h
          obtain ⟨pre, c, d, rest, hs, hc, hp, hd⟩ := ih.1 h
          refine ⟨a :: pre, c, d, rest, by rw [hs]; rfl, hc, ?_, hd⟩
          simp only [List.mem_cons, not_or]
          refine ⟨fun hn => ?_, hp⟩
          rw [← hn] at h2
          exact absurd h2 (by decide)
        · simp only [h2, Bool.false_eq_true, if_false] at h
    · rintro ⟨pre, c, d, rest, hs, hc, hp, hd⟩
      cases pre with
      | nil =>
        simp only [List.nil_append, List.cons.injEq] at hs
        obtain ⟨rfl, rfl⟩ := hs
        have hdot : isDot d = true := by
          simpa only [isDot, bne_iff_ne, ne_eq] using hd
        simp [KeyValueWithContent, hc, HasPrefix, List.isPrefixOf, hdot]
      | cons p pre1 =>
        simp only [List.cons_append, List.cons.injEq] at hs
        obtain ⟨rfl, hr⟩ := hs
        have hrec : KeyValueWithContent r = true :=
          ih.2 ⟨pre1, c, d, rest, hr, hc, fun hm => hp (List.mem_cons_of_mem _ hm), hd⟩
        have hdot : isDot a = true := by
          simp only [isDot, bne_iff_ne, ne_eq]
          intro ha
          exact hp (ha ▸ List.mem_cons_self _ _)
        simp only [KeyValueWithContent]
        split
        · rfl
        · exact hrec

/-- C27 as worded fails: `a:b` holds a letter, a colon and later a character that is
not blank, and `KeyValueWithContent` does not match it. -/
theorem KeyValueWithContent_needs_space :
    ¬ (KeyValueWithContent "a:b".toList = true ↔ keyThenContent "a:b".toList) := by
  intro h
  have hk : keyThenContent "a:b".toList := ⟨[], 'a', [], 'b', [], rfl, rfl, rfl⟩
  exact absurd (h.2 hk) (by rw [show KeyValueWithContent "a:b".toList = false from rfl]; simp)

/-- C27, amended: on a string without a line feed `KeyValueWithContent` matches
exactly when the string holds a letter directly followed by a colon, a space and
at least one more character, of any kind. -/
theorem KeyValueWithContent_single_line (s : Str) (hs : Char.ofNat 10 ∉ s) :
    KeyValueWithContent s = true ↔ keySpaceContent s := by
  rw [KeyValueWithContent_iff]
  constructor
  · rintro ⟨pre, c, d, rest, h, hc, _, _⟩
    exact ⟨pre, c, d, rest, h, hc⟩
  · rintro ⟨pre, c, d, rest, h, hc⟩
    refine ⟨pre, c, d, rest, h, hc, ?_, ?_⟩
    · intro hm
      exact hs (by rw [h]; exact List.mem_append_left _ hm)
    · intro hd
      apply hs
      rw [h, hd]
      simp

/-- C27, amended, at the line `name: test` of the test. -/
theorem KeyValueWithContent_single_line_witness :
    (Char.ofNat 10 ∉ "name: test".toList) ∧
    (KeyValueWithContent "name: test".toList = true ↔ keySpaceContent "name: test".toList) :=
  ⟨by decide, KeyValueWithContent_single_line "name: test".toList (by decide)⟩

/-! ## The merge of a continuation line -/

/-- A flush leaves the committed lines as they are, appends one line, or replaces
the last line; no other entry changes. -/
theorem feed_result_cases (acc : Acc) (data : Str) :
    (feed acc data).result = acc.result ∨
    (∃ x, (feed acc data).result = acc.result ++ [x]) ∨
    (HasSuffix (acc.line ++ data) [newline] || HasSuffix (acc.line ++ data) [backslash, 'n']) = true ∧
      KeyValuePattern (acc.line ++ data) = false ∧ 0 < acc.result.length ∧
      (HasPrefix (TrimSpace (acc.line ++ data)) ['-', ' '] = false ∨
        KeyValueWithContent (acc.result.getLast?.getD []) = true) ∧
      (feed acc data).result = acc.result.dropLast ++
        [TrimRight (TrimRight (acc.result.getLast?.getD [] ++ (acc.line ++ data)) [newline])
          [backslash, 'n']] := by
  unfold feed
  by_cases h1 : (HasSuffix (acc.line ++ data) [newline] ||
      HasSuffix (acc.line ++ data) [backslash, 'n']) = true
  · simp only [h1, if_true]
    by_cases h2 : (!KeyValuePattern (acc.line ++ data) && decide (0 < acc.result.length) &&
        (!HasPrefix (TrimSpace (acc.line ++ data)) ['-', ' '] ||
          KeyValueWithContent (acc.result.getLast?.getD []))) = true
    · simp only [h2, if_true]
      right; right
      simp only [Bool.and_eq_true, Bool.or_eq_true, Bool.not_eq_true', decide_eq_true_eq] at h2
      exact ⟨trivial, h2.1.1, h2.1.2, h2.2, trivial⟩
    · simp only [h2, Bool.false_eq_true, if_false]
      by_cases h3 : TrimSpace (CleanYAMLMarkers (acc.line ++ data)) = []
      · simp only [h3, if_true]
        exact Or.inl trivial
      · simp only [h3, if_false]
        exact Or.inr (Or.inl ⟨_, rfl⟩)
  · simp only [h1, Bool.false_eq_true, if_false]
    exact Or.inl trivial

/-- C25: the merge removes more than the terminator of the raw line. With the line
`name: test` committed, the raw line `green` with its line feed is merged into
`name: testgree`: the final `n` of the text is cut with the line feed. -/
theorem feed_merge_cuts_text :
    feed { result := ["name: test".toList], line := [] } "green\n".toList =
      { result := ["name: testgree".toList], line := [] } ∧
    KeyValuePattern "green\n".toList = false ∧
    HasPrefix (TrimSpace "green\n".toList) ['-', ' '] = false :=
  ⟨rfl, rfl, rfl⟩

/-! ## The check of a configuration -/

/-- A call of `ValidateConfig` changes neither the receiver nor the configuration. -/
theorem ValidateConfig_unchanged (s : SDK) (config : Config) :
    (ValidateConfig s config).sdk = s ∧ (ValidateConfig s config).config = config := by
  unfold ValidateConfig
  split_ifs <;> exact ⟨rfl, rfl⟩

/-- For a temperature that is a number, `ValidateConfig` returns nil exactly when
the four constraints hold. -/
theorem ValidateConfig_number (s : SDK) (config : Config) (q : Rat)
    (ht : config.AI.Temperature = Float64.num q) :
    (ValidateConfig s config).err = none ↔ configOk config = true := by
  unfold ValidateConfig configOk
  rw [ht]
  simp only [Float64.lt, Float64.le]
  by_cases h1 : config.AI.Model = []
  · simp [h1]
  · by_cases h2 : q < 0
    · have : ¬ (0 ≤ q) := not_le.2 h2
      simp [h1, h2, this]
    · by_cases h3 : 2 < q
      · have : ¬ (q ≤ 2) := not_le.2 h3
        simp [h1, h2, h3, this]
      · have h2a : 0 ≤ q := not_lt.1 h2
        have h3a : q ≤ 2 := not_lt.1 h3
        by_cases h4 : config.AI.MaxTokens ≤ 0
        · have : ¬ (0 < config.AI.MaxTokens) := not_lt.2 h4
          simp [h1, h2, h3, h2a, h3a, h4, this]
        · by_cases h5 : config.Settings.Timeout ≤ 0
          · have : ¬ (0 < config.Settings.Timeout) := not_lt.2 h5
            simp [h1, h2, h3, h2a, h3a, h4, h5, this]
          · simp [h1, h2, h3, h2a, h3a, h4, h5, not_le.1 h4, not_le.1 h5]

/-- For a temperature other than not-a-number, `ValidateConfig` returns nil exactly
when the four constraints hold. -/
theorem ValidateConfig_ordered (s : SDK) (config : Config)
    (ht : config.AI.Temperature ≠ Float64.nan) :
    (ValidateConfig s config).err = none ↔ configOk config = true := by
  cases hq : config.AI.Temperature with
  | nan => exact absurd hq ht
  | num q => exact ValidateConfig_number s config q hq
  | negInf =>
    unfold ValidateConfig configOk
    rw [hq]
    by_cases h1 : config.AI.Model = [] <;> simp [Float64.lt, Float64.le, h1]
  | posInf =>
    unfold ValidateConfig configOk
    rw [hq]
    by_cases h1 : config.AI.Model = [] <;> simp [Float64.lt, Float64.le, h1]

/-- The error of `ValidateConfig` is the one of the first violated constraint, in
the order model, temperature, `max_tokens`, timeout. -/
theorem ValidateConfig_first_error (s : SDK) (config : Config) :
    (config.AI.Model = [] → (ValidateConfig s config).err = some "AI模型名称不能为空".toList) ∧
    (config.AI.Model ≠ [] →
      (Float64.lt config.AI.Temperature (Float64.num 0) ||
        Float64.lt (Float64.num 2) config.AI.Temperature) = true →
      (ValidateConfig s config).err = some "温度值必须在0-2之间".toList) ∧
    (config.AI.Model ≠ [] →
      (Float64.lt config.AI.Temperature (Float64.num 0) ||
        Float64.lt (Float64.num 2) config.AI.Temperature) = false →
      config.AI.MaxTokens ≤ 0 →
      (ValidateConfig s config).err = some "最大令牌数必须大于0".toList) ∧
    (config.AI.Model ≠ [] →
      (Float64.lt config.AI.Temperature (Float64.num 0) ||
        Float64.lt (Float64.num 2) config.AI.Temperature) = false →
      0 < config.AI.MaxTokens → config.Settings.Timeout ≤ 0 →
      (ValidateConfig s config).err = some "超时时间必须大于0".toList) := by
  refine ⟨fun h1 => ?_, fun h1 h2 => ?_, fun h1 h2 h3 => ?_, fun h1 h2 h3 h4 => ?_⟩
  · simp only [ValidateConfig, h1, if_true]
  · simp only [ValidateConfig, h1, if_false, h2, if_true]
  · simp only [ValidateConfig, h1, if_false, h2, Bool.false_eq_true, h3, if_true]
  · simp only [ValidateConfig, h1, if_false, h2, Bool.false_eq_true, not_le.2 h3, h4, if_true]

/-- C24: a configuration whose temperature is not a number passes `ValidateConfig`
although it does not satisfy `0 <= t <= 2`: both comparisons of the check are
false on it. -/
theorem ValidateConfig_accepts_nan (s : SDK) :
    (ValidateConfig s
      { AI := { Model := "gpt".toList, Temperature := Float64.nan, MaxTokens := 100,
                APIKey := [] },
        Settings := { Debug := false, Timeout := 30 } }).err = none ∧
    configOk
      { AI := { Model := "gpt".toList, Temperature := Float64.nan, MaxTokens := 100,
                APIKey := [] },
        Settings := { Debug := false, Timeout := 30 } } = false :=
  ⟨rfl, rfl⟩

/-! ## The frame stack after every line -/

theorem statesAfter_stackInv (lines : List Str) (st0 st : State) (h0 : StackInv st0.stack)
    (h : st ∈ statesAfter lines st0) : StackInv st.stack := by
  induction lines generalizing st0 with
  | nil => simp [statesAfter] at h
  | cons l r ih =>
    simp only [statesAfter] at h
    cases hp : processLine l r.head? st0 with
    | none => simp [hp] at h
    | some st1 =>
      simp only [hp, List.mem_cons] at h
      have h1 := processLine_stackInv l r.head? st0 st1 hp h0
      rcases h with h | h
      · rw [h]; exact h1
      · exact ih st1 h1 h

/-- The state `runLines` ends in is the last of the states after the lines. -/
theorem statesAfter_getLast (lines : List Str) (st0 st : State)
    (h : runLines lines st0 = some st) :
    (st0 :: statesAfter lines st0).getLast? = some st := by
  induction lines generalizing st0 with
  | nil =>
    simp only [runLines, Option.some.injEq] at h
    simp [statesAfter, h]
  | cons l r ih =>
    simp only [runLines] at h
    cases hp : processLine l r.head? st0 with
    | none => simp [hp] at h
    | some st1 =>
      simp only [hp] at h
      have := ih st1 h
      simp only [statesAfter, hp]
      rw [List.getLast?_cons_cons]
      exact this

/-- C28: at the start and after every processed line of every input the frame
stack is not empty, its bottom frame is the root frame with indent -1 that owns
the result map, and the indents grow strictly from the bottom to the top; so for
a line of any indent `d` the pop loop stops at a frame, the parent, whose indent
is smaller than `d`. -/
theorem LinesToMap_stack_shape (lines : List Str) (st : State)
    (h : st ∈ initState :: statesAfter lines initState) :
    st.stack ≠ [] ∧ st.stack.getLast? = some rootFrame ∧
    rootFrame.indent = -1 ∧ rootFrame.value = Value.mapRef 0 ∧
    st.stack.Pairwise (fun f g => g.indent < f.indent) ∧
    ∀ d : Nat, ∃ parent below, popFrames d st.stack = parent :: below ∧
      parent.indent < (d : Int) := by
  have hinv : StackInv st.stack := by
    rcases List.mem_cons.1 h with h | h
    · rw [h]; exact initState_stackInv
    · exact statesAfter_stackInv lines initState st initState_stackInv h
  refine ⟨?_, hinv.2, rfl, rfl, hinv.1, ?_⟩
  · intro hnil
    have := hinv.2
    rw [hnil] at this
    cases this
  · intro d
    obtain ⟨top, below, hpop, _, hlt⟩ := popFrames_inv d st.stack hinv
    exact ⟨top, below, hpop, hlt top (List.mem_cons_self _ _)⟩


/-- C28 at the state after the second of the lines `api:`, `  version: v1`,
`database:`: the stack holds the frame of `api` above the root frame. -/
theorem LinesToMap_stack_shape_witness :
    ({ heap := [[("api".toList, Value.mapRef 1)], [("version".toList, Value.str "v1".toList)]],
       stack := [{ value := Value.mapRef 1, key := "api".toList, indent := 0 }, rootFrame] } :
        State) ∈ initState ::
      statesAfter ["api:".toList, "  version: v1".toList, "database:".toList] initState ∧
    ([{ value := Value.mapRef 1, key := "api".toList, indent := 0 }, rootFrame] : List node) ≠ [] ∧
    ([{ value := Value.mapRef 1, key := "api".toList, indent := 0 }, rootFrame] :
      List node).getLast? = some rootFrame ∧
    rootFrame.indent = -1 ∧ rootFrame.value = Value.mapRef 0 ∧
    ([{ value := Value.mapRef 1, key := "api".toList, indent := 0 }, rootFrame] :
      List node).Pairwise (fun f g => g.indent < f.indent) ∧
    ∀ d : Nat, ∃ parent below,
      popFrames d [{ value := Value.mapRef 1, key := "api".toList, indent := 0 }, rootFrame] =
        parent :: below ∧ parent.indent < (d : Int) :=
  ⟨List.mem_cons_of_mem _ (List.mem_cons_of_mem _ (List.mem_cons_self _ _)),
    LinesToMap_stack_shape ["api:".toList, "  version: v1".toList, "database:".toList]
      { heap := [[("api".toList, Value.mapRef 1)], [("version".toList, Value.str "v1".toList)]],
        stack := [{ value := Value.mapRef 1, key := "api".toList, indent := 0 }, rootFrame] }
      (List.mem_cons_of_mem _ (List.mem_cons_of_mem _ (List.mem_cons_self _ _)))⟩

/-! ## A key/value line appended at the top level -/

/-- Reading a value stored in the map at address `a` only looks at maps allocated
after `a`. -/
theorem reify_agree (h h1 : Heap) (hwf : h.WF)
    (fuel : Nat) : ∀ (a : Nat) (v : Value), valueOk h.length a v →
      (∀ b, a < b → h1.deref b = h.deref b) → reify h1 fuel v = reify h fuel v := by
  induction fuel with
  | zero =>
    intro a v _ _
    cases v <;> rfl
  | succ f ih =>
    intro a v hv hag
    cases v with
    | str s => rfl
    | mapRef b =>
      have hb : a < b := hv.1
      have hm : ∀ kv ∈ h.deref b, reify h1 f kv.2 = reify h f kv.2 := fun kv hkv =>
        ih b kv.2 (hwf b kv hkv) fun c hc => hag c (Nat.lt_trans hb hc)
      simp only [reify]
      rw [hag b hb]
      congr 1
      congr 1
      apply List.map_congr_left
      intro kv hkv
      rw [hm kv hkv]
    | arr xs =>
      have hm : ∀ x ∈ xs, reify h1 f x = reify h f x := by
        intro x hx
        have hex : elemOk h.length a x := hv x hx
        cases x with
        | str s => exact ih a _ trivial hag
        | mapRef b => exact ih a _ hex hag
        | arr ys => exact absurd hex (by simp [elemOk])
      simp only [reify]
      congr 1
      congr 1
      apply List.map_congr_left
      intro x hx
      exact hm x hx

theorem allSome_lookup_none (h : Heap) (fuel : Nat) (m : GoMap) (kvs : List (Str × Tree))
    (key : Str)
    (hall : allSome (m.map fun kv : Str × Value =>
        match reify h fuel kv.2 with
        | none => none
        | some t => some (kv.1, t)) = some kvs)
    (hget : assocGet m key = none) : assocGet kvs key = none := by
  induction m generalizing kvs with
  | nil =>
    simp only [List.map_nil, allSome, Option.some.injEq] at hall
    subst hall
    rfl
  | cons p r ih =>
    obtain ⟨k1, w⟩ := p
    simp only [List.map_cons] at hall
    cases hw : reify h fuel w with
    | none => simp only [hw, allSome] at hall; cases hall
    | some t1 =>
      cases hr : allSome (r.map fun kv : Str × Value =>
          match reify h fuel kv.2 with
          | none => none
          | some t => some (kv.1, t)) with
      | none => simp only [hw, hr, allSome] at hall; cases hall
      | some kvs1 =>
        simp only [hw, hr, allSome, Option.some.injEq] at hall
        subst hall
        by_cases h1 : k1 = key
        · simp only [assocGet, h1, if_true] at hget
          cases hget
        · simp only [assocGet, h1, if_false] at hget ⊢
          exact ih kvs1 hr hget

/-- The line `k: v` without indentation, in a state reached by the loop, stores the
string under `k` in the root map. -/
theorem processLine_last_keyValue (k v : Str) (st : State) (hk : k ≠ [])
    (hkp : ∀ c ∈ k, plain c) (hv : v ≠ []) (hvp : ∀ c ∈ v, plain c)
    (hinv : StackInv st.stack) :
    processLine (k ++ [':', ' '] ++ v) none st =
      some { heap := st.heap.store 0 k (Value.str v), stack := [rootFrame] } := by
  have h := processLine_padded 0 (k ++ [':', ' '] ++ v) none st (tidy_keyValue k v hk hkp hv hvp)
  rw [show List.replicate (2 * 0) ' ' ++ (k ++ [':', ' '] ++ v) = k ++ [':', ' '] ++ v from rfl]
    at h
  rw [h, processTrimmed_keyValue 0 k v none st rootFrame [] 0 hk hkp hv hvp
    (popFrames_zero st.stack hinv) rfl]

/-- C29: the line `k: v` appended to lines on which `LinesToMap` does not panic
gives a mapping whose value under `k` is the scalar `v` and whose value under
every other key is the one of the mapping for the lines alone. -/
theorem LinesToMap_append_keyValue (lines : List Str) (k v : Str) (hk : isKey k = true)
    (hv : isLettersDigitsDots v = true) (hok : LinesToMap lines ≠ Outcome.panicked) :
    ∃ m m1, LinesToMap lines = Outcome.returned (some (Tree.mapping m)) none ∧
      LinesToMap (lines ++ [k ++ [':', ' '] ++ v]) =
        Outcome.returned (some (Tree.mapping m1)) none ∧
      Tree.lookup m1 k = some (Tree.scalar v) ∧
      ∀ key, key ≠ k → Tree.lookup m1 key = Tree.lookup m key := by
  obtain ⟨hk1, hkp⟩ := plain_of_isKey hk
  obtain ⟨hv1, hvp⟩ := plain_of_isLettersDigitsDots hv
  cases hrun : runLines lines initState with
  | none => exact absurd (by simp only [LinesToMap, hrun]) hok
  | some s =>
    have hstack := runLines_stackInv lines initState s hrun initState_stackInv
    obtain ⟨hwf, hpos, _⟩ := runLines_inv lines initState s hrun initState_inv
    have hx : CalculateIndent (k ++ [':', ' '] ++ v) = 0 :=
      (padded_line 0 _ (tidy_keyValue k v hk1 hkp hv1 hvp)).2
    have hlast : runLines (lines ++ [k ++ [':', ' '] ++ v]) initState =
        some { heap := s.heap.store 0 k (Value.str v), stack := [rootFrame] } := by
      rw [runLines_append_last lines _ initState hx, hrun]
      exact processLine_last_keyValue k v s hk1 hkp hv1 hvp hstack
    have hsome := toTree_isSome _ _ hrun
    have hsome1 := toTree_isSome _ _ hlast
    obtain ⟨m0, rest, hheap⟩ : ∃ m0 rest, s.heap = m0 :: rest := by
      cases hs : s.heap with
      | nil => rw [hs] at hpos; cases hpos
      | cons m0 rest => exact ⟨m0, rest, rfl⟩
    have hstore : Heap.store s.heap 0 k (Value.str v) = assocSet m0 k (Value.str v) :: rest := by
      rw [hheap]
      rfl
    simp only [hstore] at hlast hsome1
    rw [hheap] at hsome hwf
    have hfuel : 2 * (m0 :: rest).length = (2 * rest.length + 1) + 1 := by
      simp only [List.length_cons]
      omega
    have hfuel1 : 2 * (assocSet m0 k (Value.str v) :: rest).length = (2 * rest.length + 1) + 1 := by
      simp only [List.length_cons]
      omega
    cases ht : Heap.toTree (m0 :: rest) with
    | none => rw [ht] at hsome; cases hsome
    | some t =>
      cases ht1 : Heap.toTree (assocSet m0 k (Value.str v) :: rest) with
      | none => rw [ht1] at hsome1; cases hsome1
      | some t1 =>
        have e := ht
        have e1 := ht1
        simp only [Heap.toTree] at e e1
        rw [hfuel] at e
        rw [hfuel1] at e1
        obtain ⟨kvs, hkvs, hall⟩ := reify_mapRef_eq _ _ 0 t e
        obtain ⟨kvs1, hkvs1, hall1⟩ := reify_mapRef_eq _ _ 0 t1 e1
        have hd : Heap.deref (m0 :: rest) 0 = m0 := rfl
        have hd1 : Heap.deref (assocSet m0 k (Value.str v) :: rest) 0 =
            assocSet m0 k (Value.str v) := rfl
        rw [hd] at hall
        rw [hd1] at hall1
        refine ⟨kvs, kvs1, ?_, ?_, ?_, ?_⟩
        · simp only [LinesToMap, hrun, hheap, ht, hkvs]
        · simp only [LinesToMap, hlast, ht1, hkvs1]
        · have hget : assocGet (assocSet m0 k (Value.str v)) k = some (Value.str v) := by
            rw [assocGet_set]
            simp
          obtain ⟨t2, ht2, hlook⟩ := allSome_lookup _ _ _ kvs1 k _ hall1 hget
          have : reify (assocSet m0 k (Value.str v) :: rest) (2 * rest.length + 1)
              (Value.str v) = some (Tree.scalar v) := by
            cases hn : 2 * rest.length + 1 <;> rfl
          rw [this] at ht2
          cases ht2
          exact hlook
        · intro key hkey
          have hget1 : assocGet (assocSet m0 k (Value.str v)) key = assocGet m0 key := by
            rw [assocGet_set, if_neg (Ne.symm hkey)]
          cases hg : assocGet m0 key with
          | none =>
            rw [hg] at hget1
            show assocGet kvs1 key = assocGet kvs key
            rw [allSome_lookup_none _ _ _ kvs1 key hall1 hget1,
              allSome_lookup_none _ _ _ kvs key hall hg]
          | some w =>
            rw [hg] at hget1
            obtain ⟨t2, ht2, hlook⟩ := allSome_lookup _ _ _ kvs key w hall hg
            obtain ⟨t3, ht3, hlook1⟩ := allSome_lookup _ _ _ kvs1 key w hall1 hget1
            have hwok : valueOk (m0 :: rest).length 0 w :=
              hwf 0 (key, w) (mem_of_assocGet m0 key w hg)
            have hag := reify_agree (m0 :: rest) (assocSet m0 k (Value.str v) :: rest) hwf
              (2 * rest.length + 1) 0 w hwok (fun b hb => by
                cases b with
                | zero => cases hb
                | succ c => rfl)
            rw [hag, ht2] at ht3
            cases ht3
            show assocGet kvs1 key = assocGet kvs key
            rw [hlook, hlook1]

/-- C29 at lines of the test: `version: 2` after a nested key and a list. -/
theorem LinesToMap_append_keyValue_witness :
    ∃ m m1, LinesToMap ["api:".toList, "  version: v1".toList, "items:".toList,
        "  - one".toList] = Outcome.returned (some (Tree.mapping m)) none ∧
      LinesToMap (["api:".toList, "  version: v1".toList, "items:".toList, "  - one".toList] ++
          ["version".toList ++ [':', ' '] ++ "2".toList]) =
        Outcome.returned (some (Tree.mapping m1)) none ∧
      Tree.lookup m1 "version".toList = some (Tree.scalar "2".toList) ∧
      ∀ key, key ≠ "version".toList → Tree.lookup m1 key = Tree.lookup m key :=
  LinesToMap_append_keyValue ["api:".toList, "  version: v1".toList, "items:".toList,
    "  - one".toList] "version".toList "2".toList rfl rfl (fun h => Outcome.noConfusion h)

/-! ## The flush at the end of the stream -/

theorem mem_dropWhile_of_false {α : Type} (p : α → Bool) (s : List α) (c : α) (hc : c ∈ s)
    (hp : p c = false) : c ∈ s.dropWhile p := by
  induction s with
  | nil => cases hc
  | cons a r ih =>
    by_cases ha : p a = true
    · simp only [List.dropWhile, ha]
      rcases List.mem_cons.1 hc with h | h
      · rw [h, ha] at hp
        cases hp
      · exact ih h
    · simp only [List.dropWhile, ha]
      exact hc

theorem TrimSpace_ne_nil_of_mem (s : Str) (c : Char) (hc : c ∈ s) (hs : isSpace c = false) :
    TrimSpace s ≠ [] := by
  have h1 : c ∈ TrimSpace s := by
    unfold TrimSpace
    rw [List.mem_reverse]
    apply mem_dropWhile_of_false _ _ _ _ hs
    rw [List.mem_reverse]
    exact mem_dropWhile_of_false _ _ _ hc hs
  intro h
  rw [h] at h1
  cases h1

theorem TrimSpace_ne_nil_of_pattern (s : Str) (h : KeyValuePattern s = true) :
    TrimSpace s ≠ [] := by
  obtain ⟨pre, c, rest, hs, hc, _⟩ := (KeyValuePattern_iff s).1 h
  exact TrimSpace_ne_nil_of_mem s c (by rw [hs]; simp) (plain_of_letter hc).1

/-- A text without a backtick holds no fence marker. -/
theorem CleanYAMLMarkers_no_backtick (s : Str) (h : ∀ c ∈ s, c ≠ Char.ofNat 96) :
    CleanYAMLMarkers s = s := by
  apply CleanYAMLMarkers_fixed
  · cases hp : HasPrefix s fenceOpen with
    | false => rfl
    | true =>
      simp only [HasPrefix, List.isPrefixOf_iff_prefix] at hp
      exact absurd rfl (h _ (hp.subset (by rw [fenceOpen_eq]; simp)))
  · cases hp : HasSuffix s fenceClose with
    | false => rfl
    | true =>
      simp only [HasSuffix, List.isPrefixOf_iff_prefix] at hp
      have hm : Char.ofNat 96 ∈ s.reverse := hp.subset (by rw [fenceClose_eq]; simp)
      exact absurd rfl (h _ (List.mem_reverse.1 hm))

end Aiyaml
